import Mathlib

/-!
# superstrip: region discovery, merging, displacement planning and header patching

A shallow embedding of `superstrip.c`.  Machine integers are natural numbers; every
32-bit operation of the C code is written with `add32` / `sub32`, which reduce modulo
`2^32` exactly where the C operation does.  The linked list of regions is a `List region`,
the global variables `ehdr`, `phdr`, `ph_offset`, `ph_filesz` are the fields of `hdrs`,
and a call to one of the `strerr_die*` functions is an `Except.error` with the exit status.
-/

namespace Superstrip

/-! ## Constants -/

/-- The copy block size (`#define BUFSIZE 8192`). -/
def BUFSIZE : Nat := 8192

/-- The default page size (`#define PAGESIZE 0x1000`). -/
def PAGESIZE : Nat := 0x1000

/-- From the system header elf.h: number of magic bytes. -/
def SELFMAG : Nat := 4

/-- From the system header elf.h: the magic bytes 0x7F 'E' 'L' 'F'. -/
def ELFMAG : List Nat := [0x7f, 0x45, 0x4c, 0x46]

/-- From the system header elf.h: index of the class byte in `e_ident`. -/
def EI_CLASS : Nat := 4

/-- From the system header elf.h: index of the data-encoding byte in `e_ident`. -/
def EI_DATA : Nat := 5

/-- From the system header elf.h: index of the version byte in `e_ident`. -/
def EI_VERSION : Nat := 6

/-- From the system header elf.h: 32-bit objects. -/
def ELFCLASS32 : Nat := 1

/-- From the system header elf.h: two's complement, little endian. -/
def ELFDATA2LSB : Nat := 1

/-- From the system header elf.h: two's complement, big endian. -/
def ELFDATA2MSB : Nat := 2

/-- From the system header elf.h: current version. -/
def EV_CURRENT : Nat := 1

/-- From the system header elf.h: executable file type. -/
def ET_EXEC : Nat := 2

/-- From the system header elf.h: unused program header table entry. -/
def PT_NULL : Nat := 0

/-- The value of `sizeof(Elf32_Ehdr)`: 16 identification bytes, then
2+2+4+4+4+4+4+2+2+2+2+2+2 bytes of fields. -/
def SIZEOF_EHDR : Nat := 52

/-- The value of `sizeof(Elf32_Phdr)`: eight 32-bit words. -/
def SIZEOF_PHDR : Nat := 32

/-! ## 32-bit unsigned arithmetic -/

/-- Addition of two `Elf32_Off` / `Elf32_Word` values (unsigned, modulo `2^32`). -/
def add32 (a b : Nat) : Nat := (a + b) % 4294967296

/-- Subtraction of two `Elf32_Off` / `Elf32_Word` values (unsigned, modulo `2^32`);
both arguments are 32-bit values. -/
def sub32 (a b : Nat) : Nat := (a + 4294967296 - b) % 4294967296

/-! ## Data model -/

/-- The ELF file header `Elf32_Ehdr`. -/
structure Elf32_Ehdr where
  e_ident : List Nat
  e_type : Nat
  e_machine : Nat
  e_version : Nat
  e_entry : Nat
  e_phoff : Nat
  e_shoff : Nat
  e_flags : Nat
  e_ehsize : Nat
  e_phentsize : Nat
  e_phnum : Nat
  e_shentsize : Nat
  e_shnum : Nat
  e_shstrndx : Nat
  deriving DecidableEq, Repr

/-- One entry of the program header table, `Elf32_Phdr`. -/
structure Elf32_Phdr where
  p_type : Nat
  p_offset : Nat
  p_vaddr : Nat
  p_paddr : Nat
  p_filesz : Nat
  p_memsz : Nat
  p_flags : Nat
  p_align : Nat
  deriving DecidableEq, Repr

/-- A node of the region list (`struct region_s`, without the `next` pointer). -/
structure region where
  offset : Nat
  filesz : Nat
  disp : Nat
  toffset : Nat
  deriving DecidableEq, Repr

/-- The global variables `ehdr`, `phdr`, `ph_offset`, `ph_filesz`. -/
structure hdrs where
  ehdr : Elf32_Ehdr
  phdr : List Elf32_Phdr
  ph_offset : Nat
  ph_filesz : Nat
  deriving DecidableEq, Repr

/-- The field widths of `Elf32_Ehdr`: sixteen identification bytes, 16-bit halves and
32-bit words. -/
def ehdr_ok (h : Elf32_Ehdr) : Prop :=
  h.e_ident.length = 16 ∧ (∀ b ∈ h.e_ident, b < 256) ∧
  h.e_type < 65536 ∧ h.e_machine < 65536 ∧ h.e_version < 4294967296 ∧
  h.e_entry < 4294967296 ∧ h.e_phoff < 4294967296 ∧ h.e_shoff < 4294967296 ∧
  h.e_flags < 4294967296 ∧ h.e_ehsize < 65536 ∧ h.e_phentsize < 65536 ∧
  h.e_phnum < 65536 ∧ h.e_shentsize < 65536 ∧ h.e_shnum < 65536 ∧ h.e_shstrndx < 65536

instance (h : Elf32_Ehdr) : Decidable (ehdr_ok h) := by
  unfold ehdr_ok; infer_instance

/-- The field widths of `Elf32_Phdr`: eight 32-bit words. -/
def phdr_ok (p : Elf32_Phdr) : Prop :=
  p.p_type < 4294967296 ∧ p.p_offset < 4294967296 ∧ p.p_vaddr < 4294967296 ∧
  p.p_paddr < 4294967296 ∧ p.p_filesz < 4294967296 ∧ p.p_memsz < 4294967296 ∧
  p.p_flags < 4294967296 ∧ p.p_align < 4294967296

instance (p : Elf32_Phdr) : Decidable (phdr_ok p) := by
  unfold phdr_ok; infer_instance

/-! ## read_hdrs -/

/-- The table `elfdata2[ENDIAN]` of `read_hdrs`, for `ENDIAN` 0 or 1. -/
def elfdata2 (ENDIAN : Int) : Nat :=
  [ELFDATA2LSB, ELFDATA2MSB].getD ENDIAN.toNat 0

/-- The function `read_hdrs`.  `ENDIAN` is the compile-time macro (0 little, 1 big, -1
unknown).  `rd_ehdr` is the result of the first `allread` (`none`: short read),
`rd_phdr` the entries the file holds at `e_phoff` (`none`: the seek failed; fewer than
`e_phnum` entries: short read).  Exit status 111 is an I/O error, 100 a format error.
The test of `e_type` only prints a warning and is not part of the result; the allocation
of the table is taken to succeed. -/
def read_hdrs (ENDIAN : Int) (rd_ehdr : Option Elf32_Ehdr)
    (rd_phdr : Option (List Elf32_Phdr)) : Except Nat hdrs :=
  match rd_ehdr with
  | none => .error 111
  | some ehdr =>
    if ehdr.e_ident.take SELFMAG ≠ ELFMAG then .error 100
    else if ehdr.e_ident.getD EI_CLASS 0 ≠ ELFCLASS32 then .error 100
    else if ENDIAN < 0 then .error 100
    else if ehdr.e_ident.getD EI_DATA 0 ≠ elfdata2 ENDIAN then .error 100
    else if ehdr.e_ident.getD EI_VERSION 0 ≠ EV_CURRENT then .error 100
    else if ehdr.e_version ≠ EV_CURRENT then .error 100
    else if ehdr.e_phoff = 0 then .error 100
    else if ehdr.e_phentsize ≠ SIZEOF_PHDR then .error 100
    else if ehdr.e_phnum = 0 then .error 100
    else
      match rd_phdr with
      | none => .error 111
      | some t =>
        if t.length < ehdr.e_phnum then .error 111
        else .ok
          { ehdr := ehdr
            phdr := t.take ehdr.e_phnum
            ph_offset := ehdr.e_phoff
            ph_filesz := (ehdr.e_phentsize * ehdr.e_phnum) % 4294967296 }

/-! ## compute_regions -/

/-- The values `lo, lo+1, ..., n-1` of a `long` loop counter, for `lo ≤ 0`. -/
def long_range (lo : Int) (n : Nat) : List Int :=
  (List.range (n + lo.natAbs)).map (fun (k : Nat) => (k : Int) + lo)

/-- Lines 299-307 of `compute_regions`: the loop that merges the following regions `q`
into `p`.  The result is the list from `p` on. -/
def merge_next (p : region) : List region → List region
  | [] => [p]
  | q :: rest =>
    if q.offset ≤ add32 p.offset p.filesz then
      merge_next
        (if add32 q.offset q.filesz > add32 p.offset p.filesz
         then { p with filesz := add32 (sub32 q.offset p.offset) q.filesz }
         else p) rest
    else p :: q :: rest

/-- Lines 282-307 of `compute_regions`: `p` is the region the scan stopped after (if any)
and `q` the list from the region it stopped at.  The result is the list from `p` on.
The allocation of a region is taken to succeed; a freshly allocated region has its `disp`
and `toffset` written by `compute_disps` before they are ever read; they are 0 here. -/
def merge_at (s_offset s_filesz : Nat) (p : Option region) (q : List region) :
    List region :=
  match p with
  | some p =>
    if add32 p.offset p.filesz ≥ s_offset then
      merge_next
        (if add32 s_offset s_filesz > add32 p.offset p.filesz
         then { p with filesz := add32 (sub32 s_offset p.offset) s_filesz }
         else p) q
    else
      p :: merge_next { offset := s_offset, filesz := s_filesz, disp := 0, toffset := 0 } q
  | none =>
    merge_next { offset := s_offset, filesz := s_filesz, disp := 0, toffset := 0 } q

/-- Lines 277-281 of `compute_regions`: the scan `while (q && (q->offset < s_offset))`,
followed by the merge.  The result is the list from `p` on. -/
def insert_scan (s_offset s_filesz : Nat) (p : Option region) :
    List region → List region
  | [] => merge_at s_offset s_filesz p []
  | q :: rest =>
    if q.offset < s_offset then p.toList ++ insert_scan s_offset s_filesz (some q) rest
    else merge_at s_offset s_filesz p (q :: rest)

/-- Lines 273-307 of `compute_regions`: add the part `[s_offset, s_offset + s_filesz)`
of the file to the region list (`p = 0`, `q = first_region`). -/
def insert_region (s_offset s_filesz : Nat) (first_region : List region) : List region :=
  insert_scan s_offset s_filesz none first_region

/-- Lines 253-271 of `compute_regions`: the part of the file that iteration `i` adds;
`none` when the iteration ends in `continue`. -/
def segment_of (g : hdrs) (i : Int) : Option (Nat × Nat) :=
  if i = -2 then
    if SIZEOF_EHDR = 0 then none else some (0, SIZEOF_EHDR)
  else if i = -1 then
    if g.ph_filesz = 0 then none else some (g.ph_offset, g.ph_filesz)
  else
    match g.phdr[i.toNat]? with
    | none => none
    | some ph =>
      if ph.p_type = PT_NULL then none
      else if ph.p_filesz = 0 then none
      else some (ph.p_offset, ph.p_filesz)

/-- One iteration of the loop of `compute_regions`. -/
def compute_regions_iter (g : hdrs) (first_region : List region) (i : Int) :
    List region :=
  match segment_of g i with
  | none => first_region
  | some s => insert_region s.1 s.2 first_region

/-- The loop of `compute_regions` run over the given values of `i`, from the empty list. -/
def compute_regions_upto (g : hdrs) (is : List Int) : List region :=
  is.foldl (compute_regions_iter g) []

/-- The function `compute_regions`: `for (i = -2 ; i < (long)ehdr.e_phnum ; i++)`. -/
def compute_regions (g : hdrs) : List region :=
  compute_regions_upto g (long_range (-2) g.ehdr.e_phnum)

/-! ## compute_disps -/

/-- The loop of `compute_disps`, started with the given `curoff`. -/
def compute_disps_from (curoff : Nat) : List region → List region
  | [] => []
  | p :: rest =>
    let curdisp := ((sub32 p.offset curoff) / PAGESIZE * PAGESIZE) % 4294967296
    let toffset := sub32 p.offset curdisp
    { p with disp := curdisp, toffset := toffset } ::
      compute_disps_from (add32 toffset p.filesz) rest

/-- The function `compute_disps` (`curoff = 0`). -/
def compute_disps (first_region : List region) : List region :=
  compute_disps_from 0 first_region

/-- The subtraction `p->offset - curoff` of `compute_disps` does not underflow in any
iteration of the loop started with the given `curoff`. -/
def disps_no_underflow (curoff : Nat) : List region → Prop
  | [] => True
  | p :: rest =>
    curoff ≤ p.offset ∧
    disps_no_underflow
      (add32 (sub32 p.offset (((sub32 p.offset curoff) / PAGESIZE * PAGESIZE) % 4294967296))
        p.filesz) rest

/-! ## modify_hdrs -/

/-- The test of line 388 of `modify_hdrs`: region `p` holds the part
`[s_offset, s_offset + s_filesz)`, in 32-bit arithmetic. -/
def region_holds (s_offset s_filesz : Nat) (p : region) : Bool :=
  decide (s_offset ≥ p.offset ∧ add32 s_offset s_filesz ≤ add32 p.offset p.filesz)

/-- The inner loop of `modify_hdrs` (line 387): the first region that passes the test. -/
def find_region (first_region : List region) (s_offset s_filesz : Nat) : Option region :=
  first_region.find? (region_holds s_offset s_filesz)

/-- One iteration of the loop of `modify_hdrs`; exit status 101 is the internal error
"unable to find region". -/
def modify_hdrs_iter (first_region : List region) (st : hdrs) (i : Int) :
    Except Nat hdrs :=
  if i = -1 then
    match find_region first_region st.ph_offset st.ph_filesz with
    | none => .error 101
    | some p => .ok { st with ehdr := { st.ehdr with e_phoff := sub32 st.ehdr.e_phoff p.disp } }
  else
    match st.phdr[i.toNat]? with
    | none => .ok st
    | some ph =>
      if ph.p_type = PT_NULL ∨ ph.p_filesz = 0 then .ok st
      else
        match find_region first_region ph.p_offset ph.p_filesz with
        | none => .error 101
        | some p =>
          .ok { st with
                phdr := st.phdr.set i.toNat { ph with p_offset := sub32 ph.p_offset p.disp } }

/-- The function `modify_hdrs`. -/
def modify_hdrs (first_region : List region) (g : hdrs) : Except Nat hdrs :=
  (long_range (-1) g.ehdr.e_phnum).foldlM (modify_hdrs_iter first_region)
    { g with ehdr := { g.ehdr with e_shoff := 0, e_shentsize := 0, e_shnum := 0,
                                   e_shstrndx := 0 } }

/-! ## process_file -/

/-- The bytes of a `width`-byte unsigned field holding `v`, in host order (`ENDIAN` 0:
least significant byte first). -/
def field_bytes (ENDIAN : Int) (width v : Nat) : List Nat :=
  if ENDIAN = 0 then (List.range width).map (fun k => v / 256 ^ k % 256)
  else ((List.range width).map (fun k => v / 256 ^ k % 256)).reverse

/-- The memory image `(char *)&ehdr` of the file header: the fields of `Elf32_Ehdr` in
declaration order (all naturally aligned, no padding). -/
def ehdr_image (ENDIAN : Int) (h : Elf32_Ehdr) : List Nat :=
  h.e_ident ++ field_bytes ENDIAN 2 h.e_type ++ field_bytes ENDIAN 2 h.e_machine ++
  field_bytes ENDIAN 4 h.e_version ++ field_bytes ENDIAN 4 h.e_entry ++
  field_bytes ENDIAN 4 h.e_phoff ++ field_bytes ENDIAN 4 h.e_shoff ++
  field_bytes ENDIAN 4 h.e_flags ++ field_bytes ENDIAN 2 h.e_ehsize ++
  field_bytes ENDIAN 2 h.e_phentsize ++ field_bytes ENDIAN 2 h.e_phnum ++
  field_bytes ENDIAN 2 h.e_shentsize ++ field_bytes ENDIAN 2 h.e_shnum ++
  field_bytes ENDIAN 2 h.e_shstrndx

/-- The memory image of one `Elf32_Phdr`: eight 4-byte fields in declaration order. -/
def phdr_entry_image (ENDIAN : Int) (p : Elf32_Phdr) : List Nat :=
  field_bytes ENDIAN 4 p.p_type ++ field_bytes ENDIAN 4 p.p_offset ++
  field_bytes ENDIAN 4 p.p_vaddr ++ field_bytes ENDIAN 4 p.p_paddr ++
  field_bytes ENDIAN 4 p.p_filesz ++ field_bytes ENDIAN 4 p.p_memsz ++
  field_bytes ENDIAN 4 p.p_flags ++ field_bytes ENDIAN 4 p.p_align

/-- The memory image `(char *)phdr` of the descriptor table. -/
def phdr_image (ENDIAN : Int) : List Elf32_Phdr → List Nat
  | [] => []
  | p :: rest => phdr_entry_image ENDIAN p ++ phdr_image ENDIAN rest

/-- The call `allread(0, buf, n)` with the input positioned at `pos`: the `n` bytes read,
or `none` when the file (a partial map from offsets to bytes) lacks one of them. -/
def allread (input : Nat → Option Nat) (pos n : Nat) : Option (List Nat) :=
  if (List.range n).all (fun k => (input (pos + k)).isSome)
  then some ((List.range n).map (fun k => (input (pos + k)).getD 0))
  else none

/-- The call `byte_copy(buf + posb, len, src + posa)`: positions `posb ≤ k < posb + len`
of the buffer receive `src[posa + (k - posb)]` (0 for a position past the end of
`src`). -/
def byte_copy (buf : List Nat) (posb len : Nat) (src : List Nat) (posa : Nat) : List Nat :=
  (List.range buf.length).map (fun k =>
    if posb ≤ k ∧ k < posb + len then src.getD (posa + (k - posb)) 0 else buf.getD k 0)

/-- Lines 440-449 of `process_file`: the values `(posa, posb, len)` of the copy from the
file header, when the block starts inside the file header range. -/
def ehdr_splice (thisoff thisread : Nat) : Option (Nat × Nat × Nat) :=
  if thisoff < SIZEOF_EHDR then
    some (thisoff, 0,
      if SIZEOF_EHDR - thisoff > thisread - 0 then thisread - 0 else SIZEOF_EHDR - thisoff)
  else none

/-- Lines 475-492 of `process_file`: the values `(posa, posb, len)` of the copy from the
descriptor table, when the block meets the table range.  The sum
`ph_offset + ph_filesz` is a 32-bit sum; the guarded subtractions cannot underflow. -/
def phdr_splice (ph_offset ph_filesz thisoff thisread thisendoff : Nat) :
    Option (Nat × Nat × Nat) :=
  if thisoff < add32 ph_offset ph_filesz ∧ ph_offset < thisendoff then
    let posa := if thisoff < ph_offset then 0 else thisoff - ph_offset
    let posb := if thisoff < ph_offset then ph_offset - thisoff else 0
    some (posa, posb,
      if ph_filesz - posa > thisread - posb then thisread - posb else ph_filesz - posa)
  else none

/-- The `byte_copy` of a splice, if the splice takes place. -/
def apply_splice (buf src : List Nat) : Option (Nat × Nat × Nat) → List Nat
  | none => buf
  | some (posa, posb, len) => byte_copy buf posb len src posa

/-- The call `allwrite(1, buf, thisread)` with the output positioned at `pos`; the output
file is a partial map from offsets to bytes. -/
def allwrite (out : Nat → Option Nat) (pos : Nat) (buf : List Nat) : Nat → Option Nat :=
  fun y => if pos ≤ y ∧ y < pos + buf.length then buf[y - pos]? else out y

/-- The inner loop of `process_file` (lines 429-524).  `SIZE_MOD` is `SIZE_MAX + 1` of the
host (`size_t` sums are reduced modulo it), `inpos` and `outpos` are the file positions
of input and output.  Seeks and writes are taken to succeed; a short read is exit status
111.  Each iteration lowers `toread`, so `fuel = toread` is enough; `none` is returned
when the fuel runs out. -/
def copy_blocks (SIZE_MOD : Nat) (input : Nat → Option Nat) (ehdr_mem phdr_mem : List Nat)
    (ph_offset ph_filesz : Nat) :
    Nat → Nat → Nat → Nat → Nat → (Nat → Option Nat) →
    Option (Except Nat (Nat → Option Nat))
  | fuel, thisoff, toread, inpos, outpos, out =>
    if toread > 0 then
      match fuel with
      | 0 => none
      | fuel + 1 =>
        let thisread := if toread > BUFSIZE then BUFSIZE else toread
        match allread input inpos thisread with
        | none => some (.error 111)
        | some buf =>
          let thisendoff := (thisoff + thisread) % SIZE_MOD
          let buf := apply_splice buf ehdr_mem (ehdr_splice thisoff thisread)
          let buf := apply_splice buf phdr_mem
            (phdr_splice ph_offset ph_filesz thisoff thisread thisendoff)
          copy_blocks SIZE_MOD input ehdr_mem phdr_mem ph_offset ph_filesz fuel
            ((thisoff + thisread) % SIZE_MOD) (toread - thisread) (inpos + thisread)
            (outpos + thisread) (allwrite out outpos buf)
    else some (.ok out)

/-- The outer loop of `process_file` (lines 409-427 and 525). -/
def copy_regions (SIZE_MOD : Nat) (input : Nat → Option Nat) (ehdr_mem phdr_mem : List Nat)
    (ph_offset ph_filesz : Nat) :
    List region → (Nat → Option Nat) → Option (Except Nat (Nat → Option Nat))
  | [], out => some (.ok out)
  | p :: rest, out =>
    match copy_blocks SIZE_MOD input ehdr_mem phdr_mem ph_offset ph_filesz
        p.filesz p.offset p.filesz p.offset p.toffset out with
    | some (.ok out') =>
      copy_regions SIZE_MOD input ehdr_mem phdr_mem ph_offset ph_filesz rest out'
    | other => other

/-- The function `process_file`, run with the globals `g` (the headers as patched by
`modify_hdrs`) on an empty output file. -/
def process_file (SIZE_MOD : Nat) (ENDIAN : Int) (first_region : List region) (g : hdrs)
    (input : Nat → Option Nat) : Option (Except Nat (Nat → Option Nat)) :=
  copy_regions SIZE_MOD input (ehdr_image ENDIAN g.ehdr) (phdr_image ENDIAN g.phdr)
    g.ph_offset g.ph_filesz first_region (fun _ => none)

/-! ## main and the warnings -/

/-- The warnings of the program (the calls of `strerr_warnw2x`). -/
inductive warning where
  /-- Line 149: the file "is not an executable". -/
  | not_an_executable
  /-- Line 267: "alignment not multiple of page size", printed in iteration `i` of the
  loop of `compute_regions`. -/
  | alignment_not_multiple (i : Nat)
  deriving DecidableEq, Repr

/-- The warnings that `read_hdrs` prints: line 148 is reached when the first read and the
checks of lines 123-147 have passed, and its warning does not end the function. -/
def read_hdrs_warnings (ENDIAN : Int) (rd_ehdr : Option Elf32_Ehdr) : List warning :=
  match rd_ehdr with
  | none => []
  | some ehdr =>
    if ehdr.e_ident.take SELFMAG ≠ ELFMAG then []
    else if ehdr.e_ident.getD EI_CLASS 0 ≠ ELFCLASS32 then []
    else if ENDIAN < 0 then []
    else if ehdr.e_ident.getD EI_DATA 0 ≠ elfdata2 ENDIAN then []
    else if ehdr.e_ident.getD EI_VERSION 0 ≠ EV_CURRENT then []
    else if ehdr.e_type ≠ ET_EXEC then [warning.not_an_executable]
    else []

/-- The state of the process when `main` exits: the exit status, the global
`first_region`, whether `open3` has created the temporary file, and the content of the
file `oldname`. -/
structure exit_state where
  status : Nat
  first_region : List region
  created : Bool
  file : Nat → Option Nat

/-- The function `main`.  `input` is the content of the file `oldname`, `rd_ehdr` and
`rd_phdr` are what `read_hdrs` reads from it.  Opening the file, making the temporary
name, `fstat`, `open3` and `rename` are taken to succeed.  A function that dies ends the
process with its exit status; after a failed `process_file` the temporary file is
unlinked and `oldname` is as before.  The result is `none` only if `process_file` runs
out of fuel. -/
def main (SIZE_MOD : Nat) (ENDIAN : Int) (argc : Nat) (rd_ehdr : Option Elf32_Ehdr)
    (rd_phdr : Option (List Elf32_Phdr)) (input : Nat → Option Nat) : Option exit_state :=
  if argc < 2 then
    some { status := 100, first_region := [], created := false, file := input }
  else
    match read_hdrs ENDIAN rd_ehdr rd_phdr with
    | .error e => some { status := e, first_region := [], created := false, file := input }
    | .ok g =>
      match modify_hdrs (compute_disps (compute_regions g)) g with
      | .error e =>
        some { status := e, first_region := compute_disps (compute_regions g),
               created := false, file := input }
      | .ok g' =>
        match process_file SIZE_MOD ENDIAN (compute_disps (compute_regions g)) g' input with
        | none => none
        | some (.error e) =>
          some { status := e, first_region := compute_disps (compute_regions g),
                 created := true, file := input }
        | some (.ok out) =>
          some { status := 0, first_region := compute_disps (compute_regions g),
                 created := true, file := out }

/-- Lines 253-267 of `compute_regions`: whether iteration `i` prints the warning of line
267.  The test of the alignment comes after the `continue` of a `PT_NULL` entry (line
265) and before the test of the file size (line 271). -/
def warns_at (g : hdrs) (i : Int) : Bool :=
  if i = -2 then false
  else if i = -1 then false
  else
    match g.phdr[i.toNat]? with
    | none => false
    | some ph =>
      if ph.p_type = PT_NULL then false
      else decide (ph.p_align ≠ 0 ∧ PAGESIZE % ph.p_align ≠ 0)

/-- The warnings that `compute_regions` prints, in the order of the loop. -/
def compute_regions_warnings (g : hdrs) : List warning :=
  ((long_range (-2) g.ehdr.e_phnum).filter (warns_at g)).map
    (fun i => warning.alignment_not_multiple i.toNat)

/-! ## read_hdrs and main on a file -/

/-- The value of an unsigned field from its bytes in host order (`ENDIAN` 0: least
significant byte first). -/
def field_value (ENDIAN : Int) (bytes : List Nat) : Nat :=
  if ENDIAN = 0 then bytes.foldr (fun b acc => b + 256 * acc) 0
  else bytes.foldl (fun acc b => 256 * acc + b) 0

/-- The `len` bytes at offset `off` of a memory image. -/
def bytes_at (b : List Nat) (off len : Nat) : List Nat := (b.drop off).take len

/-- The structure `ehdr` after `allread(0, (char *)&ehdr, sizeof(ehdr))` has stored the
bytes `b` in it: the fields of `Elf32_Ehdr` at their offsets. -/
def ehdr_of_bytes (ENDIAN : Int) (b : List Nat) : Elf32_Ehdr :=
  { e_ident := bytes_at b 0 16
    e_type := field_value ENDIAN (bytes_at b 16 2)
    e_machine := field_value ENDIAN (bytes_at b 18 2)
    e_version := field_value ENDIAN (bytes_at b 20 4)
    e_entry := field_value ENDIAN (bytes_at b 24 4)
    e_phoff := field_value ENDIAN (bytes_at b 28 4)
    e_shoff := field_value ENDIAN (bytes_at b 32 4)
    e_flags := field_value ENDIAN (bytes_at b 36 4)
    e_ehsize := field_value ENDIAN (bytes_at b 40 2)
    e_phentsize := field_value ENDIAN (bytes_at b 42 2)
    e_phnum := field_value ENDIAN (bytes_at b 44 2)
    e_shentsize := field_value ENDIAN (bytes_at b 46 2)
    e_shnum := field_value ENDIAN (bytes_at b 48 2)
    e_shstrndx := field_value ENDIAN (bytes_at b 50 2) }

/-- One entry of the array `phdr` whose memory holds the 32 bytes `b`. -/
def phdr_of_bytes (ENDIAN : Int) (b : List Nat) : Elf32_Phdr :=
  { p_type := field_value ENDIAN (bytes_at b 0 4)
    p_offset := field_value ENDIAN (bytes_at b 4 4)
    p_vaddr := field_value ENDIAN (bytes_at b 8 4)
    p_paddr := field_value ENDIAN (bytes_at b 12 4)
    p_filesz := field_value ENDIAN (bytes_at b 16 4)
    p_memsz := field_value ENDIAN (bytes_at b 20 4)
    p_flags := field_value ENDIAN (bytes_at b 24 4)
    p_align := field_value ENDIAN (bytes_at b 28 4) }

/-- The array `phdr` of `n` entries whose memory holds the bytes `b`. -/
def phdr_table_of_bytes (ENDIAN : Int) : Nat → List Nat → List Elf32_Phdr
  | 0, _ => []
  | n + 1, b =>
    phdr_of_bytes ENDIAN (b.take SIZEOF_PHDR) ::
      phdr_table_of_bytes ENDIAN n (b.drop SIZEOF_PHDR)

/-- Line 121 of `read_hdrs` on the file `input`: the file header read from offset 0
(`none`: short read). -/
def read_ehdr (ENDIAN : Int) (input : Nat → Option Nat) : Option Elf32_Ehdr :=
  (allread input 0 SIZEOF_EHDR).map (ehdr_of_bytes ENDIAN)

/-- Lines 169-171 of `read_hdrs` on the file `input`: the table of `e_phnum` entries read
from offset `e_phoff` (`none`: short read). -/
def read_phdr (ENDIAN : Int) (input : Nat → Option Nat) (e_phoff e_phnum : Nat) :
    Option (List Elf32_Phdr) :=
  (allread input e_phoff (e_phnum * SIZEOF_PHDR)).map (phdr_table_of_bytes ENDIAN e_phnum)

/-- The function `read_hdrs` with standard input opened on the file `input`. -/
def read_hdrs_file (ENDIAN : Int) (input : Nat → Option Nat) : Except Nat hdrs :=
  read_hdrs ENDIAN (read_ehdr ENDIAN input)
    ((read_ehdr ENDIAN input).bind (fun h => read_phdr ENDIAN input h.e_phoff h.e_phnum))

/-- The function `main` run on the file `input`. -/
def main_file (SIZE_MOD : Nat) (ENDIAN : Int) (argc : Nat) (input : Nat → Option Nat) :
    Option exit_state :=
  main SIZE_MOD ENDIAN argc (read_ehdr ENDIAN input)
    ((read_ehdr ENDIAN input).bind (fun h => read_phdr ENDIAN input h.e_phoff h.e_phnum))
    input

/-! ## Vocabulary of the specification -/

/-- The field widths of the global variables read by `read_hdrs`. -/
def hdrs_ok (g : hdrs) : Prop :=
  ehdr_ok g.ehdr ∧ ∀ ph ∈ g.phdr, phdr_ok ph

instance (g : hdrs) : Decidable (hdrs_ok g) := by
  unfold hdrs_ok; infer_instance

/-- The retained ranges as the specification lists them, each as (offset, size): the file
header range, the table range `[e_phoff, e_phoff + e_phentsize * e_phnum)` and the range
of every descriptor with `p_type != PT_NULL` and `p_filesz != 0`. -/
def retained_ranges (g : hdrs) : List (Nat × Nat) :=
  (0, SIZEOF_EHDR) :: (g.ehdr.e_phoff, g.ehdr.e_phentsize * g.ehdr.e_phnum) ::
    (g.phdr.filter (fun ph => decide (ph.p_type ≠ PT_NULL ∧ ph.p_filesz ≠ 0))).map
      (fun ph => (ph.p_offset, ph.p_filesz))

/-- Byte offset `x` lies in the range `s` = (offset, size). -/
def in_range (x : Nat) (s : Nat × Nat) : Prop := s.1 ≤ x ∧ x < s.1 + s.2

instance (x : Nat) (s : Nat × Nat) : Decidable (in_range x s) := by
  unfold in_range; infer_instance

/-- Byte offset `x` is important: it lies in one of the retained ranges. -/
def important (g : hdrs) (x : Nat) : Prop := ∃ s ∈ retained_ranges g, in_range x s

instance (g : hdrs) (x : Nat) : Decidable (important g x) := by
  unfold important; infer_instance

/-- Byte offset `x` lies in region `r`. -/
def in_region (x : Nat) (r : region) : Prop := r.offset ≤ x ∧ x < r.offset + r.filesz

instance (x : Nat) (r : region) : Decidable (in_region x r) := by
  unfold in_region; infer_instance

/-- Byte offset `x` lies in some region of the list. -/
def in_regions (L : List region) (x : Nat) : Prop := ∃ r ∈ L, in_region x r

instance (L : List region) (x : Nat) : Decidable (in_regions L x) := by
  unfold in_regions; infer_instance

/-- Region `r` contains the whole range `s` = (offset, size). -/
def contains_range (r : region) (s : Nat × Nat) : Prop :=
  r.offset ≤ s.1 ∧ s.1 + s.2 ≤ r.offset + r.filesz

instance (r : region) (s : Nat × Nat) : Decidable (contains_range r s) := by
  unfold contains_range; infer_instance

/-- The merge invariant of the region list: offsets strictly ascending, consecutive
regions neither overlapping nor touching, every size positive. -/
def merge_invariant (L : List region) : Prop :=
  L.Pairwise (fun a b => a.offset < b.offset) ∧
  L.Chain' (fun a b => a.offset + a.filesz < b.offset) ∧
  ∀ r ∈ L, 0 < r.filesz

/-- The interval `[a, b)` is a maximal contiguous run of the set `U` of byte offsets. -/
def maximal_run (U : Nat → Prop) (a b : Nat) : Prop :=
  a < b ∧ (∀ x, a ≤ x → x < b → U x) ∧ ¬ U b ∧ (a = 0 ∨ ¬ U (a - 1))

/-- The checks of the file header that `read_hdrs` makes before it reads the table. -/
def header_checks (ENDIAN : Int) (h : Elf32_Ehdr) : Prop :=
  h.e_ident.take SELFMAG = ELFMAG ∧ h.e_ident.getD EI_CLASS 0 = ELFCLASS32 ∧
  ¬ ENDIAN < 0 ∧ h.e_ident.getD EI_DATA 0 = elfdata2 ENDIAN ∧
  h.e_ident.getD EI_VERSION 0 = EV_CURRENT ∧ h.e_version = EV_CURRENT ∧
  h.e_phoff ≠ 0 ∧ h.e_phentsize = SIZEOF_PHDR ∧ h.e_phnum ≠ 0

instance (ENDIAN : Int) (h : Elf32_Ehdr) : Decidable (header_checks ENDIAN h) := by
  unfold header_checks; infer_instance

/-- The globals that `read_hdrs` sets when it reads a file holding the file header and
the table of `g'` (proved in `rerun_facts`). -/
def reread (g' : hdrs) : hdrs :=
  { ehdr := g'.ehdr, phdr := g'.phdr, ph_offset := g'.ehdr.e_phoff,
    ph_filesz := (g'.ehdr.e_phentsize * g'.ehdr.e_phnum) % 4294967296 }

/-- The byte that the specification expects in the output for input offset `x`: the
byte of the patched table image inside the table's original range, else the byte of
the patched file header image inside the file header's original range, else the input
byte. -/
def spliced_byte (input : Nat → Option Nat) (ehdr_mem phdr_mem : List Nat)
    (ph_offset ph_filesz x : Nat) : Option Nat :=
  if ph_offset ≤ x ∧ x < ph_offset + ph_filesz then phdr_mem[x - ph_offset]?
  else if x < SIZEOF_EHDR then ehdr_mem[x]?
  else input x

/-- The calls of `main` after `read_hdrs`: `compute_regions`, `compute_disps`,
`modify_hdrs` and `process_file`, on the globals `g` and the input file. -/
def strip_file (SIZE_MOD : Nat) (ENDIAN : Int) (g : hdrs) (input : Nat → Option Nat) :
    Option (Except Nat (Nat → Option Nat)) :=
  match modify_hdrs (compute_disps (compute_regions g)) g with
  | .ok g' => process_file SIZE_MOD ENDIAN (compute_disps (compute_regions g)) g' input
  | .error e => some (.error e)

/-- The byte at offset `y` of the output file of a run that ended normally (`some none`:
no byte was written there). -/
def output_byte (res : Option (Except Nat (Nat → Option Nat))) (y : Nat) :
    Option (Option Nat) :=
  match res with
  | some (.ok out) => some (out y)
  | _ => none

/-- The data encoding of a host whose endianness is `ENDIAN` (0 little, 1 big); an
unknown endianness has none. -/
def host_encoding (ENDIAN : Int) : Option Nat :=
  if ENDIAN = 0 then some ELFDATA2LSB else if ENDIAN = 1 then some ELFDATA2MSB else none

/-- The conditions under which the specification says a file header is accepted. -/
def acceptable (ENDIAN : Int) (h : Elf32_Ehdr) : Prop :=
  h.e_ident.take 4 = [0x7F, 0x45, 0x4C, 0x46] ∧
  h.e_ident.getD EI_CLASS 0 = ELFCLASS32 ∧
  some (h.e_ident.getD EI_DATA 0) = host_encoding ENDIAN ∧
  h.e_ident.getD EI_VERSION 0 = EV_CURRENT ∧
  h.e_version = EV_CURRENT ∧
  h.e_phoff ≠ 0 ∧
  h.e_phentsize = SIZEOF_PHDR ∧
  h.e_phnum ≠ 0

instance (ENDIAN : Int) (h : Elf32_Ehdr) : Decidable (acceptable ENDIAN h) := by
  unfold acceptable; infer_instance

/-- The globals with another type tag `e_type` in the file header. -/
def with_type (ty : Nat) (g : hdrs) : hdrs :=
  { g with ehdr := { g.ehdr with e_type := ty } }

/-- A copy `(posa, posb, len)` into a block buffer of `thisread` bytes from a header of
`size` bytes stays inside both. -/
def splice_in_bounds (size thisread : Nat) : Option (Nat × Nat × Nat) → Prop
  | none => True
  | some (posa, posb, len) => posb + len ≤ thisread ∧ posa + len ≤ size

/-- A copy `(posa, posb, len)` replaces exactly the overlap of the block
`[thisoff, thisoff + thisread)` with the header range `[lo, lo + size)`: the buffer
positions `posb ≤ k < posb + len` it overwrites are those whose input offset
`thisoff + k` lies in the header range, and each receives the header byte at position
`thisoff + k - lo`; when no copy is made, the block does not meet the header range. -/
def exact_overlap (lo size thisoff thisread : Nat) : Option (Nat × Nat × Nat) → Prop
  | none => ∀ k, k < thisread → ¬ (lo ≤ thisoff + k ∧ thisoff + k < lo + size)
  | some (posa, posb, len) =>
    ∀ k, k < thisread →
      ((posb ≤ k ∧ k < posb + len) ↔ (lo ≤ thisoff + k ∧ thisoff + k < lo + size)) ∧
      ((posb ≤ k ∧ k < posb + len) → posa + (k - posb) = thisoff + k - lo)

/-- The ranges `s` and `t`, each (offset, size), overlap or touch. -/
def touching (s t : Nat × Nat) : Prop := s.1 ≤ t.1 + t.2 ∧ t.1 ≤ s.1 + s.2

instance (s t : Nat × Nat) : Decidable (touching s t) := by
  unfold touching; infer_instance

/-- The descriptor with the alignment field `f p_align` in place of `p_align`. -/
def realign (f : Nat → Nat) (ph : Elf32_Phdr) : Elf32_Phdr :=
  { ph with p_align := f ph.p_align }

/-- The globals with the alignment field of every descriptor changed by `f`. -/
def with_align (f : Nat → Nat) (g : hdrs) : hdrs :=
  { g with phdr := g.phdr.map (realign f) }

/-- The merge-insert step of `compute_regions` (lines 273-307) applied to a sequence of
ranges, each (offset, size), one at a time and from the empty list. -/
def insert_all (ss : List (Nat × Nat)) : List region :=
  ss.foldl (fun L s => insert_region s.1 s.2 L) []

/-! ## Invariants and closed forms used in the proofs -/

/-- The invariant used in the proofs: every region starts at `lo` or later, has a
positive size and ends below `2^32`, and the next region starts after its end. -/
def ok_from (lo : Nat) : List region → Prop
  | [] => True
  | a :: rest => lo ≤ a.offset ∧ 0 < a.filesz ∧ a.offset + a.filesz < 4294967296 ∧
      ok_from (a.offset + a.filesz + 1) rest

/-- The invariant used in the proofs about `compute_disps`: as `ok_from`, but a region
may end exactly at `2^32`. -/
def sep_from (lo : Nat) : List region → Prop
  | [] => True
  | a :: rest => lo ≤ a.offset ∧ 0 < a.filesz ∧ a.offset + a.filesz ≤ 4294967296 ∧
      sep_from (a.offset + a.filesz + 1) rest

/-- The invariant used in the proofs that hold with 32-bit wrap: the offsets are 32-bit
values in ascending order, none below `lo`, and the sizes are positive 32-bit values. -/
def sorted_from (lo : Nat) : List region → Prop
  | [] => True
  | a :: rest => lo ≤ a.offset ∧ a.offset < 4294967296 ∧ 0 < a.filesz ∧
      a.filesz < 4294967296 ∧ sorted_from a.offset rest

/-- Some region of the list starts at or before `o` and has its 32-bit end
`offset + filesz` at or after `e`: the test of line 388 for a part that starts at `o` and
has the 32-bit end `e`. -/
def held_by (o e : Nat) (L : List region) : Prop :=
  ∃ r ∈ L, r.offset ≤ o ∧ e ≤ add32 r.offset r.filesz

/-- The placement of the regions in the output, from the next free output offset
`curoff`: each region is placed at or after `curoff`, less than a page after it and
`disp` bytes before its input offset, and the next free offset then is its end. -/
def placed_from (curoff : Nat) : List region → Prop
  | [] => True
  | a :: rest => curoff ≤ a.toffset ∧ a.toffset < curoff + PAGESIZE ∧
      a.toffset + a.disp = a.offset ∧ placed_from (a.toffset + a.filesz) rest

/-- The invariant used in the proof of idempotence: every region starts less than a
page after `c`, the end of the region before it. -/
def tight_from (c : Nat) : List region → Prop
  | [] => True
  | b :: rest => b.offset < c + PAGESIZE ∧ tight_from (b.offset + b.filesz) rest

/-- The descriptor that the loop of `modify_hdrs` leaves in place of `ph`, in closed
form (proved equal to the result of the loop in `modify_hdrs_eq`). -/
def patched_phdr (R : List region) (ph : Elf32_Phdr) : Elf32_Phdr :=
  if ph.p_type = PT_NULL ∨ ph.p_filesz = 0 then ph
  else
    match find_region R ph.p_offset ph.p_filesz with
    | none => ph
    | some p => { ph with p_offset := sub32 ph.p_offset p.disp }

/-- The globals after `modify_hdrs`, in closed form (proved equal to the result of
`modify_hdrs` in `modify_hdrs_eq`, when every search for a region succeeds). -/
def patched_hdrs (R : List region) (g : hdrs) : hdrs :=
  { g with
    ehdr := { g.ehdr with
              e_phoff :=
                match find_region R g.ph_offset g.ph_filesz with
                | none => g.ehdr.e_phoff
                | some p => sub32 g.ehdr.e_phoff p.disp
              e_shoff := 0, e_shentsize := 0, e_shnum := 0, e_shstrndx := 0 }
    phdr := g.phdr.map (patched_phdr R) }

/-- The invariant used in the proof that the first region starts the file: the list is
not empty, its first region has offset 0 and a 32-bit size that covers the file header. -/
def starts_at_zero : List region → Prop
  | [] => False
  | r :: _ => r.offset = 0 ∧ SIZEOF_EHDR ≤ r.filesz ∧ r.filesz < 4294967296

/-! ## Example inputs -/

/-- A file header with the given table offset and entry count that `read_hdrs` accepts
on a little-endian host. -/
def example_ehdr (phoff phnum : Nat) : Elf32_Ehdr :=
  { e_ident := [0x7f, 0x45, 0x4c, 0x46, 1, 1, 1, 0, 0, 0, 0, 0, 0, 0, 0, 0]
    e_type := 2, e_machine := 3, e_version := 1, e_entry := 0x8048000
    e_phoff := phoff, e_shoff := 0x2000, e_flags := 0, e_ehsize := 52
    e_phentsize := 32, e_phnum := phnum, e_shentsize := 40, e_shnum := 3
    e_shstrndx := 2 }

/-- A segment descriptor with the given type, file offset and file size. -/
def example_phdr (type offset filesz : Nat) : Elf32_Phdr :=
  { p_type := type, p_offset := offset, p_vaddr := 0x8048000 + offset % 0x1000
    p_paddr := 0x8048000 + offset % 0x1000, p_filesz := filesz, p_memsz := filesz
    p_flags := 5, p_align := 0x1000 }

/-- The globals after `read_hdrs` of a file with the given table offset and table. -/
def example_hdrs (phoff : Nat) (table : List Elf32_Phdr) : hdrs :=
  { ehdr := example_ehdr phoff table.length, phdr := table
    ph_offset := phoff, ph_filesz := 32 * table.length }

/-- Two loadable segments a megabyte apart; the table follows the file header. -/
def two_segments : List Elf32_Phdr :=
  [example_phdr 1 0 0x200, example_phdr 1 0x100000 0x300]

/-- The globals after `read_hdrs` of the file with the table `two_segments`. -/
def two_segment_hdrs : hdrs := example_hdrs 52 two_segments

/-- Two regions a megabyte apart, before `compute_disps`. -/
def two_regions : List region :=
  [{ offset := 0, filesz := 0x200, disp := 0, toffset := 0 },
   { offset := 0x100000, filesz := 0x300, disp := 0, toffset := 0 }]

/-- Two loadable segments at the same offset near `2^32`; the second one wraps. -/
def wrapping_segments : List Elf32_Phdr :=
  [example_phdr 1 0xFFFFFFF0 4, example_phdr 1 0xFFFFFFF0 0x20]

/-- The globals after `read_hdrs` of the file with the table `wrapping_segments`. -/
def wrapping_hdrs : hdrs := example_hdrs 52 wrapping_segments

/-- A segment that covers nearly the whole 32-bit offset space and a segment whose range
ends exactly at `2^32`. -/
def boundary_segments : List Elf32_Phdr :=
  [example_phdr 1 0 0xFFFFFFF8, example_phdr 1 0xFFFFFFF0 0x10]

/-- The globals after `read_hdrs` of the file with the table `boundary_segments`. -/
def boundary_hdrs : hdrs := example_hdrs 52 boundary_segments

/-- A loadable segment and, a megabyte further, an entry of type `PT_NULL` that has a
file size. -/
def null_segment : List Elf32_Phdr :=
  [example_phdr 1 0 0x200, example_phdr 0 0x100000 0x300]

/-- The globals after `read_hdrs` of the file with the table `null_segment`. -/
def null_segment_hdrs : hdrs := example_hdrs 52 null_segment

/-- The globals of a file whose one-entry table occupies the last 32 bytes below `2^32`;
its only segment is the file header range. -/
def table_at_end : hdrs := example_hdrs 0xFFFFFFE0 [example_phdr 1 0 52]

/-- The globals `table_at_end` after `modify_hdrs`: only the section fields change. -/
def table_at_end_stripped : hdrs :=
  { table_at_end with
    ehdr := { table_at_end.ehdr with e_shoff := 0, e_shentsize := 0, e_shnum := 0,
                                     e_shstrndx := 0 } }

/-- The file header range as first segment and a second segment that `compute_disps`
moves. -/
def moved_segment : List Elf32_Phdr := [example_phdr 1 0 52, example_phdr 1 0x100000 8]

/-- The globals after `read_hdrs` of a file whose table `moved_segment` occupies the last
64 bytes below `2^32`. -/
def moved_segment_hdrs : hdrs := example_hdrs 0xFFFFFFC0 moved_segment

/-- A file of `2^32` bytes that starts with the image of `example_ehdr 0xFFFFFFC0 2` and
ends with the image of the table `moved_segment`. -/
def boundary_file : Nat → Option Nat := fun x =>
  if x < 52 then (ehdr_image 0 (example_ehdr 0xFFFFFFC0 2))[x]?
  else if 0xFFFFFFC0 ≤ x then (phdr_image 0 moved_segment)[x - 0xFFFFFFC0]?
  else some (x % 251)

/-- A segment that ends exactly at `2^32` and a second segment inside it. -/
def overlapped_segments : List Elf32_Phdr :=
  [example_phdr 1 0x80000000 0x80000000, example_phdr 1 0x80000100 0x10]

/-- The globals after `read_hdrs` of the file with the table `overlapped_segments`. -/
def overlapped_hdrs : hdrs := example_hdrs 52 overlapped_segments

/-- A segment that spans a file of 0x1000 bytes and a second segment inside it. -/
def whole_file_segments : List Elf32_Phdr :=
  [example_phdr 1 0 0x1000, example_phdr 1 0x200 0x100]

/-- The globals after `read_hdrs` of the file with the table `whole_file_segments`. -/
def whole_file_hdrs : hdrs := example_hdrs 52 whole_file_segments

/-- A table in which a loadable entry has no bytes in the file and the alignment 1000,
and another one has the alignment 0. -/
def misaligned_segments : List Elf32_Phdr :=
  [{ example_phdr 1 0 0x200 with p_align := 0 },
   { example_phdr 1 0x300 0 with p_align := 1000 }]

/-- The globals after `read_hdrs` of the file with the table `misaligned_segments`. -/
def misaligned_hdrs : hdrs := example_hdrs 52 misaligned_segments

/-- A segment that ends a page and a half below `2^32`, a segment that starts less than
a page after it and ends exactly at `2^32`, and (in `table_inside_hdrs`) the table at
the page boundary inside the second segment. -/
def table_inside_segments : List Elf32_Phdr :=
  [example_phdr 1 0 0xFFFFE800, example_phdr 1 0xFFFFEC00 0x1400]

/-- The globals after `read_hdrs` of a file with the table `table_inside_segments` at
offset 0xFFFFF000. -/
def table_inside_hdrs : hdrs := example_hdrs 0xFFFFF000 table_inside_segments

/-- A file header whose table offset 4 lies inside the file header itself. -/
def overlap_ehdr : Elf32_Ehdr := { example_ehdr 4 2 with e_flags := 1 }

/-- A file of 0x20003C bytes that starts with the image of `overlap_ehdr`; the two table
entries at offset 4 are the bytes 4 to 67 of the file, the first 48 of them bytes of the
file header. -/
def overlap_file : Nat → Option Nat := fun x =>
  if x < 52 then (ehdr_image 0 overlap_ehdr)[x]?
  else if x < 68 then [8, 0, 0, 0, 8, 0, 0, 0, 5, 0, 0, 0, 0, 0x10, 0, 0][x - 52]?
  else if x < 0x20003C then some (x % 251)
  else none

/-- The globals after `read_hdrs` of the file `overlap_file`. -/
def overlap_hdrs : hdrs :=
  { ehdr := overlap_ehdr
    phdr :=
      [{ p_type := 0x10101, p_offset := 0, p_vaddr := 0, p_paddr := 0x30002, p_filesz := 1,
         p_memsz := 0x8048000, p_flags := 4, p_align := 0x2000 },
       { p_type := 1, p_offset := 0x200034, p_vaddr := 0x280002, p_paddr := 0x20003,
         p_filesz := 8, p_memsz := 8, p_flags := 5, p_align := 0x1000 }]
    ph_offset := 4
    ph_filesz := 64 }

/-- A file that starts with the image of the header `example_ehdr 52 2` and of the table
`two_segments` and holds a byte at every offset. -/
def two_segment_file : Nat → Option Nat := fun x =>
  some ((ehdr_image 0 (example_ehdr 52 2) ++ phdr_image 0 two_segments).getD x (x % 251))

/-- A segment whose range ends exactly at `2^32` and a segment inside it. -/
def overwriting_segments : List Elf32_Phdr :=
  [example_phdr 1 0x100 0xFFFFFF00, example_phdr 1 0x1010 0x10]

/-- The globals after `read_hdrs` of the file with the table `overwriting_segments`. -/
def overwriting_hdrs : hdrs := example_hdrs 52 overwriting_segments

/-- A file that starts with the image of the header `example_ehdr 52 2` and of the table
`overwriting_segments` and holds a byte at every offset. -/
def overwriting_file : Nat → Option Nat := fun x =>
  some ((ehdr_image 0 (example_ehdr 52 2) ++ phdr_image 0 overwriting_segments).getD x
    (x % 251))

/-- The first 116 bytes of `two_segment_file`: the file header and the table, and no byte
of the segments after them. -/
def short_file : Nat → Option Nat := fun x =>
  if x < 116 then two_segment_file x else none

/-! ## Lemmas: the header reader -/

/-- What `read_hdrs` has checked and set when it returns. -/
theorem read_hdrs_ok_facts {ENDIAN : Int} {rd_ehdr : Option Elf32_Ehdr}
    {rd_phdr : Option (List Elf32_Phdr)} {g : hdrs}
    (h : read_hdrs ENDIAN rd_ehdr rd_phdr = .ok g) :
    g.ehdr.e_phoff ≠ 0 ∧ g.ehdr.e_phentsize = SIZEOF_PHDR ∧ g.ehdr.e_phnum ≠ 0 ∧
    g.phdr.length = g.ehdr.e_phnum ∧ g.ph_offset = g.ehdr.e_phoff ∧
    g.ph_filesz = (g.ehdr.e_phentsize * g.ehdr.e_phnum) % 4294967296 := by
  unfold read_hdrs at h
  cases rd_ehdr with
  | none => exact absurd h (by simp)
  | some ehdr =>
    simp only [] at h
    repeat (split at h; exact absurd h (by simp))
    injection h with h
    subst h
    exact ⟨by assumption, by simpa using ‹¬ _ ≠ SIZEOF_PHDR›, by assumption,
      by simp only [List.length_take]; omega, rfl, rfl⟩

/-- The values of `i` in the loop of `compute_regions`. -/
theorem long_range_neg_two (n : Nat) :
    long_range (-2) n =
      (-2 : Int) :: (-1 : Int) :: (List.range n).map (fun (k : Nat) => (k : Int)) := by
  unfold long_range
  show List.map _ (List.range (n + 2)) = _
  rw [List.range_succ_eq_map, List.range_succ_eq_map]
  simp [Function.comp_def]
  intro a _; omega

/-- The values of `i` in the loop of `modify_hdrs`. -/
theorem long_range_neg_one (n : Nat) :
    long_range (-1) n = (-1 : Int) :: (List.range n).map (fun (k : Nat) => (k : Int)) := by
  unfold long_range
  show List.map _ (List.range (n + 1)) = _
  rw [List.range_succ_eq_map]
  simp [Function.comp_def]

/-! ## Lemmas: one insertion into the region list, without 32-bit wrap -/

theorem ok_from_mono {lo lo' : Nat} (h : lo' ≤ lo) :
    ∀ {L : List region}, ok_from lo L → ok_from lo' L
  | [], _ => trivial
  | _ :: _, ⟨h1, h2, h3, h4⟩ => ⟨le_trans h h1, h2, h3, h4⟩

theorem in_regions_cons (a : region) (L : List region) (x : Nat) :
    in_regions (a :: L) x ↔ in_region x a ∨ in_regions L x := by
  simp [in_regions]

theorem in_regions_nil (x : Nat) : ¬ in_regions [] x := by
  simp [in_regions]

/-- The loop of lines 299-307 keeps the invariant and the set of covered bytes, when
no end reaches `2^32`. -/
theorem merge_next_ok (q : List region) : ∀ p : region, 0 < p.filesz →
    p.offset + p.filesz < 4294967296 →
    ok_from p.offset q →
    ok_from p.offset (merge_next p q) ∧
    ∀ x, in_regions (merge_next p q) x ↔ in_regions (p :: q) x := by
  induction q with
  | nil =>
    intro p h1 h2 _
    refine ⟨?_, fun x => Iff.rfl⟩
    exact ⟨le_refl _, h1, h2, trivial⟩
  | cons a rest ih =>
    intro p h1 h2 hq
    obtain ⟨ha1, ha2, ha3, ha4⟩ := hq
    simp only [merge_next]
    by_cases hc : a.offset ≤ add32 p.offset p.filesz
    · rw [if_pos hc]
      by_cases he : add32 a.offset a.filesz > add32 p.offset p.filesz
      · rw [if_pos he]
        simp only [add32, sub32] at hc he
        have hf : add32 (sub32 a.offset p.offset) a.filesz = a.offset + a.filesz - p.offset := by
          simp only [add32, sub32]; omega
        obtain ⟨i1, i2⟩ := ih { p with filesz := add32 (sub32 a.offset p.offset) a.filesz }
          (by simp only [hf]; omega) (by simp only [hf]; omega)
          (ok_from_mono (by simp only []; omega) ha4)
        refine ⟨i1, fun x => ?_⟩
        rw [i2 x, in_regions_cons, in_regions_cons, in_regions_cons]
        simp only [in_region, hf]
        constructor
        · rintro (h | h)
          · omega
          · exact Or.inr (Or.inr h)
        · rintro (h | h | h)
          · left; omega
          · left; omega
          · exact Or.inr h
      · rw [if_neg he]
        simp only [add32, sub32] at hc he
        obtain ⟨i1, i2⟩ := ih p h1 h2 (ok_from_mono (by omega) ha4)
        refine ⟨i1, fun x => ?_⟩
        rw [i2 x, in_regions_cons, in_regions_cons, in_regions_cons]
        simp only [in_region]
        constructor
        · rintro (h | h)
          · omega
          · exact Or.inr (Or.inr h)
        · rintro (h | h | h)
          · left; omega
          · left; omega
          · exact Or.inr h
    · rw [if_neg hc]
      refine ⟨?_, fun x => Iff.rfl⟩
      simp only [add32] at hc
      simp only [ok_from]
      refine ⟨le_refl _, h1, h2, by omega, ha2, ha3, ha4⟩

/-- Lines 282-307 after a scan that stopped behind `p`: the invariant is kept and the
covered bytes are those of the list and of the new part. -/
theorem merge_at_some_ok (s_offset s_filesz : Nat) (p : region) (q : List region)
    (hs1 : 0 < s_filesz) (hs2 : s_offset + s_filesz < 4294967296)
    (hp1 : 0 < p.filesz) (hp2 : p.offset + p.filesz < 4294967296) (hp3 : p.offset < s_offset)
    (hq2 : ok_from s_offset q) :
    ok_from p.offset (merge_at s_offset s_filesz (some p) q) ∧
    ∀ x, in_regions (merge_at s_offset s_filesz (some p) q) x ↔
      (in_regions (p :: q) x ∨ (s_offset ≤ x ∧ x < s_offset + s_filesz)) := by
  simp only [merge_at]
  by_cases hc : add32 p.offset p.filesz ≥ s_offset
  · rw [if_pos hc]
    by_cases he : add32 s_offset s_filesz > add32 p.offset p.filesz
    · rw [if_pos he]
      simp only [add32, sub32] at hc he
      have hf : add32 (sub32 s_offset p.offset) s_filesz = s_offset + s_filesz - p.offset := by
        simp only [add32, sub32]; omega
      obtain ⟨i1, i2⟩ := merge_next_ok q
        { p with filesz := add32 (sub32 s_offset p.offset) s_filesz }
        (by simp only [hf]; omega) (by simp only [hf]; omega)
        (ok_from_mono (by simp only []; omega) hq2)
      refine ⟨i1, fun x => ?_⟩
      rw [i2 x, in_regions_cons, in_regions_cons]
      simp only [in_region, hf]
      constructor
      · rintro (h | h)
        · omega
        · exact Or.inl (Or.inr h)
      · rintro ((h | h) | h)
        · left; omega
        · exact Or.inr h
        · left; omega
    · rw [if_neg he]
      simp only [add32, sub32] at hc he
      obtain ⟨i1, i2⟩ := merge_next_ok q p hp1 hp2 (ok_from_mono (by omega) hq2)
      refine ⟨i1, fun x => ?_⟩
      rw [i2 x, in_regions_cons]
      simp only [in_region]
      constructor
      · rintro (h | h)
        · exact Or.inl (Or.inl h)
        · exact Or.inl (Or.inr h)
      · rintro ((h | h) | h)
        · exact Or.inl h
        · exact Or.inr h
        · left; omega
  · rw [if_neg hc]
    simp only [add32] at hc
    obtain ⟨i1, i2⟩ := merge_next_ok q
      { offset := s_offset, filesz := s_filesz, disp := 0, toffset := 0 } hs1 hs2 hq2
    refine ⟨⟨le_refl _, hp1, hp2, ok_from_mono (by simp only []; omega) i1⟩, fun x => ?_⟩
    rw [in_regions_cons, i2 x, in_regions_cons, in_regions_cons]
    simp only [in_region]
    tauto

/-- Lines 282-307 after a scan that stopped at the first region. -/
theorem merge_at_none_ok (s_offset s_filesz : Nat) (q : List region)
    (hs1 : 0 < s_filesz) (hs2 : s_offset + s_filesz < 4294967296)
    (hq2 : ok_from s_offset q) :
    ok_from s_offset (merge_at s_offset s_filesz none q) ∧
    ∀ x, in_regions (merge_at s_offset s_filesz none q) x ↔
      (in_regions q x ∨ (s_offset ≤ x ∧ x < s_offset + s_filesz)) := by
  simp only [merge_at]
  obtain ⟨i1, i2⟩ := merge_next_ok q
    { offset := s_offset, filesz := s_filesz, disp := 0, toffset := 0 } hs1 hs2 hq2
  refine ⟨i1, fun x => ?_⟩
  rw [i2 x, in_regions_cons]
  simp only [in_region]
  tauto

/-- The scan of lines 277-281 followed by the merge, from a region `p` before the new
part. -/
theorem insert_scan_some_ok (s_offset s_filesz : Nat)
    (hs1 : 0 < s_filesz) (hs2 : s_offset + s_filesz < 4294967296) (L : List region) :
    ∀ p : region, 0 < p.filesz → p.offset + p.filesz < 4294967296 → p.offset < s_offset →
    ok_from (p.offset + p.filesz + 1) L →
    ok_from p.offset (insert_scan s_offset s_filesz (some p) L) ∧
    ∀ x, in_regions (insert_scan s_offset s_filesz (some p) L) x ↔
      (in_regions (p :: L) x ∨ (s_offset ≤ x ∧ x < s_offset + s_filesz)) := by
  induction L with
  | nil =>
    intro p hp1 hp2 hp3 _
    simp only [insert_scan]
    exact merge_at_some_ok s_offset s_filesz p [] hs1 hs2 hp1 hp2 hp3 trivial
  | cons q rest ih =>
    intro p hp1 hp2 hp3 hL
    simp only [insert_scan]
    by_cases hc : q.offset < s_offset
    · rw [if_pos hc]
      obtain ⟨hq0, hq1, hq2, hq3⟩ := hL
      obtain ⟨i1, i2⟩ := ih q hq1 hq2 hc hq3
      simp only [Option.toList, List.singleton_append]
      refine ⟨⟨le_refl _, hp1, hp2, ok_from_mono hq0 i1⟩, fun x => ?_⟩
      simp only [in_regions_cons, i2 x]
      tauto
    · rw [if_neg hc]
      refine merge_at_some_ok s_offset s_filesz p (q :: rest) hs1 hs2 hp1 hp2 hp3 ?_
      exact ⟨by omega, hL.2.1, hL.2.2.1, hL.2.2.2⟩

/-- One insertion keeps the invariant `ok_from 0` and adds exactly the bytes of the new
part to the covered bytes. -/
theorem insert_region_ok (s_offset s_filesz : Nat)
    (hs1 : 0 < s_filesz) (hs2 : s_offset + s_filesz < 4294967296) (L : List region)
    (hL : ok_from 0 L) :
    ok_from 0 (insert_region s_offset s_filesz L) ∧
    ∀ x, in_regions (insert_region s_offset s_filesz L) x ↔
      (in_regions L x ∨ (s_offset ≤ x ∧ x < s_offset + s_filesz)) := by
  unfold insert_region
  cases L with
  | nil =>
    simp only [insert_scan]
    obtain ⟨i1, i2⟩ := merge_at_none_ok s_offset s_filesz [] hs1 hs2 trivial
    exact ⟨ok_from_mono (Nat.zero_le _) i1, i2⟩
  | cons q rest =>
    simp only [insert_scan]
    by_cases hc : q.offset < s_offset
    · rw [if_pos hc]
      obtain ⟨_, hq1, hq2, hq3⟩ := hL
      obtain ⟨i1, i2⟩ := insert_scan_some_ok s_offset s_filesz hs1 hs2 rest q hq1 hq2 hc hq3
      simp only [Option.toList, List.nil_append]
      exact ⟨ok_from_mono (Nat.zero_le _) i1, i2⟩
    · rw [if_neg hc]
      obtain ⟨i1, i2⟩ := merge_at_none_ok s_offset s_filesz (q :: rest) hs1 hs2
        ⟨by omega, hL.2.1, hL.2.2.1, hL.2.2.2⟩
      exact ⟨ok_from_mono (Nat.zero_le _) i1, i2⟩

/-! ## Lemmas: the loop of compute_regions, without 32-bit wrap -/

theorem ok_from_all {lo : Nat} : ∀ {L : List region}, ok_from lo L →
    ∀ r ∈ L, lo ≤ r.offset ∧ 0 < r.filesz ∧ r.offset + r.filesz < 4294967296
  | [], _ => by simp
  | a :: rest, ⟨h1, h2, h3, h4⟩ => by
    intro r hr
    rcases List.mem_cons.mp hr with rfl | hr
    · exact ⟨h1, h2, h3⟩
    · obtain ⟨k1, k2, k3⟩ := ok_from_all h4 r hr
      exact ⟨by omega, k2, k3⟩

theorem ok_from_pairwise {lo : Nat} : ∀ {L : List region}, ok_from lo L →
    L.Pairwise (fun a b => a.offset + a.filesz < b.offset)
  | [], _ => List.Pairwise.nil
  | a :: rest, ⟨_, _, _, h4⟩ => by
    refine List.Pairwise.cons (fun b hb => ?_) (ok_from_pairwise h4)
    have := (ok_from_all h4 b hb).1
    omega

theorem ok_from_merge_invariant {lo : Nat} {L : List region} (h : ok_from lo L) :
    merge_invariant L := by
  have hp := ok_from_pairwise h
  have ha := ok_from_all h
  refine ⟨?_, List.Pairwise.chain' hp, fun r hr => (ha r hr).2.1⟩
  exact hp.imp (fun {a b} hab => by omega)

/-- Every part that an iteration of `compute_regions` adds is a retained range of
positive size. -/
theorem segment_of_retained {ENDIAN : Int} {rd_ehdr : Option Elf32_Ehdr}
    {rd_phdr : Option (List Elf32_Phdr)} {g : hdrs}
    (hacc : read_hdrs ENDIAN rd_ehdr rd_phdr = .ok g) (hok : hdrs_ok g)
    {i : Int} {s : Nat × Nat} (h : segment_of g i = some s) :
    s ∈ retained_ranges g ∧ 0 < s.2 := by
  obtain ⟨f1, f2, f3, f4, f5, f6⟩ := read_hdrs_ok_facts hacc
  have hn : g.ehdr.e_phnum < 65536 := hok.1.2.2.2.2.2.2.2.2.2.2.2.1
  unfold segment_of at h
  unfold retained_ranges
  split_ifs at h with h1 h2 h3 h4
  · injection h with h; subst h
    exact ⟨List.mem_cons_self _ _, by decide⟩
  · injection h with h; subst h
    refine ⟨List.mem_cons_of_mem _ ?_, Nat.pos_of_ne_zero h4⟩
    rw [f5, f6, f2, Nat.mod_eq_of_lt (by simp only [SIZEOF_PHDR]; omega)]
    exact List.mem_cons_self _ _
  · split at h
    · exact absurd h (by simp)
    · rename_i ph hph
      split_ifs at h with h5 h6
      injection h with h; subst h
      refine ⟨List.mem_cons_of_mem _ (List.mem_cons_of_mem _ ?_), Nat.pos_of_ne_zero h6⟩
      refine List.mem_map.mpr ⟨ph, ?_, rfl⟩
      refine List.mem_filter.mpr ⟨List.getElem?_mem hph, ?_⟩
      simp [h5, h6]

/-- Every retained range is added by some iteration of `compute_regions`. -/
theorem retained_segment_of {ENDIAN : Int} {rd_ehdr : Option Elf32_Ehdr}
    {rd_phdr : Option (List Elf32_Phdr)} {g : hdrs}
    (hacc : read_hdrs ENDIAN rd_ehdr rd_phdr = .ok g) (hok : hdrs_ok g)
    {s : Nat × Nat} (h : s ∈ retained_ranges g) :
    ∃ i ∈ long_range (-2) g.ehdr.e_phnum, segment_of g i = some s := by
  obtain ⟨f1, f2, f3, f4, f5, f6⟩ := read_hdrs_ok_facts hacc
  have hn : g.ehdr.e_phnum < 65536 := hok.1.2.2.2.2.2.2.2.2.2.2.2.1
  rw [long_range_neg_two]
  unfold retained_ranges at h
  rcases List.mem_cons.mp h with rfl | h
  · exact ⟨-2, List.mem_cons_self _ _, by simp [segment_of, SIZEOF_EHDR]⟩
  rcases List.mem_cons.mp h with rfl | h
  · refine ⟨-1, List.mem_cons_of_mem _ (List.mem_cons_self _ _), ?_⟩
    have hz : g.ph_filesz = g.ehdr.e_phentsize * g.ehdr.e_phnum := by
      rw [f6, f2, Nat.mod_eq_of_lt (by simp only [SIZEOF_PHDR]; omega)]
    have hz2 : g.ehdr.e_phentsize * g.ehdr.e_phnum ≠ 0 := by
      rw [f2]; simp only [SIZEOF_PHDR]; omega
    simp [segment_of, f5, hz, hz2]
  · obtain ⟨ph, hph, rfl⟩ := List.mem_map.mp h
    obtain ⟨hmem, hcond⟩ := List.mem_filter.mp hph
    obtain ⟨k, hk, hget⟩ := List.getElem_of_mem hmem
    refine ⟨(k : Int), ?_, ?_⟩
    · refine List.mem_cons_of_mem _ (List.mem_cons_of_mem _ (List.mem_map.mpr ⟨k, ?_, rfl⟩))
      exact List.mem_range.mpr (by omega)
    · have h1 : ¬ ((k : Int) = -2) := by omega
      have h2 : ¬ ((k : Int) = -1) := by omega
      have hg : g.phdr[k]? = some ph := by rw [List.getElem?_eq_getElem hk, hget]
      simp only [decide_eq_true_eq] at hcond
      simp [segment_of, h1, h2, hg, hcond.1, hcond.2]

/-- The loop of `compute_regions`, run over any list of values of `i`, keeps the
invariant and covers exactly the bytes of the parts it has added. -/
theorem foldl_iter_ok {ENDIAN : Int} {rd_ehdr : Option Elf32_Ehdr}
    {rd_phdr : Option (List Elf32_Phdr)} {g : hdrs}
    (hacc : read_hdrs ENDIAN rd_ehdr rd_phdr = .ok g) (hok : hdrs_ok g)
    (hnw : ∀ s ∈ retained_ranges g, s.1 + s.2 < 4294967296) (is : List Int) :
    ∀ L0 : List region, ok_from 0 L0 →
    ok_from 0 (is.foldl (compute_regions_iter g) L0) ∧
    ∀ x, in_regions (is.foldl (compute_regions_iter g) L0) x ↔
      (in_regions L0 x ∨ ∃ i ∈ is, ∃ s, segment_of g i = some s ∧ in_range x s) := by
  induction is with
  | nil => intro L0 h0; exact ⟨h0, fun x => by simp⟩
  | cons i rest ih =>
    intro L0 h0
    simp only [List.foldl_cons]
    have hstep : ok_from 0 (compute_regions_iter g L0 i) ∧
        ∀ x, in_regions (compute_regions_iter g L0 i) x ↔
          (in_regions L0 x ∨ ∃ s, segment_of g i = some s ∧ in_range x s) := by
      unfold compute_regions_iter
      cases hs : segment_of g i with
      | none => exact ⟨h0, fun x => by simp⟩
      | some s =>
        obtain ⟨m1, m2⟩ := segment_of_retained hacc hok hs
        obtain ⟨i1, i2⟩ := insert_region_ok s.1 s.2 m2 (hnw s m1) L0 h0
        exact ⟨i1, fun x => by simp [i2 x, in_range]⟩
    obtain ⟨j1, j2⟩ := ih _ hstep.1
    refine ⟨j1, fun x => ?_⟩
    rw [j2 x, hstep.2 x]
    constructor
    · rintro ((h | ⟨s, h1, h2⟩) | ⟨j, hj, s, h1, h2⟩)
      · exact Or.inl h
      · exact Or.inr ⟨i, List.mem_cons_self _ _, s, h1, h2⟩
      · exact Or.inr ⟨j, List.mem_cons_of_mem _ hj, s, h1, h2⟩
    · rintro (h | ⟨j, hj, s, h1, h2⟩)
      · exact Or.inl (Or.inl h)
      · rcases List.mem_cons.mp hj with rfl | hj
        · exact Or.inl (Or.inr ⟨s, h1, h2⟩)
        · exact Or.inr ⟨j, hj, s, h1, h2⟩

/-! ## Lemmas: one insertion into the region list, with 32-bit wrap -/

theorem sorted_from_mono {lo lo' : Nat} (h : lo' ≤ lo) :
    ∀ {L : List region}, sorted_from lo L → sorted_from lo' L
  | [], _ => trivial
  | _ :: _, ⟨h1, h2, h3⟩ => ⟨le_trans h h1, h2, h3⟩

theorem held_by_cons (o e : Nat) (a : region) (L : List region) :
    held_by o e (a :: L) ↔
      (a.offset ≤ o ∧ e ≤ add32 a.offset a.filesz) ∨ held_by o e L := by
  simp [held_by]

/-- The loop of lines 299-307 keeps the list sorted, and every part held by a region
before is held by a region after, in 32-bit arithmetic. -/
theorem merge_next_held (q : List region) : ∀ p : region, p.offset < 4294967296 →
    0 < p.filesz → p.filesz < 4294967296 → sorted_from p.offset q →
    sorted_from p.offset (merge_next p q) ∧
    ∀ o e, held_by o e (p :: q) → held_by o e (merge_next p q) := by
  induction q with
  | nil =>
    intro p hp hp1 hp2 _
    exact ⟨⟨le_refl _, hp, hp1, hp2, trivial⟩, fun o e h => h⟩
  | cons a rest ih =>
    intro p hp hp1 hp2 hq
    obtain ⟨ha1, ha2, ha4, ha5, ha3⟩ := hq
    simp only [merge_next]
    by_cases hc : a.offset ≤ add32 p.offset p.filesz
    · rw [if_pos hc]
      by_cases he : add32 a.offset a.filesz > add32 p.offset p.filesz
      · rw [if_pos he]
        have hw : add32 p.offset (add32 (sub32 a.offset p.offset) a.filesz) =
            add32 a.offset a.filesz := by
          simp only [add32, sub32]; omega
        obtain ⟨i1, i2⟩ := ih { p with filesz := add32 (sub32 a.offset p.offset) a.filesz }
          hp (by simp only [add32, sub32] at hc he ⊢; omega)
          (by simp only [add32, sub32]; omega) (sorted_from_mono ha1 ha3)
        refine ⟨i1, fun o e h => i2 o e ?_⟩
        rw [held_by_cons] at h ⊢
        simp only [hw]
        rcases h with h | h
        · left; omega
        · rw [held_by_cons] at h
          rcases h with h | h
          · left; omega
          · exact Or.inr h
      · rw [if_neg he]
        obtain ⟨i1, i2⟩ := ih p hp hp1 hp2 (sorted_from_mono ha1 ha3)
        refine ⟨i1, fun o e h => i2 o e ?_⟩
        rw [held_by_cons] at h ⊢
        rcases h with h | h
        · exact Or.inl h
        · rw [held_by_cons] at h
          rcases h with h | h
          · left; omega
          · exact Or.inr h
    · rw [if_neg hc]
      exact ⟨⟨le_refl _, hp, hp1, hp2, ha1, ha2, ha4, ha5, ha3⟩, fun o e h => h⟩

/-- Lines 282-307 after a scan that stopped behind `p`, in 32-bit arithmetic: the list
stays sorted, what was held stays held, and the new part is held. -/
theorem merge_at_some_held (s_offset s_filesz : Nat) (p : region) (q : List region)
    (hs : s_offset < 4294967296) (hs1 : 0 < s_filesz) (hs2 : s_filesz < 4294967296)
    (hp : p.offset < s_offset) (hp1 : 0 < p.filesz) (hp2 : p.filesz < 4294967296)
    (hq : sorted_from s_offset q) :
    sorted_from p.offset (merge_at s_offset s_filesz (some p) q) ∧
    (∀ o e, held_by o e (p :: q) → held_by o e (merge_at s_offset s_filesz (some p) q)) ∧
    held_by s_offset (add32 s_offset s_filesz) (merge_at s_offset s_filesz (some p) q) := by
  simp only [merge_at]
  by_cases hc : add32 p.offset p.filesz ≥ s_offset
  · rw [if_pos hc]
    by_cases he : add32 s_offset s_filesz > add32 p.offset p.filesz
    · rw [if_pos he]
      have hw : add32 p.offset (add32 (sub32 s_offset p.offset) s_filesz) =
          add32 s_offset s_filesz := by
        simp only [add32, sub32]; omega
      obtain ⟨i1, i2⟩ := merge_next_held q
        { p with filesz := add32 (sub32 s_offset p.offset) s_filesz }
        (by simp only []; omega) (by simp only [add32, sub32] at hc he ⊢; omega)
        (by simp only [add32, sub32]; omega)
        (sorted_from_mono (by simp only []; omega) hq)
      refine ⟨i1, fun o e h => i2 o e ?_, i2 _ _ ?_⟩
      · rw [held_by_cons] at h ⊢
        simp only [hw]
        rcases h with h | h
        · left; omega
        · exact Or.inr h
      · rw [held_by_cons]
        simp only [hw]
        left; omega
    · rw [if_neg he]
      obtain ⟨i1, i2⟩ := merge_next_held q p (by omega) hp1 hp2
        (sorted_from_mono (by omega) hq)
      refine ⟨i1, fun o e h => i2 o e h, i2 _ _ ?_⟩
      rw [held_by_cons]
      left; omega
  · rw [if_neg hc]
    obtain ⟨i1, i2⟩ := merge_next_held q
      { offset := s_offset, filesz := s_filesz, disp := 0, toffset := 0 } hs hs1 hs2 hq
    refine ⟨⟨le_refl _, by omega, hp1, hp2, sorted_from_mono (by simp only []; omega) i1⟩,
      fun o e h => ?_, ?_⟩
    · rw [held_by_cons] at h ⊢
      rcases h with h | h
      · exact Or.inl h
      · exact Or.inr (i2 o e ((held_by_cons _ _ _ _).mpr (Or.inr h)))
    · rw [held_by_cons]
      exact Or.inr (i2 _ _ ((held_by_cons _ _ _ _).mpr (Or.inl ⟨le_refl _, le_refl _⟩)))

/-- Lines 282-307 after a scan that stopped at the first region, in 32-bit arithmetic. -/
theorem merge_at_none_held (s_offset s_filesz : Nat) (q : List region)
    (hs : s_offset < 4294967296) (hs1 : 0 < s_filesz) (hs2 : s_filesz < 4294967296)
    (hq : sorted_from s_offset q) :
    sorted_from s_offset (merge_at s_offset s_filesz none q) ∧
    (∀ o e, held_by o e q → held_by o e (merge_at s_offset s_filesz none q)) ∧
    held_by s_offset (add32 s_offset s_filesz) (merge_at s_offset s_filesz none q) := by
  simp only [merge_at]
  obtain ⟨i1, i2⟩ := merge_next_held q
    { offset := s_offset, filesz := s_filesz, disp := 0, toffset := 0 } hs hs1 hs2 hq
  exact ⟨i1, fun o e h => i2 o e ((held_by_cons _ _ _ _).mpr (Or.inr h)),
    i2 _ _ ((held_by_cons _ _ _ _).mpr (Or.inl ⟨le_refl _, le_refl _⟩))⟩

/-- The scan of lines 277-281 followed by the merge, in 32-bit arithmetic. -/
theorem insert_scan_some_held (s_offset s_filesz : Nat) (hs : s_offset < 4294967296)
    (hs1 : 0 < s_filesz) (hs2 : s_filesz < 4294967296)
    (L : List region) : ∀ p : region, p.offset < s_offset → 0 < p.filesz →
    p.filesz < 4294967296 → sorted_from p.offset L →
    sorted_from p.offset (insert_scan s_offset s_filesz (some p) L) ∧
    (∀ o e, held_by o e (p :: L) →
      held_by o e (insert_scan s_offset s_filesz (some p) L)) ∧
    held_by s_offset (add32 s_offset s_filesz) (insert_scan s_offset s_filesz (some p) L) := by
  induction L with
  | nil =>
    intro p hp hp1 hp2 _
    simp only [insert_scan]
    exact merge_at_some_held s_offset s_filesz p [] hs hs1 hs2 hp hp1 hp2 trivial
  | cons q rest ih =>
    intro p hp hp1 hp2 hL
    simp only [insert_scan]
    obtain ⟨hq0, hq1, hq3, hq4, hq2⟩ := hL
    by_cases hc : q.offset < s_offset
    · rw [if_pos hc]
      obtain ⟨i1, i2, i3⟩ := ih q hc hq3 hq4 hq2
      simp only [Option.toList, List.singleton_append]
      refine ⟨⟨le_refl _, by omega, hp1, hp2, sorted_from_mono hq0 i1⟩,
        fun o e h => ?_, ?_⟩
      · rw [held_by_cons] at h ⊢
        rcases h with h | h
        · exact Or.inl h
        · exact Or.inr (i2 o e h)
      · exact (held_by_cons _ _ _ _).mpr (Or.inr i3)
    · rw [if_neg hc]
      exact merge_at_some_held s_offset s_filesz p (q :: rest) hs hs1 hs2 hp hp1 hp2
        ⟨by omega, hq1, hq3, hq4, hq2⟩

/-- One insertion, in 32-bit arithmetic: the list stays sorted with positive sizes, what
was held stays held, and the new part is held. -/
theorem insert_region_held (s_offset s_filesz : Nat) (hs : s_offset < 4294967296)
    (hs1 : 0 < s_filesz) (hs2 : s_filesz < 4294967296)
    (L : List region) (hL : sorted_from 0 L) :
    sorted_from 0 (insert_region s_offset s_filesz L) ∧
    (∀ o e, held_by o e L → held_by o e (insert_region s_offset s_filesz L)) ∧
    held_by s_offset (add32 s_offset s_filesz) (insert_region s_offset s_filesz L) := by
  unfold insert_region
  cases L with
  | nil =>
    simp only [insert_scan]
    obtain ⟨i1, i2, i3⟩ := merge_at_none_held s_offset s_filesz [] hs hs1 hs2 trivial
    exact ⟨sorted_from_mono (Nat.zero_le _) i1, i2, i3⟩
  | cons q rest =>
    simp only [insert_scan]
    obtain ⟨_, hq1, hq3, hq4, hq2⟩ := hL
    by_cases hc : q.offset < s_offset
    · rw [if_pos hc]
      obtain ⟨i1, i2, i3⟩ := insert_scan_some_held s_offset s_filesz hs hs1 hs2 rest q hc
        hq3 hq4 hq2
      simp only [Option.toList, List.nil_append]
      exact ⟨sorted_from_mono (Nat.zero_le _) i1, i2, i3⟩
    · rw [if_neg hc]
      obtain ⟨i1, i2, i3⟩ := merge_at_none_held s_offset s_filesz (q :: rest) hs hs1 hs2
        ⟨by omega, hq1, hq3, hq4, hq2⟩
      exact ⟨sorted_from_mono (Nat.zero_le _) i1, i2, i3⟩

/-- The parts that `compute_regions` adds have 32-bit offsets and positive 32-bit sizes. -/
theorem segment_of_lt {ENDIAN : Int} {rd_ehdr : Option Elf32_Ehdr}
    {rd_phdr : Option (List Elf32_Phdr)} {g : hdrs}
    (hacc : read_hdrs ENDIAN rd_ehdr rd_phdr = .ok g) (hok : hdrs_ok g)
    {i : Int} {s : Nat × Nat} (h : segment_of g i = some s) :
    s.1 < 4294967296 ∧ 0 < s.2 ∧ s.2 < 4294967296 := by
  obtain ⟨f1, f2, f3, f4, f5, f6⟩ := read_hdrs_ok_facts hacc
  have hn : g.ehdr.e_phoff < 4294967296 := hok.1.2.2.2.2.2.2.1
  unfold segment_of at h
  split_ifs at h with h1 h2 h3 h4
  · injection h with h; subst h; decide
  · injection h with h; subst h
    refine ⟨by simp only [f5]; exact hn, Nat.pos_of_ne_zero h4, ?_⟩
    simp only [f6]
    exact Nat.mod_lt _ (by decide)
  · split at h
    · exact absurd h (by simp)
    · rename_i ph hph
      split_ifs at h with h5 h6
      injection h with h; subst h
      have hp := hok.2 ph (List.getElem?_mem hph)
      exact ⟨hp.2.1, Nat.pos_of_ne_zero h6, hp.2.2.2.2.1⟩

/-- The loop of `compute_regions`, with no assumption on wrap: the list is sorted with
positive sizes and holds every part added so far. -/
theorem foldl_iter_held {ENDIAN : Int} {rd_ehdr : Option Elf32_Ehdr}
    {rd_phdr : Option (List Elf32_Phdr)} {g : hdrs}
    (hacc : read_hdrs ENDIAN rd_ehdr rd_phdr = .ok g) (hok : hdrs_ok g) (is : List Int) :
    ∀ L0 : List region, sorted_from 0 L0 →
    sorted_from 0 (is.foldl (compute_regions_iter g) L0) ∧
    (∀ o e, held_by o e L0 → held_by o e (is.foldl (compute_regions_iter g) L0)) ∧
    ∀ i ∈ is, ∀ s, segment_of g i = some s →
      held_by s.1 (add32 s.1 s.2) (is.foldl (compute_regions_iter g) L0) := by
  induction is with
  | nil => intro L0 h0; exact ⟨h0, fun _ _ h => h, fun i hi => absurd hi (List.not_mem_nil i)⟩
  | cons i rest ih =>
    intro L0 h0
    simp only [List.foldl_cons]
    have hstep : sorted_from 0 (compute_regions_iter g L0 i) ∧
        (∀ o e, held_by o e L0 → held_by o e (compute_regions_iter g L0 i)) ∧
        ∀ s, segment_of g i = some s →
          held_by s.1 (add32 s.1 s.2) (compute_regions_iter g L0 i) := by
      unfold compute_regions_iter
      cases hs : segment_of g i with
      | none => exact ⟨h0, fun _ _ h => h, fun s h => absurd h (by simp)⟩
      | some s =>
        obtain ⟨b1, b2, b3⟩ := segment_of_lt hacc hok hs
        obtain ⟨i1, i2, i3⟩ := insert_region_held s.1 s.2 b1 b2 b3 L0 h0
        refine ⟨i1, i2, fun s' h' => ?_⟩
        injection h' with h'
        subst h'
        exact i3
    obtain ⟨j1, j2, j3⟩ := ih _ hstep.1
    refine ⟨j1, fun o e h => j2 o e (hstep.2.1 o e h), fun j hj s hs => ?_⟩
    rcases List.mem_cons.mp hj with rfl | hj
    · exact j2 _ _ (hstep.2.2 s hs)
    · exact j3 j hj s hs

theorem sorted_from_all {lo : Nat} : ∀ {L : List region}, sorted_from lo L →
    ∀ r ∈ L, lo ≤ r.offset ∧ 0 < r.filesz
  | [], _ => by simp
  | a :: rest, ⟨h1, _, h3, _, h5⟩ => by
    intro r hr
    rcases List.mem_cons.mp hr with rfl | hr
    · exact ⟨h1, h3⟩
    · obtain ⟨k1, k2⟩ := sorted_from_all h5 r hr
      exact ⟨by omega, k2⟩

theorem sorted_from_pairwise {lo : Nat} : ∀ {L : List region}, sorted_from lo L →
    L.Pairwise (fun a b => a.offset ≤ b.offset)
  | [], _ => List.Pairwise.nil
  | _ :: _, ⟨_, _, _, _, h5⟩ =>
    List.Pairwise.cons (fun b hb => (sorted_from_all h5 b hb).1) (sorted_from_pairwise h5)

/-! ## C1: the merge invariant -/

/-- C1 (amended): for every header and table accepted by `read_hdrs`, the region list
of `compute_regions` after any number `k` of loop iterations, and the final list, is
sorted by ascending offset and has only regions of positive size; and when every
retained range has offset + size < 2^32, the offsets are strictly ascending and no two
consecutive regions overlap or touch. -/
theorem compute_regions_merge_invariant (ENDIAN : Int) (rd_ehdr : Option Elf32_Ehdr)
    (rd_phdr : Option (List Elf32_Phdr)) (g : hdrs)
    (hacc : read_hdrs ENDIAN rd_ehdr rd_phdr = .ok g) (hok : hdrs_ok g) (k : Nat) :
    ((compute_regions_upto g ((long_range (-2) g.ehdr.e_phnum).take k)).Pairwise
        (fun a b => a.offset ≤ b.offset) ∧
      ∀ r ∈ compute_regions_upto g ((long_range (-2) g.ehdr.e_phnum).take k),
        0 < r.filesz) ∧
    ((compute_regions g).Pairwise (fun a b => a.offset ≤ b.offset) ∧
      ∀ r ∈ compute_regions g, 0 < r.filesz) ∧
    ((∀ s ∈ retained_ranges g, s.1 + s.2 < 4294967296) →
      merge_invariant (compute_regions_upto g ((long_range (-2) g.ehdr.e_phnum).take k)) ∧
      merge_invariant (compute_regions g)) :=
  ⟨⟨sorted_from_pairwise (foldl_iter_held hacc hok _ [] trivial).1,
    fun r hr => (sorted_from_all (foldl_iter_held hacc hok _ [] trivial).1 r hr).2⟩,
   ⟨sorted_from_pairwise (foldl_iter_held hacc hok _ [] trivial).1,
    fun r hr => (sorted_from_all (foldl_iter_held hacc hok _ [] trivial).1 r hr).2⟩,
   fun hnw => ⟨ok_from_merge_invariant (foldl_iter_ok hacc hok hnw _ [] trivial).1,
    ok_from_merge_invariant (foldl_iter_ok hacc hok hnw _ [] trivial).1⟩⟩

/-- C1, witness: the invariant after the first three iterations and at the end, for two
segments a megabyte apart. -/
theorem compute_regions_merge_invariant_witness :
    read_hdrs 0 (some (example_ehdr 52 2)) (some two_segments) = .ok two_segment_hdrs ∧
    hdrs_ok two_segment_hdrs ∧
    (∀ s ∈ retained_ranges two_segment_hdrs, s.1 + s.2 < 4294967296) ∧
    ((compute_regions_upto two_segment_hdrs
        ((long_range (-2) two_segment_hdrs.ehdr.e_phnum).take 3)).Pairwise
        (fun a b => a.offset ≤ b.offset) ∧
      ∀ r ∈ compute_regions_upto two_segment_hdrs
          ((long_range (-2) two_segment_hdrs.ehdr.e_phnum).take 3),
        0 < r.filesz) ∧
    ((compute_regions two_segment_hdrs).Pairwise (fun a b => a.offset ≤ b.offset) ∧
      ∀ r ∈ compute_regions two_segment_hdrs, 0 < r.filesz) ∧
    merge_invariant (compute_regions_upto two_segment_hdrs
      ((long_range (-2) two_segment_hdrs.ehdr.e_phnum).take 3)) ∧
    merge_invariant (compute_regions two_segment_hdrs) :=
  ⟨rfl, by decide, by decide,
   (compute_regions_merge_invariant 0 (some (example_ehdr 52 2)) (some two_segments)
     two_segment_hdrs rfl (by decide) 3).1,
   (compute_regions_merge_invariant 0 (some (example_ehdr 52 2)) (some two_segments)
     two_segment_hdrs rfl (by decide) 3).2.1,
   (compute_regions_merge_invariant 0 (some (example_ehdr 52 2)) (some two_segments)
     two_segment_hdrs rfl (by decide) 3).2.2 (by decide)⟩

/-- C1, counterexample: `read_hdrs` accepts a table whose second segment wraps past
`2^32`; `compute_regions` then leaves two regions with the same offset, the first
overlapping the second. -/
theorem compute_regions_wrap_counterexample :
    read_hdrs 0 (some (example_ehdr 52 2)) (some wrapping_segments)
      = .ok wrapping_hdrs ∧
    hdrs_ok wrapping_hdrs ∧
    compute_regions wrapping_hdrs =
      [{ offset := 0, filesz := 116, disp := 0, toffset := 0 },
       { offset := 0xFFFFFFF0, filesz := 0x20, disp := 0, toffset := 0 },
       { offset := 0xFFFFFFF0, filesz := 4, disp := 0, toffset := 0 }] ∧
    ¬ merge_invariant (compute_regions wrapping_hdrs) := by
  have h : compute_regions wrapping_hdrs =
      [{ offset := 0, filesz := 116, disp := 0, toffset := 0 },
       { offset := 0xFFFFFFF0, filesz := 0x20, disp := 0, toffset := 0 },
       { offset := 0xFFFFFFF0, filesz := 4, disp := 0, toffset := 0 }] := by decide
  refine ⟨rfl, by decide, h, ?_⟩
  rw [h]
  rintro ⟨h1, _, _⟩
  simp at h1

/-! ## C2: the regions are the maximal runs of the important bytes -/

/-- Two regions of a list with the invariant are equal or apart. -/
theorem regions_apart {lo : Nat} {L : List region} (hL : ok_from lo L)
    {r r' : region} (hr : r ∈ L) (hr' : r' ∈ L) :
    r = r' ∨ r.offset + r.filesz < r'.offset ∨ r'.offset + r'.filesz < r.offset := by
  have hp := ok_from_pairwise hL
  have := List.Pairwise.forall_of_forall
    (R := fun a b : region => a = b ∨ a.offset + a.filesz < b.offset ∨
      b.offset + b.filesz < a.offset)
    (fun a b h => by rcases h with h | h | h
                     · exact Or.inl h.symm
                     · exact Or.inr (Or.inr h)
                     · exact Or.inr (Or.inl h))
    (fun x _ => Or.inl rfl)
    (hp.imp (fun {a b} h => Or.inr (Or.inl h)))
  exact this hr hr'

/-- The regions of a list with the invariant are exactly the maximal runs of the bytes
it covers. -/
theorem maximal_run_iff_region {lo : Nat} {L : List region} (hL : ok_from lo L)
    {U : Nat → Prop} (hU : ∀ x, in_regions L x ↔ U x) (a b : Nat) :
    maximal_run U a b ↔ ∃ r ∈ L, r.offset = a ∧ r.offset + r.filesz = b := by
  constructor
  · rintro ⟨hab, hin, hb, ha⟩
    obtain ⟨r, hr, hr1, hr2⟩ := (hU a).mpr (hin a (le_refl _) hab)
    refine ⟨r, hr, ?_, ?_⟩
    · by_contra hne
      have h1 : U (a - 1) := (hU (a - 1)).mp ⟨r, hr, by omega, by omega⟩
      rcases ha with ha | ha
      · omega
      · exact ha h1
    · by_contra hne
      rcases Nat.lt_or_gt_of_ne hne with hlt | hgt
      · obtain ⟨r', hr', h1, h2⟩ := (hU (r.offset + r.filesz)).mpr (hin _ (by omega) hlt)
        rcases regions_apart hL hr hr' with h | h | h
        · subst h; omega
        · omega
        · omega
      · exact hb ((hU b).mp ⟨r, hr, by omega, by omega⟩)
  · rintro ⟨r, hr, rfl, rfl⟩
    have hv := ok_from_all hL r hr
    refine ⟨by omega, fun x h1 h2 => (hU x).mp ⟨r, hr, h1, h2⟩, fun hb => ?_, ?_⟩
    · obtain ⟨r', hr', h1, h2⟩ := (hU _).mpr hb
      rcases regions_apart hL hr hr' with h | h | h
      · subst h; omega
      · omega
      · omega
    · by_cases h0 : r.offset = 0
      · exact Or.inl h0
      · refine Or.inr (fun hb => ?_)
        obtain ⟨r', hr', h1, h2⟩ := (hU _).mpr hb
        rcases regions_apart hL hr hr' with h | h | h
        · subst h; omega
        · omega
        · omega

/-- Without wrap, the regions of `compute_regions` cover exactly the important bytes. -/
theorem compute_regions_important {ENDIAN : Int} {rd_ehdr : Option Elf32_Ehdr}
    {rd_phdr : Option (List Elf32_Phdr)} {g : hdrs}
    (hacc : read_hdrs ENDIAN rd_ehdr rd_phdr = .ok g) (hok : hdrs_ok g)
    (hnw : ∀ s ∈ retained_ranges g, s.1 + s.2 < 4294967296) (x : Nat) :
    in_regions (compute_regions g) x ↔ important g x := by
  unfold compute_regions compute_regions_upto important
  rw [(foldl_iter_ok hacc hok hnw _ [] trivial).2 x]
  constructor
  · rintro (h | ⟨i, _, s, h1, h2⟩)
    · exact absurd h (in_regions_nil x)
    · exact ⟨s, (segment_of_retained hacc hok h1).1, h2⟩
  · rintro ⟨s, hs, hx⟩
    obtain ⟨i, hi, h1⟩ := retained_segment_of hacc hok hs
    exact Or.inr ⟨i, hi, s, h1, hx⟩

/-- C2 (amended): for every accepted input in which every retained range has
offset + size < 2^32, a byte offset lies in some region of `compute_regions` if and only
if it lies in a retained range, the list satisfies the merge invariant, and the regions
are exactly the maximal contiguous runs of the retained bytes. -/
theorem compute_regions_minimal_cover (ENDIAN : Int) (rd_ehdr : Option Elf32_Ehdr)
    (rd_phdr : Option (List Elf32_Phdr)) (g : hdrs)
    (hacc : read_hdrs ENDIAN rd_ehdr rd_phdr = .ok g) (hok : hdrs_ok g)
    (hnw : ∀ s ∈ retained_ranges g, s.1 + s.2 < 4294967296) :
    (∀ x, in_regions (compute_regions g) x ↔ important g x) ∧
    merge_invariant (compute_regions g) ∧
    (∀ a b, maximal_run (important g) a b ↔
      ∃ r ∈ compute_regions g, r.offset = a ∧ r.offset + r.filesz = b) :=
  ⟨compute_regions_important hacc hok hnw,
   ok_from_merge_invariant (foldl_iter_ok hacc hok hnw _ [] trivial).1,
   maximal_run_iff_region (foldl_iter_ok hacc hok hnw _ [] trivial).1
     (compute_regions_important hacc hok hnw)⟩

/-- C2, witness: two segments a megabyte apart give the runs `[0, 0x200)` and
`[0x100000, 0x100300)`. -/
theorem compute_regions_minimal_cover_witness :
    read_hdrs 0 (some (example_ehdr 52 2)) (some two_segments)
      = .ok two_segment_hdrs ∧
    hdrs_ok two_segment_hdrs ∧
    (∀ s ∈ retained_ranges two_segment_hdrs, s.1 + s.2 < 4294967296) ∧
    (∀ x, in_regions (compute_regions two_segment_hdrs) x ↔
      important two_segment_hdrs x) ∧
    merge_invariant (compute_regions two_segment_hdrs) ∧
    (∀ a b, maximal_run (important two_segment_hdrs) a b ↔
      ∃ r ∈ compute_regions two_segment_hdrs,
        r.offset = a ∧ r.offset + r.filesz = b) :=
  ⟨rfl, by decide, by decide,
   compute_regions_minimal_cover 0 (some (example_ehdr 52 2)) (some two_segments)
     two_segment_hdrs rfl (by decide) (by decide)⟩

/-- C2, counterexample: every retained range has offset + size <= 2^32 and the last
byte below `2^32` lies in the second segment, whose range ends exactly at `2^32`, yet
no region of `compute_regions` holds that byte. -/
theorem compute_regions_boundary_counterexample :
    read_hdrs 0 (some (example_ehdr 52 2)) (some boundary_segments)
      = .ok boundary_hdrs ∧
    hdrs_ok boundary_hdrs ∧
    (∀ s ∈ retained_ranges boundary_hdrs, s.1 + s.2 ≤ 4294967296) ∧
    important boundary_hdrs 0xFFFFFFFF ∧
    ¬ in_regions (compute_regions boundary_hdrs) 0xFFFFFFFF := by
  refine ⟨rfl, by decide, by decide, by decide, by decide⟩

/-! ## C3 and C4: compute_disps -/

/-- The loop of `compute_disps` from any `curoff`: page-multiple displacements, and the
offsets and sizes of the input list. -/
theorem compute_disps_from_spec (L : List region) : ∀ curoff : Nat,
    (∀ r ∈ compute_disps_from curoff L,
      PAGESIZE ∣ r.disp ∧ r.toffset = sub32 r.offset r.disp ∧
      r.toffset % PAGESIZE = r.offset % PAGESIZE) ∧
    (compute_disps_from curoff L).map (fun r => (r.offset, r.filesz)) =
      L.map (fun r => (r.offset, r.filesz)) := by
  induction L with
  | nil => intro _; simp [compute_disps_from]
  | cons p rest ih =>
    intro curoff
    simp only [compute_disps_from, List.mem_cons, List.map_cons]
    refine ⟨fun r hr => ?_, ?_⟩
    · rcases hr with rfl | hr
      · refine ⟨?_, rfl, ?_⟩
        · simp only [PAGESIZE, sub32]; omega
        · simp only [PAGESIZE, sub32]; omega
      · exact (ih _).1 r hr
    · rw [(ih _).2]

/-- The merge invariant in the recursive form used by the proofs. -/
theorem sep_from_of_chain (L : List region) : ∀ lo : Nat,
    L.Chain' (fun a b => a.offset + a.filesz < b.offset) →
    (∀ r ∈ L, 0 < r.filesz ∧ r.offset + r.filesz ≤ 4294967296) →
    (∀ r, L.head? = some r → lo ≤ r.offset) → sep_from lo L := by
  induction L with
  | nil => intro _ _ _ _; trivial
  | cons a rest ih =>
    intro lo hc hv hh
    refine ⟨hh a rfl, (hv a (List.mem_cons_self _ _)).1, (hv a (List.mem_cons_self _ _)).2, ?_⟩
    refine ih _ hc.tail (fun r hr => hv r (List.mem_cons_of_mem _ hr)) (fun r hr => ?_)
    cases rest with
    | nil => simp at hr
    | cons b rest' =>
      simp only [List.head?_cons, Option.some.injEq] at hr
      subst hr
      have := (List.chain'_cons.mp hc).1
      omega

/-- The loop of `compute_disps` on a separated list never underflows and places the
regions one after the other, less than a page apart. -/
theorem compute_disps_from_placed (L : List region) : ∀ curoff lo : Nat,
    sep_from lo L → curoff ≤ lo →
    disps_no_underflow curoff L ∧ placed_from curoff (compute_disps_from curoff L) := by
  induction L with
  | nil => intro _ _ _ _; exact ⟨trivial, trivial⟩
  | cons p rest ih =>
    intro curoff lo hs hc
    obtain ⟨h1, h2, h3, h4⟩ := hs
    simp only [compute_disps_from, disps_no_underflow, placed_from]
    have hd : sub32 p.offset ((sub32 p.offset curoff) / PAGESIZE * PAGESIZE % 4294967296)
        = curoff + (p.offset - curoff) % 4096 := by
      simp only [sub32, PAGESIZE]; omega
    rw [hd]
    have hle : add32 (curoff + (p.offset - curoff) % 4096) p.filesz ≤
        curoff + (p.offset - curoff) % 4096 + p.filesz := by
      simp only [add32]; exact Nat.mod_le _ _
    obtain ⟨i1, i2⟩ := ih (add32 (curoff + (p.offset - curoff) % 4096) p.filesz)
      (p.offset + p.filesz + 1) h4 (by omega)
    refine ⟨⟨by omega, i1⟩, by omega, by simp only [PAGESIZE]; omega,
      by simp only [sub32, PAGESIZE]; omega, ?_⟩
    cases rest with
    | nil => trivial
    | cons b rest' =>
      have hb := h4.1
      have hb2 := h4.2.2.1
      have heq : add32 (curoff + (p.offset - curoff) % 4096) p.filesz =
          curoff + (p.offset - curoff) % 4096 + p.filesz := by
        simp only [add32]; omega
      rw [← heq]
      exact i2

theorem placed_from_chain (L : List region) : ∀ curoff : Nat, placed_from curoff L →
    L.Chain' (fun a b => a.toffset + a.filesz ≤ b.toffset ∧
      b.toffset < a.toffset + a.filesz + PAGESIZE) := by
  induction L with
  | nil => intro _ _; exact List.chain'_nil
  | cons a rest ih =>
    intro curoff h
    cases rest with
    | nil => exact List.chain'_singleton _
    | cons b rest' =>
      exact List.chain'_cons.mpr ⟨⟨h.2.2.2.1, h.2.2.2.2.1⟩, ih _ h.2.2.2⟩

/-- C3: for every region list, `compute_disps` gives each region a displacement `disp`
that is a whole multiple of `PAGESIZE` and `toffset = offset - disp` in 32-bit unsigned
arithmetic, so `toffset mod PAGESIZE = offset mod PAGESIZE`; the offsets and sizes of the
regions, and their order, are those of the input list. -/
theorem compute_disps_page_multiple (L : List region) :
    (∀ r ∈ compute_disps L,
      PAGESIZE ∣ r.disp ∧ r.toffset = sub32 r.offset r.disp ∧
      r.toffset % PAGESIZE = r.offset % PAGESIZE) ∧
    (compute_disps L).map (fun r => (r.offset, r.filesz)) =
      L.map (fun r => (r.offset, r.filesz)) :=
  compute_disps_from_spec L 0

/-- C4: for every region list that satisfies the merge invariant and has no range
wrapping past `2^32`, `compute_disps` never underflows `p->offset - curoff`, keeps the
input order, and places consecutive regions `a`, `b` with
`a.toffset + a.filesz <= b.toffset < a.toffset + a.filesz + PAGESIZE`; the first
region has `toffset < PAGESIZE`. -/
theorem compute_disps_placement (L : List region) (hinv : merge_invariant L)
    (hnw : ∀ r ∈ L, r.offset + r.filesz ≤ 4294967296) :
    disps_no_underflow 0 L ∧
    (compute_disps L).map (fun r => (r.offset, r.filesz)) =
      L.map (fun r => (r.offset, r.filesz)) ∧
    (compute_disps L).Chain' (fun a b => a.toffset + a.filesz ≤ b.toffset ∧
      b.toffset < a.toffset + a.filesz + PAGESIZE) ∧
    (∀ r, (compute_disps L).head? = some r → r.toffset < PAGESIZE) := by
  have hs : sep_from 0 L :=
    sep_from_of_chain L 0 hinv.2.1 (fun r hr => ⟨hinv.2.2 r hr, hnw r hr⟩)
      (fun _ _ => Nat.zero_le _)
  obtain ⟨h1, h2⟩ := compute_disps_from_placed L 0 0 hs (le_refl _)
  refine ⟨h1, (compute_disps_from_spec L 0).2, placed_from_chain _ 0 h2, fun r hr => ?_⟩
  unfold compute_disps at hr
  cases hL : compute_disps_from 0 L with
  | nil => rw [hL] at hr; simp at hr
  | cons a rest =>
    rw [hL] at hr h2
    simp only [List.head?_cons, Option.some.injEq] at hr
    subst hr
    have := h2.2.1
    omega

/-- C4, witness: two regions a megabyte apart. -/
theorem compute_disps_placement_witness :
    merge_invariant two_regions ∧
    (∀ r ∈ two_regions, r.offset + r.filesz ≤ 4294967296) ∧
    disps_no_underflow 0 two_regions ∧
    (compute_disps two_regions).map (fun r => (r.offset, r.filesz)) =
      two_regions.map (fun r => (r.offset, r.filesz)) ∧
    (compute_disps two_regions).Chain' (fun a b => a.toffset + a.filesz ≤ b.toffset ∧
      b.toffset < a.toffset + a.filesz + PAGESIZE) ∧
    (∀ r, (compute_disps two_regions).head? = some r → r.toffset < PAGESIZE) :=
  ⟨by simp [merge_invariant, two_regions], by decide,
   compute_disps_placement two_regions (by simp [merge_invariant, two_regions])
     (by decide)⟩

/-! ## Lemmas: the loop of modify_hdrs in closed form -/

theorem set_take_drop {α : Type} (f : α → α) (L : List α) (n : Nat) (h : n < L.length)
    (v : α) :
    ((L.take n).map f ++ L.drop n).set n v = (L.take n).map f ++ v :: L.drop (n + 1) := by
  have hl : ((L.take n).map f).length = n := by simp; omega
  rw [List.set_append_right _ _ (by omega), hl, Nat.sub_self, List.drop_eq_getElem_cons h,
    List.set_cons_zero]

theorem map_take_succ {α : Type} (f : α → α) (L : List α) (n : Nat) (h : n < L.length) :
    (L.take (n + 1)).map f ++ L.drop (n + 1) = (L.take n).map f ++ f L[n] :: L.drop (n + 1) := by
  rw [List.take_succ, List.getElem?_eq_getElem h]
  simp only [Option.toList, List.map_append, List.map_cons, List.map_nil, List.append_assoc,
    List.singleton_append]

theorem take_drop_self {α : Type} (f : α → α) (L : List α) (n : Nat) (h : n < L.length) :
    (L.take n).map f ++ L.drop n = (L.take n).map f ++ L[n] :: L.drop (n + 1) := by
  rw [List.drop_eq_getElem_cons h]

theorem getElem?_take_drop {α : Type} (f : α → α) (L : List α) (n : Nat) (h : n < L.length) :
    ((L.take n).map f ++ L.drop n)[n]? = some L[n] := by
  have hl : ((L.take n).map f).length = n := by simp; omega
  rw [List.getElem?_append_right (by omega), hl, Nat.sub_self, List.drop_eq_getElem_cons h]
  simp

/-- The first `n` iterations of the descriptor loop of `modify_hdrs` patch the first `n`
descriptors, when every search succeeds. -/
theorem modify_hdrs_loop (R : List region) (st : hdrs)
    (hf : ∀ ph ∈ st.phdr, ph.p_type ≠ PT_NULL → ph.p_filesz ≠ 0 →
      find_region R ph.p_offset ph.p_filesz ≠ none) :
    ∀ n : Nat, n ≤ st.phdr.length →
    ((List.range n).map (fun (k : Nat) => (k : Int))).foldlM (modify_hdrs_iter R) st =
      Except.ok { st with phdr := (st.phdr.take n).map (patched_phdr R) ++ st.phdr.drop n } := by
  intro n
  induction n with
  | zero => intro _; simp [List.foldlM, pure, Except.pure]
  | succ n ih =>
    intro hn
    have hlt : n < st.phdr.length := by omega
    rw [List.range_succ, List.map_append, List.foldlM_append, ih (by omega)]
    simp only [List.map_cons, List.map_nil, List.foldlM_cons, List.foldlM_nil]
    have h1 : ¬ ((n : Int) = -1) := by omega
    simp only [bind, Except.bind, modify_hdrs_iter, h1, if_false, Int.toNat_ofNat,
      getElem?_take_drop _ _ _ hlt, pure, Except.pure]
    have hmem : st.phdr[n] ∈ st.phdr := List.getElem_mem hlt
    by_cases hc : st.phdr[n].p_type = PT_NULL ∨ st.phdr[n].p_filesz = 0
    · rw [if_pos hc]
      have hp : patched_phdr R st.phdr[n] = st.phdr[n] := by simp [patched_phdr, hc]
      rw [map_take_succ _ _ _ hlt, hp, ← take_drop_self _ _ _ hlt]
    · rw [if_neg hc]
      push_neg at hc
      cases hfr : find_region R st.phdr[n].p_offset st.phdr[n].p_filesz with
      | none => exact absurd hfr (hf _ hmem hc.1 hc.2)
      | some p =>
        simp only []
        have hp : patched_phdr R st.phdr[n] =
            { st.phdr[n] with p_offset := sub32 st.phdr[n].p_offset p.disp } := by
          simp [patched_phdr, hc.1, hc.2, hfr]
        rw [map_take_succ _ _ _ hlt, hp, set_take_drop _ _ _ hlt]

/-- The result of `modify_hdrs` in closed form, when every search succeeds. -/
theorem modify_hdrs_eq (R : List region) (g : hdrs) (hlen : g.phdr.length = g.ehdr.e_phnum)
    (ht : find_region R g.ph_offset g.ph_filesz ≠ none)
    (hf : ∀ ph ∈ g.phdr, ph.p_type ≠ PT_NULL → ph.p_filesz ≠ 0 →
      find_region R ph.p_offset ph.p_filesz ≠ none) :
    modify_hdrs R g = Except.ok (patched_hdrs R g) := by
  unfold modify_hdrs
  rw [long_range_neg_one, List.foldlM_cons]
  cases hfr : find_region R g.ph_offset g.ph_filesz with
  | none => exact absurd hfr ht
  | some p =>
    simp only [modify_hdrs_iter, if_true, hfr, bind, Except.bind]
    refine (modify_hdrs_loop R _ ?_ g.ehdr.e_phnum ?_).trans ?_
    · exact hf
    · simp only []; omega
    · simp only [patched_hdrs, hfr, ← hlen, List.take_length, List.drop_length,
        List.append_nil]

/-! ## C5: every retained range is held by a region, also with 32-bit wrap -/

theorem compute_disps_same_ranges (L : List region) :
    (compute_disps L).map (fun r => (r.offset, r.filesz)) =
      L.map (fun r => (r.offset, r.filesz)) :=
  (compute_disps_from_spec L 0).2

/-- A part that is held by a region is found by the search of `modify_hdrs`. -/
theorem find_region_of_held {L : List region} {o f : Nat}
    (h : held_by o (add32 o f) L) : find_region (compute_disps L) o f ≠ none := by
  obtain ⟨r, hr, h1, h2⟩ := h
  have hm : (r.offset, r.filesz) ∈ (compute_disps L).map (fun r => (r.offset, r.filesz)) := by
    rw [compute_disps_same_ranges L]
    exact List.mem_map.mpr ⟨r, hr, rfl⟩
  obtain ⟨r', hr', he⟩ := List.mem_map.mp hm
  simp only [Prod.mk.injEq] at he
  intro hn
  unfold find_region at hn
  have := List.find?_eq_none.mp hn r' hr'
  simp only [region_holds, decide_eq_true_eq, he.1, he.2] at this
  exact this ⟨h1, h2⟩

/-- For every accepted input the search of `modify_hdrs` succeeds for the table and for
every descriptor that is neither null nor empty. -/
theorem compute_regions_held {ENDIAN : Int} {rd_ehdr : Option Elf32_Ehdr}
    {rd_phdr : Option (List Elf32_Phdr)} {g : hdrs}
    (hacc : read_hdrs ENDIAN rd_ehdr rd_phdr = .ok g) (hok : hdrs_ok g) :
    find_region (compute_disps (compute_regions g)) g.ph_offset g.ph_filesz ≠ none ∧
    ∀ ph ∈ g.phdr, ph.p_type ≠ PT_NULL → ph.p_filesz ≠ 0 →
      find_region (compute_disps (compute_regions g)) ph.p_offset ph.p_filesz ≠ none := by
  obtain ⟨f1, f2, f3, f4, f5, f6⟩ := read_hdrs_ok_facts hacc
  have hn : g.ehdr.e_phnum < 65536 := hok.1.2.2.2.2.2.2.2.2.2.2.2.1
  have hz : g.ph_filesz = g.ehdr.e_phentsize * g.ehdr.e_phnum := by
    rw [f6, f2, Nat.mod_eq_of_lt (by simp only [SIZEOF_PHDR]; omega)]
  have key := (foldl_iter_held hacc hok (long_range (-2) g.ehdr.e_phnum) [] trivial).2.2
  have hall : ∀ s ∈ retained_ranges g,
      find_region (compute_disps (compute_regions g)) s.1 s.2 ≠ none := by
    intro s hs
    obtain ⟨i, hi, h1⟩ := retained_segment_of hacc hok hs
    exact find_region_of_held (key i hi s h1)
  refine ⟨?_, fun ph hph h1 h2 => ?_⟩
  · have := hall (g.ehdr.e_phoff, g.ehdr.e_phentsize * g.ehdr.e_phnum)
      (List.mem_cons_of_mem _ (List.mem_cons_self _ _))
    rw [f5, hz]; exact this
  · refine hall (ph.p_offset, ph.p_filesz)
      (List.mem_cons_of_mem _ (List.mem_cons_of_mem _ (List.mem_map.mpr ⟨ph, ?_, rfl⟩)))
    exact List.mem_filter.mpr ⟨hph, by simp [h1, h2]⟩

theorem compute_disps_from_ok (L : List region) : ∀ lo curoff : Nat, ok_from lo L →
    ok_from lo (compute_disps_from curoff L) := by
  induction L with
  | nil => intro _ _ _; trivial
  | cons p rest ih =>
    intro lo curoff h
    exact ⟨h.1, h.2.1, h.2.2.1, ih _ _ h.2.2.2⟩

theorem compute_disps_from_in_regions (L : List region) (x : Nat) : ∀ curoff : Nat,
    in_regions (compute_disps_from curoff L) x ↔ in_regions L x := by
  induction L with
  | nil => intro _; exact Iff.rfl
  | cons p rest ih =>
    intro curoff
    simp only [compute_disps_from, in_regions_cons, ih]
    exact Iff.rfl

theorem ok_from_sep_from : ∀ (L : List region) (lo : Nat), ok_from lo L → sep_from lo L
  | [], _, _ => trivial
  | _ :: rest, _, ⟨h1, h2, h3, h4⟩ => ⟨h1, h2, by omega, ok_from_sep_from rest _ h4⟩

theorem placed_from_disp : ∀ (L : List region) (curoff : Nat), placed_from curoff L →
    ∀ r ∈ L, r.toffset + r.disp = r.offset
  | [], _, _ => by simp
  | a :: rest, _, ⟨_, _, h3, h4⟩ => by
    intro r hr
    rcases List.mem_cons.mp hr with rfl | hr
    · exact h3
    · exact placed_from_disp rest _ h4 r hr

/-- Without wrap, every region after `compute_disps` is moved down by its displacement,
a multiple of the page size. -/
theorem compute_disps_members {L : List region} (hL : ok_from 0 L) :
    ∀ r ∈ compute_disps L, PAGESIZE ∣ r.disp ∧ r.disp ≤ r.offset ∧
      r.toffset = r.offset - r.disp ∧ r.offset + r.filesz < 4294967296 := by
  intro r hr
  obtain ⟨h1, _, _⟩ := (compute_disps_from_spec L 0).1 r hr
  have h3 := placed_from_disp _ 0
    (compute_disps_from_placed L 0 0 (ok_from_sep_from L 0 hL) (le_refl _)).2 r hr
  have h4 := (ok_from_all (compute_disps_from_ok L 0 0 hL) r hr).2.2
  exact ⟨h1, by omega, by omega, h4⟩

theorem find_region_some {R : List region} {o f : Nat} {r : region}
    (h : find_region R o f = some r) :
    r ∈ R ∧ r.offset ≤ o ∧ add32 o f ≤ add32 r.offset r.filesz := by
  unfold find_region at h
  have h1 := List.find?_some h
  simp only [region_holds, decide_eq_true_eq] at h1
  exact ⟨List.mem_of_find?_eq_some h, h1.1, h1.2⟩

/-- Without wrap, the search of `modify_hdrs` for a retained range returns a region that
contains it. -/
theorem retained_found {ENDIAN : Int} {rd_ehdr : Option Elf32_Ehdr}
    {rd_phdr : Option (List Elf32_Phdr)} {g : hdrs}
    (hacc : read_hdrs ENDIAN rd_ehdr rd_phdr = .ok g) (hok : hdrs_ok g)
    (hnw : ∀ s ∈ retained_ranges g, s.1 + s.2 < 4294967296)
    {s : Nat × Nat} (hs : s ∈ retained_ranges g) :
    ∃ r, find_region (compute_disps (compute_regions g)) s.1 s.2 = some r ∧
      r ∈ compute_disps (compute_regions g) ∧ contains_range r s ∧
      PAGESIZE ∣ r.disp ∧ r.disp ≤ r.offset ∧ r.toffset = r.offset - r.disp := by
  have hL := (foldl_iter_ok hacc hok hnw (long_range (-2) g.ehdr.e_phnum) [] trivial).1
  obtain ⟨i, hi, h1⟩ := retained_segment_of hacc hok hs
  have hne := find_region_of_held
    ((foldl_iter_held hacc hok (long_range (-2) g.ehdr.e_phnum) [] trivial).2.2 i hi s h1)
  cases hf : find_region (compute_disps (compute_regions g)) s.1 s.2 with
  | none => exact absurd hf hne
  | some r =>
    obtain ⟨m1, m2, m3⟩ := find_region_some hf
    obtain ⟨d1, d2, d3, d4⟩ := compute_disps_members hL r m1
    have := hnw s hs
    simp only [add32] at m3
    exact ⟨r, rfl, m1, ⟨m2, by omega⟩, d1, d2, d3⟩

/-- C5 (amended): for every header and descriptor table accepted by `read_hdrs`, with no
assumption on the 32-bit offsets and sizes, the search of `modify_hdrs` (run after
`compute_regions` and `compute_disps`) returns, for the table and for every descriptor
with `p_type != PT_NULL` and `p_filesz != 0`, a region that passes the 32-bit test of
line 388 (it starts at or before the range, and its 32-bit end is at or after the 32-bit
end of the range); `modify_hdrs` returns and does not take the exit-101 branch; and when
every retained range has offset + size < 2^32, the region returned contains the range. -/
theorem modify_hdrs_finds_region (ENDIAN : Int) (rd_ehdr : Option Elf32_Ehdr)
    (rd_phdr : Option (List Elf32_Phdr)) (g : hdrs)
    (hacc : read_hdrs ENDIAN rd_ehdr rd_phdr = .ok g) (hok : hdrs_ok g) :
    (∃ r ∈ compute_disps (compute_regions g),
      find_region (compute_disps (compute_regions g)) g.ph_offset g.ph_filesz = some r ∧
      r.offset ≤ g.ph_offset ∧
      add32 g.ph_offset g.ph_filesz ≤ add32 r.offset r.filesz) ∧
    (∀ ph ∈ g.phdr, ph.p_type ≠ PT_NULL → ph.p_filesz ≠ 0 →
      ∃ r ∈ compute_disps (compute_regions g),
        find_region (compute_disps (compute_regions g)) ph.p_offset ph.p_filesz = some r ∧
        r.offset ≤ ph.p_offset ∧
        add32 ph.p_offset ph.p_filesz ≤ add32 r.offset r.filesz) ∧
    modify_hdrs (compute_disps (compute_regions g)) g ≠ Except.error 101 ∧
    (∃ g', modify_hdrs (compute_disps (compute_regions g)) g = Except.ok g') ∧
    ((∀ s ∈ retained_ranges g, s.1 + s.2 < 4294967296) →
      (∃ r, find_region (compute_disps (compute_regions g)) g.ph_offset g.ph_filesz
          = some r ∧
        contains_range r (g.ehdr.e_phoff, g.ehdr.e_phentsize * g.ehdr.e_phnum)) ∧
      ∀ ph ∈ g.phdr, ph.p_type ≠ PT_NULL → ph.p_filesz ≠ 0 →
        ∃ r, find_region (compute_disps (compute_regions g)) ph.p_offset ph.p_filesz
            = some r ∧
          contains_range r (ph.p_offset, ph.p_filesz)) := by
  obtain ⟨f1, f2, f3, f4, f5, f6⟩ := read_hdrs_ok_facts hacc
  obtain ⟨h1, h2⟩ := compute_regions_held hacc hok
  have h3 := modify_hdrs_eq _ g f4 h1 h2
  have hfound : ∀ o f, find_region (compute_disps (compute_regions g)) o f ≠ none →
      ∃ r ∈ compute_disps (compute_regions g),
        find_region (compute_disps (compute_regions g)) o f = some r ∧
        r.offset ≤ o ∧ add32 o f ≤ add32 r.offset r.filesz := by
    intro o f hne
    cases hf : find_region (compute_disps (compute_regions g)) o f with
    | none => exact absurd hf hne
    | some r =>
      obtain ⟨m1, m2, m3⟩ := find_region_some hf
      exact ⟨r, m1, rfl, m2, m3⟩
  refine ⟨hfound _ _ h1, fun ph hph t1 t2 => hfound _ _ (h2 ph hph t1 t2),
    by rw [h3]; simp, ⟨_, h3⟩, fun hnw => ⟨?_, fun ph hph t1 t2 => ?_⟩⟩
  · have hn : g.ehdr.e_phnum < 65536 := hok.1.2.2.2.2.2.2.2.2.2.2.2.1
    have hz : g.ph_filesz = g.ehdr.e_phentsize * g.ehdr.e_phnum := by
      rw [f6, f2, Nat.mod_eq_of_lt (by simp only [SIZEOF_PHDR]; omega)]
    obtain ⟨r, r1, _, r3, _⟩ := retained_found hacc hok hnw
      (s := (g.ehdr.e_phoff, g.ehdr.e_phentsize * g.ehdr.e_phnum))
      (List.mem_cons_of_mem _ (List.mem_cons_self _ _))
    simp only [] at r1
    rw [f5, hz]
    exact ⟨r, r1, r3⟩
  · obtain ⟨r, r1, _, r3, _⟩ := retained_found hacc hok hnw
      (s := (ph.p_offset, ph.p_filesz))
      (List.mem_cons_of_mem _ (List.mem_cons_of_mem _ (List.mem_map.mpr ⟨ph,
        List.mem_filter.mpr ⟨hph, by simp [t1, t2]⟩, rfl⟩)))
    exact ⟨r, r1, r3⟩

/-- C5, witness: two segments a megabyte apart; no retained range reaches `2^32`. -/
theorem modify_hdrs_finds_region_witness :
    read_hdrs 0 (some (example_ehdr 52 2)) (some two_segments) = .ok two_segment_hdrs ∧
    hdrs_ok two_segment_hdrs ∧
    (∀ s ∈ retained_ranges two_segment_hdrs, s.1 + s.2 < 4294967296) ∧
    (∃ r ∈ compute_disps (compute_regions two_segment_hdrs),
      find_region (compute_disps (compute_regions two_segment_hdrs))
        two_segment_hdrs.ph_offset two_segment_hdrs.ph_filesz = some r ∧
      r.offset ≤ two_segment_hdrs.ph_offset ∧
      add32 two_segment_hdrs.ph_offset two_segment_hdrs.ph_filesz ≤
        add32 r.offset r.filesz) ∧
    (∀ ph ∈ two_segment_hdrs.phdr, ph.p_type ≠ PT_NULL → ph.p_filesz ≠ 0 →
      ∃ r ∈ compute_disps (compute_regions two_segment_hdrs),
        find_region (compute_disps (compute_regions two_segment_hdrs))
          ph.p_offset ph.p_filesz = some r ∧
        r.offset ≤ ph.p_offset ∧
        add32 ph.p_offset ph.p_filesz ≤ add32 r.offset r.filesz) ∧
    modify_hdrs (compute_disps (compute_regions two_segment_hdrs))
      two_segment_hdrs ≠ Except.error 101 ∧
    (∃ g', modify_hdrs (compute_disps (compute_regions two_segment_hdrs))
      two_segment_hdrs = Except.ok g') ∧
    (∃ r, find_region (compute_disps (compute_regions two_segment_hdrs))
        two_segment_hdrs.ph_offset two_segment_hdrs.ph_filesz = some r ∧
      contains_range r (two_segment_hdrs.ehdr.e_phoff,
        two_segment_hdrs.ehdr.e_phentsize * two_segment_hdrs.ehdr.e_phnum)) ∧
    ∀ ph ∈ two_segment_hdrs.phdr, ph.p_type ≠ PT_NULL → ph.p_filesz ≠ 0 →
      ∃ r, find_region (compute_disps (compute_regions two_segment_hdrs))
          ph.p_offset ph.p_filesz = some r ∧
        contains_range r (ph.p_offset, ph.p_filesz) :=
  (fun T => ⟨rfl, by decide, by decide, T.1, T.2.1, T.2.2.1, T.2.2.2.1,
      T.2.2.2.2 (by decide)⟩)
    (modify_hdrs_finds_region 0 (some (example_ehdr 52 2)) (some two_segments)
      two_segment_hdrs rfl (by decide))

/-- C5, counterexample: the second segment of the accepted table `wrapping_segments` has
the range `[0xFFFFFFF0, 0xFFFFFFF0 + 0x20)`, which wraps.  Its 32-bit end is 0x10, so the
test of line 388 already passes for the first region `[0, 116)`, which does not contain
the range: `modify_hdrs` subtracts the `disp` 0 of that region and leaves `p_offset` at
0xFFFFFFF0. -/
theorem modify_hdrs_found_region_counterexample :
    read_hdrs 0 (some (example_ehdr 52 2)) (some wrapping_segments) = .ok wrapping_hdrs ∧
    hdrs_ok wrapping_hdrs ∧
    (∃ ph ∈ wrapping_hdrs.phdr, ph.p_type ≠ PT_NULL ∧ ph.p_filesz ≠ 0 ∧
      ph.p_offset = 0xFFFFFFF0 ∧ ph.p_filesz = 0x20) ∧
    (∃ r, find_region (compute_disps (compute_regions wrapping_hdrs)) 0xFFFFFFF0 0x20
        = some r ∧ r.offset = 0 ∧ r.filesz = 116 ∧
      ¬ contains_range r (0xFFFFFFF0, 0x20)) ∧
    ∃ g', modify_hdrs (compute_disps (compute_regions wrapping_hdrs)) wrapping_hdrs
        = Except.ok g' ∧
      g'.phdr.map (fun ph => ph.p_offset) = [8176, 0xFFFFFFF0] := by
  refine ⟨rfl, by decide, by decide, ⟨_, rfl, rfl, rfl, by decide⟩, _, rfl, rfl⟩

/-! ## C6: every retained range lies in exactly one region -/

theorem retained_pos {ENDIAN : Int} {rd_ehdr : Option Elf32_Ehdr}
    {rd_phdr : Option (List Elf32_Phdr)} {g : hdrs}
    (hacc : read_hdrs ENDIAN rd_ehdr rd_phdr = .ok g) (hok : hdrs_ok g)
    {s : Nat × Nat} (h : s ∈ retained_ranges g) : 0 < s.2 := by
  obtain ⟨i, _, hi⟩ := retained_segment_of hacc hok h
  exact (segment_of_retained hacc hok hi).2

/-- A range of covered bytes lies in exactly one region of a list with the invariant. -/
theorem range_in_one_region {lo : Nat} {L : List region} (hL : ok_from lo L)
    {U : Nat → Prop} (hU : ∀ x, in_regions L x ↔ U x) {s : Nat × Nat}
    (hpos : 0 < s.2) (hs : ∀ x, in_range x s → U x) :
    ∃ r ∈ L, contains_range r s ∧ ∀ r' ∈ L, contains_range r' s → r' = r := by
  obtain ⟨r, hr, h1, h2⟩ := (hU s.1).mpr (hs s.1 ⟨le_refl _, by omega⟩)
  refine ⟨r, hr, ⟨h1, ?_⟩, fun r' hr' hc => ?_⟩
  · by_contra hlt
    obtain ⟨r', hr', h3, h4⟩ := (hU (r.offset + r.filesz)).mpr
      (hs _ ⟨by omega, by omega⟩)
    rcases regions_apart hL hr hr' with h | h | h
    · subst h; omega
    · omega
    · omega
  · obtain ⟨c1, c2⟩ := hc
    rcases regions_apart hL hr hr' with h | h | h
    · exact h.symm
    · omega
    · omega

/-- C6 (amended): after `compute_regions` on an accepted input in which every retained
range has offset + size < 2^32, the file header range, the table range and the range of
every descriptor with `p_type != PT_NULL` and non-zero file size are each fully contained
in exactly one region of the list. -/
theorem retained_range_in_one_region (ENDIAN : Int) (rd_ehdr : Option Elf32_Ehdr)
    (rd_phdr : Option (List Elf32_Phdr)) (g : hdrs)
    (hacc : read_hdrs ENDIAN rd_ehdr rd_phdr = .ok g) (hok : hdrs_ok g)
    (hnw : ∀ s ∈ retained_ranges g, s.1 + s.2 < 4294967296)
    (s : Nat × Nat) (hs : s ∈ retained_ranges g) :
    ∃ r ∈ compute_regions g, contains_range r s ∧
      ∀ r' ∈ compute_regions g, contains_range r' s → r' = r :=
  range_in_one_region (foldl_iter_ok hacc hok hnw _ [] trivial).1
    (compute_regions_important hacc hok hnw) (retained_pos hacc hok hs)
    (fun _ hx => ⟨s, hs, hx⟩)

/-- C6, witness: the second segment of two segments a megabyte apart. -/
theorem retained_range_in_one_region_witness :
    read_hdrs 0 (some (example_ehdr 52 2)) (some two_segments)
      = .ok two_segment_hdrs ∧
    hdrs_ok two_segment_hdrs ∧
    (∀ s ∈ retained_ranges two_segment_hdrs, s.1 + s.2 < 4294967296) ∧
    (0x100000, 0x300) ∈ retained_ranges two_segment_hdrs ∧
    ∃ r ∈ compute_regions two_segment_hdrs,
      contains_range r (0x100000, 0x300) ∧
      ∀ r' ∈ compute_regions two_segment_hdrs,
        contains_range r' (0x100000, 0x300) → r' = r :=
  ⟨rfl, by decide, by decide, by decide,
   retained_range_in_one_region 0 (some (example_ehdr 52 2)) (some two_segments)
     two_segment_hdrs rfl (by decide) (by decide) (0x100000, 0x300)
     (by decide)⟩

/-- C6, counterexample: a descriptor of type `PT_NULL` with a non-zero file size has a
range that no region contains; and a descriptor that is not of type `PT_NULL`, with a
range ending exactly at `2^32`, has a range that no region contains. -/
theorem retained_range_counterexample :
    (read_hdrs 0 (some (example_ehdr 52 2)) (some null_segment)
        = .ok null_segment_hdrs ∧
      hdrs_ok null_segment_hdrs ∧
      ∃ ph ∈ null_segment_hdrs.phdr, ph.p_filesz ≠ 0 ∧
        ¬ ∃ r ∈ compute_regions null_segment_hdrs,
          contains_range r (ph.p_offset, ph.p_filesz)) ∧
    (read_hdrs 0 (some (example_ehdr 52 2)) (some boundary_segments)
        = .ok boundary_hdrs ∧
      hdrs_ok boundary_hdrs ∧
      ∃ ph ∈ boundary_hdrs.phdr, ph.p_type ≠ PT_NULL ∧
        ph.p_filesz ≠ 0 ∧
        ¬ ∃ r ∈ compute_regions boundary_hdrs,
          contains_range r (ph.p_offset, ph.p_filesz)) := by
  refine ⟨⟨rfl, by decide, example_phdr 0 0x100000 0x300, by decide, by decide, by decide⟩,
    ⟨rfl, by decide, example_phdr 1 0xFFFFFFF0 0x10, by decide, by decide, by decide,
      by decide⟩⟩

/-! ## C7: the patched offsets -/

theorem sub_page_mod {x d : Nat} (h1 : PAGESIZE ∣ d) (h2 : d ≤ x) :
    (x - d) % PAGESIZE = x % PAGESIZE := by
  obtain ⟨k, rfl⟩ := h1
  simp only [PAGESIZE] at h2 ⊢
  omega

theorem sub32_of_le {x d : Nat} (h1 : d ≤ x) (h2 : x < 4294967296) : sub32 x d = x - d := by
  simp only [sub32]; omega

theorem containing_unique {lo : Nat} {R : List region} (hR : ok_from lo R)
    {r r' : region} (hr : r ∈ R) (hr' : r' ∈ R) {s : Nat × Nat} (hpos : 0 < s.2)
    (hc : contains_range r s) (hc' : contains_range r' s) : r' = r := by
  obtain ⟨c1, c2⟩ := hc
  obtain ⟨c3, c4⟩ := hc'
  rcases regions_apart hR hr hr' with h | h | h
  · exact h.symm
  · omega
  · omega

/-- C7 (amended): for every accepted input in which every retained range has
offset + size < 2^32, `modify_hdrs` returns, sets `e_phoff` to the old `e_phoff` minus
the `disp` of the region containing the table and, for every descriptor with
`p_type != PT_NULL` and `p_filesz != 0`, sets `p_offset` to the old `p_offset` minus the
`disp` of the region containing that descriptor's range; each patched offset is at most
its old value, congruent to it modulo `PAGESIZE`, and equal to
`region.toffset + (old offset - region.offset)`. -/
theorem modify_hdrs_offsets (ENDIAN : Int) (rd_ehdr : Option Elf32_Ehdr)
    (rd_phdr : Option (List Elf32_Phdr)) (g : hdrs)
    (hacc : read_hdrs ENDIAN rd_ehdr rd_phdr = .ok g) (hok : hdrs_ok g)
    (hnw : ∀ s ∈ retained_ranges g, s.1 + s.2 < 4294967296) :
    ∃ g', modify_hdrs (compute_disps (compute_regions g)) g = Except.ok g' ∧
      (∃ r ∈ compute_disps (compute_regions g),
        contains_range r (g.ehdr.e_phoff, g.ehdr.e_phentsize * g.ehdr.e_phnum) ∧
        (∀ r' ∈ compute_disps (compute_regions g),
          contains_range r' (g.ehdr.e_phoff, g.ehdr.e_phentsize * g.ehdr.e_phnum) →
          r' = r) ∧
        r.disp ≤ g.ehdr.e_phoff ∧
        g'.ehdr.e_phoff = g.ehdr.e_phoff - r.disp ∧
        g'.ehdr.e_phoff ≤ g.ehdr.e_phoff ∧
        g'.ehdr.e_phoff % PAGESIZE = g.ehdr.e_phoff % PAGESIZE ∧
        g'.ehdr.e_phoff = r.toffset + (g.ehdr.e_phoff - r.offset)) ∧
      ∀ (i : Nat) (ph : Elf32_Phdr), g.phdr[i]? = some ph →
        ph.p_type ≠ PT_NULL → ph.p_filesz ≠ 0 →
        ∃ r ∈ compute_disps (compute_regions g),
          contains_range r (ph.p_offset, ph.p_filesz) ∧
          (∀ r' ∈ compute_disps (compute_regions g),
            contains_range r' (ph.p_offset, ph.p_filesz) → r' = r) ∧
          r.disp ≤ ph.p_offset ∧
          g'.phdr[i]? = some { ph with p_offset := ph.p_offset - r.disp } ∧
          (ph.p_offset - r.disp) % PAGESIZE = ph.p_offset % PAGESIZE ∧
          ph.p_offset - r.disp = r.toffset + (ph.p_offset - r.offset) := by
  obtain ⟨f1, f2, f3, f4, f5, f6⟩ := read_hdrs_ok_facts hacc
  have hn : g.ehdr.e_phnum < 65536 := hok.1.2.2.2.2.2.2.2.2.2.2.2.1
  have hz : g.ph_filesz = g.ehdr.e_phentsize * g.ehdr.e_phnum := by
    rw [f6, f2, Nat.mod_eq_of_lt (by simp only [SIZEOF_PHDR]; omega)]
  obtain ⟨c1, c2⟩ := compute_regions_held hacc hok
  have hR : ok_from 0 (compute_disps (compute_regions g)) :=
    compute_disps_from_ok _ 0 0
      (foldl_iter_ok hacc hok hnw (long_range (-2) g.ehdr.e_phnum) [] trivial).1
  refine ⟨_, modify_hdrs_eq _ g f4 c1 c2, ?_, ?_⟩
  · have hs : (g.ehdr.e_phoff, g.ehdr.e_phentsize * g.ehdr.e_phnum) ∈ retained_ranges g :=
      List.mem_cons_of_mem _ (List.mem_cons_self _ _)
    obtain ⟨r, r1, r2, r3, r4, r5, r6⟩ := retained_found hacc hok hnw hs
    have hu : ∀ r' ∈ compute_disps (compute_regions g), contains_range r' _ → r' = r :=
      fun _ hr' hc' => containing_unique hR r2 hr' (retained_pos hacc hok hs) r3 hc'
    have hlt : g.ehdr.e_phoff < 4294967296 := hok.1.2.2.2.2.2.2.1
    have hr3 := r3.1
    simp only [] at hr3
    have he : (patched_hdrs (compute_disps (compute_regions g)) g).ehdr.e_phoff =
        g.ehdr.e_phoff - r.disp := by
      simp only [patched_hdrs, f5, hz, r1]
      exact sub32_of_le (by omega) hlt
    refine ⟨r, r2, r3, hu, by omega, he, by omega, ?_, by omega⟩
    rw [he]; exact sub_page_mod r4 (by omega)
  · intro i ph hi h1 h2
    have hmem : ph ∈ g.phdr := List.getElem?_mem hi
    have hs : (ph.p_offset, ph.p_filesz) ∈ retained_ranges g :=
      List.mem_cons_of_mem _ (List.mem_cons_of_mem _ (List.mem_map.mpr ⟨ph,
        List.mem_filter.mpr ⟨hmem, by simp [h1, h2]⟩, rfl⟩))
    obtain ⟨r, r1, r2, r3, r4, r5, r6⟩ := retained_found hacc hok hnw hs
    have hu : ∀ r' ∈ compute_disps (compute_regions g), contains_range r' _ → r' = r :=
      fun _ hr' hc' => containing_unique hR r2 hr' (retained_pos hacc hok hs) r3 hc'
    have hlt : ph.p_offset < 4294967296 := (hok.2 ph hmem).2.1
    have hr3 := r3.1
    simp only [] at hr3
    refine ⟨r, r2, r3, hu, by omega, ?_, sub_page_mod r4 (by omega), by omega⟩
    simp only [patched_hdrs, List.getElem?_map, hi, Option.map_some']
    simp only [patched_phdr, h1, h2, or_self, if_false, r1]
    rw [sub32_of_le (by omega) hlt]

/-- C7, witness: two segments a megabyte apart. -/
theorem modify_hdrs_offsets_witness :
    read_hdrs 0 (some (example_ehdr 52 2)) (some two_segments) = .ok two_segment_hdrs ∧
    hdrs_ok two_segment_hdrs ∧
    (∀ s ∈ retained_ranges two_segment_hdrs, s.1 + s.2 < 4294967296) ∧
    ∃ g', modify_hdrs (compute_disps (compute_regions two_segment_hdrs)) two_segment_hdrs
        = Except.ok g' ∧
      (∃ r ∈ (compute_disps (compute_regions two_segment_hdrs)),
        contains_range r (two_segment_hdrs.ehdr.e_phoff,
          two_segment_hdrs.ehdr.e_phentsize * two_segment_hdrs.ehdr.e_phnum) ∧
        (∀ r' ∈ compute_disps (compute_regions two_segment_hdrs),
          contains_range r' (two_segment_hdrs.ehdr.e_phoff,
            two_segment_hdrs.ehdr.e_phentsize * two_segment_hdrs.ehdr.e_phnum) →
          r' = r) ∧
        r.disp ≤ two_segment_hdrs.ehdr.e_phoff ∧
        g'.ehdr.e_phoff = two_segment_hdrs.ehdr.e_phoff - r.disp ∧
        g'.ehdr.e_phoff ≤ two_segment_hdrs.ehdr.e_phoff ∧
        g'.ehdr.e_phoff % PAGESIZE = two_segment_hdrs.ehdr.e_phoff % PAGESIZE ∧
        g'.ehdr.e_phoff = r.toffset + (two_segment_hdrs.ehdr.e_phoff - r.offset)) ∧
      ∀ (i : Nat) (ph : Elf32_Phdr), two_segment_hdrs.phdr[i]? = some ph →
        ph.p_type ≠ PT_NULL → ph.p_filesz ≠ 0 →
        ∃ r ∈ (compute_disps (compute_regions two_segment_hdrs)),
          contains_range r (ph.p_offset, ph.p_filesz) ∧
          (∀ r' ∈ compute_disps (compute_regions two_segment_hdrs),
            contains_range r' (ph.p_offset, ph.p_filesz) → r' = r) ∧
          r.disp ≤ ph.p_offset ∧
          g'.phdr[i]? = some { ph with p_offset := ph.p_offset - r.disp } ∧
          (ph.p_offset - r.disp) % PAGESIZE = ph.p_offset % PAGESIZE ∧
          ph.p_offset - r.disp = r.toffset + (ph.p_offset - r.offset) :=
  ⟨rfl, by decide, by decide,
   modify_hdrs_offsets 0 (some (example_ehdr 52 2)) (some two_segments) two_segment_hdrs rfl
     (by decide) (by decide)⟩

/-- C7, counterexample: every retained range has offset + size <= 2^32 and the table
ends exactly at `2^32`.  The only region that contains the table has `disp` 0xFFFFF000
and is copied to output offset 0xFE0, but `modify_hdrs` leaves `e_phoff` at 0xFFFFFFE0:
the 32-bit end of the table is 0 and the test of line 388 already passes for the first
region, whose `disp` is 0. -/
theorem modify_hdrs_boundary_counterexample :
    read_hdrs 0 (some (example_ehdr 0xFFFFFFE0 1)) (some [example_phdr 1 0 52])
      = .ok table_at_end ∧
    hdrs_ok table_at_end ∧
    (∀ s ∈ retained_ranges table_at_end, s.1 + s.2 ≤ 4294967296) ∧
    (∃ g', modify_hdrs (compute_disps (compute_regions table_at_end)) table_at_end
        = Except.ok g' ∧ g'.ehdr.e_phoff = 0xFFFFFFE0) ∧
    (∃ r ∈ compute_disps (compute_regions table_at_end),
      contains_range r (table_at_end.ehdr.e_phoff,
        table_at_end.ehdr.e_phentsize * table_at_end.ehdr.e_phnum)) ∧
    (∀ r ∈ compute_disps (compute_regions table_at_end),
      contains_range r (table_at_end.ehdr.e_phoff,
        table_at_end.ehdr.e_phentsize * table_at_end.ehdr.e_phnum) →
      r.disp = 0xFFFFF000 ∧ r.toffset = 0xFE0) := by
  refine ⟨rfl, by decide, by decide, ⟨_, rfl, rfl⟩, by decide, by decide⟩

/-! ## C8: what modify_hdrs leaves unchanged -/

theorem patched_phdr_frame (R : List region) (ph : Elf32_Phdr) :
    patched_phdr R ph = { ph with p_offset := (patched_phdr R ph).p_offset } ∧
    (ph.p_type = PT_NULL ∨ ph.p_filesz = 0 → patched_phdr R ph = ph) := by
  unfold patched_phdr
  by_cases hc : ph.p_type = PT_NULL ∨ ph.p_filesz = 0
  · rw [if_pos hc]
    exact ⟨rfl, fun _ => rfl⟩
  · rw [if_neg hc]
    refine ⟨?_, fun h => absurd h hc⟩
    cases find_region R ph.p_offset ph.p_filesz <;> rfl

/-- C8: for every accepted input, `modify_hdrs` returns; in the file header it sets
`e_shoff`, `e_shentsize`, `e_shnum` and `e_shstrndx` to 0 and changes no other field
except `e_phoff`; `ph_offset` and `ph_filesz` are unchanged; in the descriptor table it
changes no field other than `p_offset`, and a descriptor with `p_type == PT_NULL` or
`p_filesz == 0` is left entirely unchanged. -/
theorem modify_hdrs_frame (ENDIAN : Int) (rd_ehdr : Option Elf32_Ehdr)
    (rd_phdr : Option (List Elf32_Phdr)) (g : hdrs)
    (hacc : read_hdrs ENDIAN rd_ehdr rd_phdr = .ok g) (hok : hdrs_ok g) :
    ∃ g', modify_hdrs (compute_disps (compute_regions g)) g = Except.ok g' ∧
      g'.ehdr = { g.ehdr with e_phoff := g'.ehdr.e_phoff, e_shoff := 0, e_shentsize := 0,
                              e_shnum := 0, e_shstrndx := 0 } ∧
      g'.ph_offset = g.ph_offset ∧ g'.ph_filesz = g.ph_filesz ∧
      g'.phdr.length = g.phdr.length ∧
      ∀ (i : Nat) (ph : Elf32_Phdr), g.phdr[i]? = some ph →
        ∃ ph', g'.phdr[i]? = some ph' ∧
          ph' = { ph with p_offset := ph'.p_offset } ∧
          (ph.p_type = PT_NULL ∨ ph.p_filesz = 0 → ph' = ph) := by
  obtain ⟨c1, c2⟩ := compute_regions_held hacc hok
  refine ⟨_, modify_hdrs_eq _ g (read_hdrs_ok_facts hacc).2.2.2.1 c1 c2, rfl, rfl, rfl,
    by simp only [patched_hdrs, List.length_map], fun i ph hi => ?_⟩
  refine ⟨patched_phdr (compute_disps (compute_regions g)) ph, ?_, patched_phdr_frame _ ph⟩
  simp only [patched_hdrs, List.getElem?_map, hi, Option.map_some']

/-- C8, witness: a table with an entry of type `PT_NULL`. -/
theorem modify_hdrs_frame_witness :
    read_hdrs 0 (some (example_ehdr 52 2)) (some null_segment)
      = .ok null_segment_hdrs ∧
    hdrs_ok null_segment_hdrs ∧
    ∃ g', modify_hdrs (compute_disps (compute_regions null_segment_hdrs))
        null_segment_hdrs = Except.ok g' ∧
      g'.ehdr = { null_segment_hdrs.ehdr with
                  e_phoff := g'.ehdr.e_phoff, e_shoff := 0, e_shentsize := 0,
                  e_shnum := 0, e_shstrndx := 0 } ∧
      g'.ph_offset = null_segment_hdrs.ph_offset ∧
      g'.ph_filesz = null_segment_hdrs.ph_filesz ∧
      g'.phdr.length = null_segment_hdrs.phdr.length ∧
      ∀ (i : Nat) (ph : Elf32_Phdr), null_segment_hdrs.phdr[i]? = some ph →
        ∃ ph', g'.phdr[i]? = some ph' ∧
          ph' = { ph with p_offset := ph'.p_offset } ∧
          (ph.p_type = PT_NULL ∨ ph.p_filesz = 0 → ph' = ph) :=
  ⟨rfl, by decide,
   modify_hdrs_frame 0 (some (example_ehdr 52 2)) (some null_segment)
     null_segment_hdrs rfl (by decide)⟩

/-! ## C9: the copier -/

theorem allread_some {input : Nat → Option Nat} {pos n : Nat} {buf : List Nat}
    (h : allread input pos n = some buf) :
    buf.length = n ∧ ∀ k, k < n → buf[k]? = input (pos + k) := by
  unfold allread at h
  split_ifs at h with hc
  injection h with h
  subst h
  refine ⟨by simp, fun k hk => ?_⟩
  have := List.all_eq_true.mp hc k (List.mem_range.mpr hk)
  rw [List.getElem?_map, List.getElem?_range hk]
  simp only [Option.map_some']
  cases hi : input (pos + k) with
  | none => rw [hi] at this; simp at this
  | some v => rfl

theorem allread_of_defined (input : Nat → Option Nat) (pos n : Nat)
    (h : ∀ k, k < n → input (pos + k) ≠ none) : ∃ buf, allread input pos n = some buf := by
  unfold allread
  rw [if_pos]
  · exact ⟨_, rfl⟩
  · refine List.all_eq_true.mpr (fun k hk => ?_)
    have := h k (List.mem_range.mp hk)
    cases hi : input (pos + k) with
    | none => exact absurd hi this
    | some v => rfl

theorem byte_copy_length (buf : List Nat) (posb len : Nat) (src : List Nat) (posa : Nat) :
    (byte_copy buf posb len src posa).length = buf.length := by
  simp [byte_copy]

theorem byte_copy_get (buf : List Nat) (posb len : Nat) (src : List Nat) (posa k : Nat)
    (hk : k < buf.length) :
    (byte_copy buf posb len src posa)[k]? =
      if posb ≤ k ∧ k < posb + len then some (src.getD (posa + (k - posb)) 0)
      else buf[k]? := by
  unfold byte_copy
  rw [List.getElem?_map, List.getElem?_range hk]
  simp only [Option.map_some']
  split_ifs
  · rfl
  · rw [List.getD_eq_getElem?_getD, List.getElem?_eq_getElem hk]; rfl

theorem getD_of_lt (l : List Nat) (i : Nat) (h : i < l.length) : some (l.getD i 0) = l[i]? := by
  rw [List.getD_eq_getElem?_getD, List.getElem?_eq_getElem h]; rfl

/-- One block of `process_file` after both splices holds, at every position, the
expected byte of its input offset. -/
theorem block_spliced (M : Nat) (hM : 4294967296 ≤ M) (input : Nat → Option Nat)
    (ehdr_mem phdr_mem : List Nat) (ph_offset ph_filesz thisoff thisread : Nat)
    (he : ehdr_mem.length = SIZEOF_EHDR) (hp : phdr_mem.length = ph_filesz)
    (hph : ph_offset + ph_filesz < 4294967296) (hb : thisoff + thisread < 4294967296)
    (buf : List Nat) (hbuf : allread input thisoff thisread = some buf) :
    (apply_splice (apply_splice buf ehdr_mem (ehdr_splice thisoff thisread)) phdr_mem
      (phdr_splice ph_offset ph_filesz thisoff thisread ((thisoff + thisread) % M))).length
      = thisread ∧
    ∀ k, k < thisread →
      (apply_splice (apply_splice buf ehdr_mem (ehdr_splice thisoff thisread)) phdr_mem
        (phdr_splice ph_offset ph_filesz thisoff thisread ((thisoff + thisread) % M)))[k]?
      = spliced_byte input ehdr_mem phdr_mem ph_offset ph_filesz (thisoff + k) := by
  obtain ⟨hl, hg⟩ := allread_some hbuf
  rw [Nat.mod_eq_of_lt (by omega)]
  -- first splice
  have h1 : (apply_splice buf ehdr_mem (ehdr_splice thisoff thisread)).length = thisread ∧
      ∀ k, k < thisread → (apply_splice buf ehdr_mem (ehdr_splice thisoff thisread))[k]? =
        if thisoff + k < SIZEOF_EHDR then ehdr_mem[thisoff + k]? else input (thisoff + k) := by
    unfold ehdr_splice
    by_cases hc : thisoff < SIZEOF_EHDR
    · rw [if_pos hc]
      simp only [apply_splice, byte_copy_length, hl, true_and]
      intro k hk
      rw [byte_copy_get _ _ _ _ _ _ (by omega)]
      simp only [SIZEOF_EHDR] at hc he ⊢
      by_cases hk2 : thisoff + k < 52
      · rw [if_pos hk2, if_pos (by split_ifs <;> omega)]
        rw [getD_of_lt _ _ (by omega)]
        congr 1
      · rw [if_neg hk2, if_neg (by split_ifs <;> omega)]
        exact hg k hk
    · rw [if_neg hc]
      simp only [apply_splice, hl, true_and]
      intro k hk
      rw [if_neg (by omega)]
      exact hg k hk
  obtain ⟨h1l, h1g⟩ := h1
  generalize apply_splice buf ehdr_mem (ehdr_splice thisoff thisread) = buf1 at h1l h1g
  unfold phdr_splice spliced_byte
  have ha : add32 ph_offset ph_filesz = ph_offset + ph_filesz := by
    simp only [add32]; omega
  rw [ha]
  by_cases hc : thisoff < ph_offset + ph_filesz ∧ ph_offset < thisoff + thisread
  · rw [if_pos hc]
    simp only [apply_splice, byte_copy_length, h1l, true_and]
    intro k hk
    rw [byte_copy_get _ _ _ _ _ _ (by omega)]
    by_cases hk2 : ph_offset ≤ thisoff + k ∧ thisoff + k < ph_offset + ph_filesz
    · rw [if_pos hk2, if_pos (by split_ifs <;> omega), getD_of_lt _ _ (by split_ifs <;> omega)]
      congr 1
      split_ifs <;> omega
    · rw [if_neg hk2, if_neg (by split_ifs <;> omega)]
      exact h1g k hk
  · rw [if_neg hc]
    simp only [apply_splice, h1l, true_and]
    intro k hk
    rw [if_neg (by omega)]
    exact h1g k hk

/-- The inner loop of `process_file` returns and writes the expected bytes of
`[thisoff, thisoff + toread)` at `outpos`, leaving the rest of the output as it was. -/
theorem copy_blocks_spec (M : Nat) (hM : 4294967296 ≤ M) (input : Nat → Option Nat)
    (ehdr_mem phdr_mem : List Nat) (ph_offset ph_filesz : Nat)
    (he : ehdr_mem.length = SIZEOF_EHDR) (hp : phdr_mem.length = ph_filesz)
    (hph : ph_offset + ph_filesz < 4294967296) (fuel : Nat) :
    ∀ (thisoff toread outpos : Nat) (out : Nat → Option Nat), toread ≤ fuel →
    thisoff + toread < 4294967296 →
    (∀ x, thisoff ≤ x → x < thisoff + toread → input x ≠ none) →
    ∃ out', copy_blocks M input ehdr_mem phdr_mem ph_offset ph_filesz fuel thisoff toread
        thisoff outpos out = some (Except.ok out') ∧
      ∀ y, out' y =
        if outpos ≤ y ∧ y < outpos + toread
        then spliced_byte input ehdr_mem phdr_mem ph_offset ph_filesz (thisoff + (y - outpos))
        else out y := by
  induction fuel with
  | zero =>
    intro thisoff toread outpos out hf _ _
    have h0 : toread = 0 := by omega
    subst h0
    refine ⟨out, by simp [copy_blocks], fun y => ?_⟩
    rw [if_neg (by omega)]
  | succ fuel ih =>
    intro thisoff toread outpos out hf hb hin
    by_cases h0 : toread = 0
    · subst h0
      refine ⟨out, by simp [copy_blocks], fun y => ?_⟩
      rw [if_neg (by omega)]
    · have hpos : toread > 0 := Nat.pos_of_ne_zero h0
      rw [copy_blocks]
      simp only [if_pos hpos]
      generalize htr : (if toread > BUFSIZE then BUFSIZE else toread) = thisread
      have hr1 : 0 < thisread := by
        rw [← htr]; simp only [BUFSIZE]; split_ifs <;> omega
      have hr2 : thisread ≤ toread := by
        rw [← htr]; simp only [BUFSIZE]; split_ifs <;> omega
      obtain ⟨buf, hbuf⟩ := allread_of_defined input thisoff thisread
        (fun k hk => hin _ (by omega) (by omega))
      rw [hbuf]
      simp only []
      obtain ⟨bl, bg⟩ := block_spliced M hM input ehdr_mem phdr_mem ph_offset ph_filesz
        thisoff thisread he hp hph (by omega) buf hbuf
      generalize (apply_splice (apply_splice buf ehdr_mem (ehdr_splice thisoff thisread))
        phdr_mem (phdr_splice ph_offset ph_filesz thisoff thisread
          ((thisoff + thisread) % M))) = buf2 at bl bg
      rw [Nat.mod_eq_of_lt (show thisoff + thisread < M by omega)]
      obtain ⟨out', ho, hy⟩ := ih (thisoff + thisread) (toread - thisread)
        (outpos + thisread) (allwrite out outpos buf2) (by omega) (by omega)
        (fun x h1 h2 => hin x (by omega) (by omega))
      refine ⟨out', ho, fun y => ?_⟩
      rw [hy y]
      by_cases hc1 : outpos + thisread ≤ y ∧ y < outpos + thisread + (toread - thisread)
      · rw [if_pos hc1, if_pos (by omega)]
        congr 1
        omega
      · rw [if_neg hc1]
        simp only [allwrite, bl]
        by_cases hc2 : outpos ≤ y ∧ y < outpos + thisread
        · rw [if_pos hc2, if_pos (by omega), bg _ (by omega)]
        · rw [if_neg hc2, if_neg (by omega)]

/-- The outer loop of `process_file` returns; every region is written at its `toffset`
with the expected bytes, and nothing else is written. -/
theorem copy_regions_spec (M : Nat) (hM : 4294967296 ≤ M) (input : Nat → Option Nat)
    (ehdr_mem phdr_mem : List Nat) (ph_offset ph_filesz : Nat)
    (he : ehdr_mem.length = SIZEOF_EHDR) (hp : phdr_mem.length = ph_filesz)
    (hph : ph_offset + ph_filesz < 4294967296) (R : List region) :
    ∀ (c : Nat) (out : Nat → Option Nat), placed_from c R →
    (∀ r ∈ R, r.offset + r.filesz < 4294967296) →
    (∀ x, in_regions R x → input x ≠ none) →
    ∃ out', copy_regions M input ehdr_mem phdr_mem ph_offset ph_filesz R out
        = some (Except.ok out') ∧
      (∀ y, y < c → out' y = out y) ∧
      (∀ r ∈ R, ∀ x, in_region x r →
        out' (r.toffset + (x - r.offset)) =
          spliced_byte input ehdr_mem phdr_mem ph_offset ph_filesz x) ∧
      ∀ y, (∀ r ∈ R, ¬ (r.toffset ≤ y ∧ y < r.toffset + r.filesz)) →
        out' y = out y := by
  induction R with
  | nil =>
    intro c out _ _ _
    exact ⟨out, rfl, fun _ _ => rfl, fun r hr => absurd hr (List.not_mem_nil r),
      fun _ _ => rfl⟩
  | cons p rest ih =>
    intro c out hpl hlt hin
    obtain ⟨p1, p2, p3, p4⟩ := hpl
    obtain ⟨out1, h1, g1⟩ := copy_blocks_spec M hM input ehdr_mem phdr_mem ph_offset
      ph_filesz he hp hph p.filesz p.offset p.filesz p.toffset out (le_refl _)
      (hlt p (List.mem_cons_self _ _))
      (fun x hx1 hx2 => hin x ⟨p, List.mem_cons_self _ _, hx1, hx2⟩)
    obtain ⟨out', h2, g2, g3, g4⟩ := ih (p.toffset + p.filesz) out1 p4
      (fun r hr => hlt r (List.mem_cons_of_mem _ hr))
      (fun x ⟨r, hr, hx⟩ => hin x ⟨r, List.mem_cons_of_mem _ hr, hx⟩)
    refine ⟨out', ?_, fun y hy => ?_, fun r hr x hx => ?_, fun y hy => ?_⟩
    · simp only [copy_regions, h1]
      exact h2
    · rw [g2 y (by omega), g1 y, if_neg (by omega)]
    · rcases List.mem_cons.mp hr with rfl | hr
      · obtain ⟨hx1, hx2⟩ := hx
        rw [g2 _ (by omega), g1 _, if_pos (by omega)]
        congr 1
        omega
      · exact g3 r hr x hx
    · rw [g4 y (fun r hr => hy r (List.mem_cons_of_mem _ hr)), g1 y,
        if_neg (hy p (List.mem_cons_self _ _))]

theorem field_bytes_length (ENDIAN : Int) (w v : Nat) : (field_bytes ENDIAN w v).length = w := by
  unfold field_bytes
  split_ifs <;> simp

theorem ehdr_image_length (ENDIAN : Int) (h : Elf32_Ehdr) (hl : h.e_ident.length = 16) :
    (ehdr_image ENDIAN h).length = SIZEOF_EHDR := by
  simp only [ehdr_image, List.length_append, field_bytes_length, hl, SIZEOF_EHDR]

theorem phdr_image_length (ENDIAN : Int) (t : List Elf32_Phdr) :
    (phdr_image ENDIAN t).length = 32 * t.length := by
  induction t with
  | nil => rfl
  | cons p rest ih =>
    simp only [phdr_image, phdr_entry_image, List.length_append, field_bytes_length, ih,
      List.length_cons]
    omega

/-- C9 (amended): for every accepted input in which every retained range has
offset + size < 2^32, on a host whose `size_t` has at least 32 bits and for an input file
that holds every important byte, `modify_hdrs` and `process_file` return, and for every
region `r` and every input offset `x` in `r` the output holds at offset `x - r.disp` the
input byte at `x`, except in the table's original range, where it holds the byte of the
patched descriptor table, and in the rest of the file header's original range, where it
holds the byte of the patched file header; so every byte of a surviving segment that is
not a header or table byte is the same in the input at old `p_offset + k` and in the
output at new `p_offset + k`. -/
theorem process_file_round_trip (SIZE_MOD : Nat) (hM : 4294967296 ≤ SIZE_MOD)
    (ENDIAN : Int) (rd_ehdr : Option Elf32_Ehdr)
    (rd_phdr : Option (List Elf32_Phdr)) (g : hdrs)
    (hacc : read_hdrs ENDIAN rd_ehdr rd_phdr = .ok g) (hok : hdrs_ok g)
    (hnw : ∀ s ∈ retained_ranges g, s.1 + s.2 < 4294967296)
    (input : Nat → Option Nat) (hin : ∀ x, important g x → input x ≠ none) :
    ∃ g' out,
      modify_hdrs (compute_disps (compute_regions g)) g = Except.ok g' ∧
      process_file SIZE_MOD ENDIAN (compute_disps (compute_regions g)) g' input
        = some (Except.ok out) ∧
      (∀ r ∈ compute_disps (compute_regions g), ∀ x, in_region x r →
        r.disp ≤ x ∧
        out (x - r.disp) =
          if g.ph_offset ≤ x ∧ x < g.ph_offset + g.ph_filesz
          then (phdr_image ENDIAN g'.phdr)[x - g.ph_offset]?
          else if x < SIZEOF_EHDR then (ehdr_image ENDIAN g'.ehdr)[x]?
          else input x) ∧
      ∀ (i : Nat) (ph : Elf32_Phdr), g.phdr[i]? = some ph →
        ph.p_type ≠ PT_NULL → ph.p_filesz ≠ 0 →
        ∃ ph', g'.phdr[i]? = some ph' ∧
          ∀ k, k < ph.p_filesz → SIZEOF_EHDR ≤ ph.p_offset + k →
            ¬ (g.ph_offset ≤ ph.p_offset + k ∧ ph.p_offset + k < g.ph_offset + g.ph_filesz) →
            out (ph'.p_offset + k) = input (ph.p_offset + k) := by
  obtain ⟨f1, f2, f3, f4, f5, f6⟩ := read_hdrs_ok_facts hacc
  have hn : g.ehdr.e_phnum < 65536 := hok.1.2.2.2.2.2.2.2.2.2.2.2.1
  have hz : g.ph_filesz = g.ehdr.e_phentsize * g.ehdr.e_phnum := by
    rw [f6, f2, Nat.mod_eq_of_lt (by simp only [SIZEOF_PHDR]; omega)]
  have hL := (foldl_iter_ok hacc hok hnw (long_range (-2) g.ehdr.e_phnum) [] trivial).1
  have hR : ok_from 0 (compute_disps (compute_regions g)) := compute_disps_from_ok _ 0 0 hL
  have hpl : placed_from 0 (compute_disps (compute_regions g)) :=
    (compute_disps_from_placed _ 0 0 (ok_from_sep_from _ 0 hL) (le_refl _)).2
  have himp : ∀ x, in_regions (compute_disps (compute_regions g)) x → input x ≠ none :=
    fun x hx => hin x ((compute_regions_important hacc hok hnw x).mp
      ((compute_disps_from_in_regions _ x 0).mp hx))
  obtain ⟨c1, c2⟩ := compute_regions_held hacc hok
  have hmod := modify_hdrs_eq _ g f4 c1 c2
  have hph : g.ph_offset + g.ph_filesz < 4294967296 := by
    have := hnw (g.ehdr.e_phoff, g.ehdr.e_phentsize * g.ehdr.e_phnum)
      (List.mem_cons_of_mem _ (List.mem_cons_self _ _))
    rw [f5, hz]; exact this
  have hpl2 : (phdr_image ENDIAN
      (patched_hdrs (compute_disps (compute_regions g)) g).phdr).length = g.ph_filesz := by
    rw [phdr_image_length]
    simp only [patched_hdrs, List.length_map, f4, hz, f2, SIZEOF_PHDR]
  obtain ⟨out, ho, _, hout, _⟩ := copy_regions_spec SIZE_MOD hM input
    (ehdr_image ENDIAN (patched_hdrs (compute_disps (compute_regions g)) g).ehdr)
    (phdr_image ENDIAN (patched_hdrs (compute_disps (compute_regions g)) g).phdr)
    g.ph_offset g.ph_filesz (ehdr_image_length _ _ hok.1.1) hpl2 hph
    (compute_disps (compute_regions g)) 0 (fun _ => none) hpl
    (fun r hr => (ok_from_all hR r hr).2.2) himp
  have key : ∀ r ∈ compute_disps (compute_regions g), ∀ x, in_region x r →
      r.disp ≤ x ∧
      out (x - r.disp) =
        spliced_byte input
          (ehdr_image ENDIAN (patched_hdrs (compute_disps (compute_regions g)) g).ehdr)
          (phdr_image ENDIAN (patched_hdrs (compute_disps (compute_regions g)) g).phdr)
          g.ph_offset g.ph_filesz x := by
    intro r hr x hx
    obtain ⟨_, d2, d3, _⟩ := compute_disps_members hL r hr
    have hx1 := hx.1
    refine ⟨by omega, ?_⟩
    rw [← hout r hr x hx]
    congr 1
    omega
  refine ⟨_, out, hmod, ho, key, fun i ph hi h1 h2 => ?_⟩
  have hmem : ph ∈ g.phdr := List.getElem?_mem hi
  obtain ⟨r, r1, r2, r3, r4, r5, r6⟩ := retained_found hacc hok hnw
    (s := (ph.p_offset, ph.p_filesz))
    (List.mem_cons_of_mem _ (List.mem_cons_of_mem _ (List.mem_map.mpr ⟨ph,
      List.mem_filter.mpr ⟨hmem, by simp [h1, h2]⟩, rfl⟩)))
  have hlt : ph.p_offset < 4294967296 := (hok.2 ph hmem).2.1
  obtain ⟨hr3, hr4⟩ := r3
  simp only [] at hr3 hr4
  refine ⟨{ ph with p_offset := ph.p_offset - r.disp }, ?_, fun k hk hk1 hk2 => ?_⟩
  · simp only [patched_hdrs, List.getElem?_map, hi, Option.map_some']
    simp only [patched_phdr, h1, h2, or_self, if_false, r1]
    rw [sub32_of_le (by omega) hlt]
  · have := (key r r2 (ph.p_offset + k) ⟨by omega, by omega⟩).2
    simp only [spliced_byte, if_neg hk2, if_neg (show ¬ ph.p_offset + k < SIZEOF_EHDR by omega)]
      at this
    rw [← this]
    congr 1
    simp only []
    omega

/-- C9, witness: two segments a megabyte apart, on a 64-bit host, for a file that holds
a byte at every offset. -/
theorem process_file_round_trip_witness :
    (4294967296 ≤ 18446744073709551616) ∧
    read_hdrs 0 (some (example_ehdr 52 2)) (some two_segments) = .ok two_segment_hdrs ∧
    hdrs_ok two_segment_hdrs ∧
    (∀ s ∈ retained_ranges two_segment_hdrs, s.1 + s.2 < 4294967296) ∧
    (∀ x, important two_segment_hdrs x → (fun y => some (y % 251)) x ≠ none) ∧
    ∃ g' out,
      modify_hdrs (compute_disps (compute_regions two_segment_hdrs)) two_segment_hdrs
        = Except.ok g' ∧
      process_file 18446744073709551616 0
        (compute_disps (compute_regions two_segment_hdrs)) g' (fun y => some (y % 251))
        = some (Except.ok out) ∧
      (∀ r ∈ (compute_disps (compute_regions two_segment_hdrs)), ∀ x, in_region x r →
        r.disp ≤ x ∧
        out (x - r.disp) =
          if two_segment_hdrs.ph_offset ≤ x ∧
              x < two_segment_hdrs.ph_offset + two_segment_hdrs.ph_filesz
          then (phdr_image 0 g'.phdr)[x - two_segment_hdrs.ph_offset]?
          else if x < SIZEOF_EHDR then (ehdr_image 0 g'.ehdr)[x]?
          else (fun y => some (y % 251)) x) ∧
      ∀ (i : Nat) (ph : Elf32_Phdr), two_segment_hdrs.phdr[i]? = some ph →
        ph.p_type ≠ PT_NULL → ph.p_filesz ≠ 0 →
        ∃ ph', g'.phdr[i]? = some ph' ∧
          ∀ k, k < ph.p_filesz → SIZEOF_EHDR ≤ ph.p_offset + k →
            ¬ (two_segment_hdrs.ph_offset ≤ ph.p_offset + k ∧
               ph.p_offset + k < two_segment_hdrs.ph_offset + two_segment_hdrs.ph_filesz) →
            out (ph'.p_offset + k) = (fun y => some (y % 251)) (ph.p_offset + k) :=
  ⟨by decide, rfl, by decide, by decide, fun _ _ => Option.some_ne_none _,
   process_file_round_trip 18446744073709551616 (by decide) 0 (some (example_ehdr 52 2))
     (some two_segments) two_segment_hdrs rfl (by decide) (by decide) (fun y => some (y % 251))
     (fun _ _ => Option.some_ne_none _)⟩

/-- C9, counterexample: every retained range has offset + size <= 2^32 and the table
ends exactly at `2^32`.  Input offset 0xFFFFFFE6 is a byte of the field `p_offset` of
the second table entry; it lies in the region of the table, whose `disp` is 0xFFFFE000.
The patched table has the byte 0 there (`p_offset` is now 0x1000), but the output holds
the input byte 16: the 32-bit sum `ph_offset + ph_filesz` is 0 and the test of line 475
fails in every block. -/
theorem process_file_boundary_counterexample :
    read_hdrs 0 (some (example_ehdr 0xFFFFFFC0 2)) (some moved_segment) = .ok moved_segment_hdrs ∧
    hdrs_ok moved_segment_hdrs ∧
    (∀ s ∈ retained_ranges moved_segment_hdrs, s.1 + s.2 ≤ 4294967296) ∧
    (∃ r ∈ compute_disps (compute_regions moved_segment_hdrs),
      in_region 0xFFFFFFE6 r ∧ r.disp = 0xFFFFE000) ∧
    (moved_segment_hdrs.ph_offset ≤ 0xFFFFFFE6 ∧
      0xFFFFFFE6 < moved_segment_hdrs.ph_offset + moved_segment_hdrs.ph_filesz) ∧
    boundary_file 0xFFFFFFE6 = some 16 ∧
    output_byte (strip_file 18446744073709551616 0 moved_segment_hdrs boundary_file)
      (0xFFFFFFE6 - 0xFFFFE000) = some (some 16) ∧
    (match modify_hdrs (compute_disps (compute_regions moved_segment_hdrs)) moved_segment_hdrs with
     | .ok g' => (phdr_image 0 g'.phdr)[0xFFFFFFE6 - moved_segment_hdrs.ph_offset]?
     | .error _ => none) = some 0 := by
  refine ⟨rfl, by decide, by decide, by decide, by decide, by decide, by decide!, by decide⟩

/-! ## C10: idempotence -/

/-- The checks that an accepted file header has passed. -/
theorem read_hdrs_checks {ENDIAN : Int} {rd_ehdr : Option Elf32_Ehdr}
    {rd_phdr : Option (List Elf32_Phdr)} {g : hdrs}
    (h : read_hdrs ENDIAN rd_ehdr rd_phdr = .ok g) : header_checks ENDIAN g.ehdr := by
  unfold read_hdrs at h
  cases rd_ehdr with
  | none => exact absurd h (by simp)
  | some ehdr =>
    simp only [] at h
    repeat (split at h; exact absurd h (by simp))
    injection h with h
    subst h
    simp only [ne_eq, Decidable.not_not] at *
    exact ⟨by assumption, by assumption, by assumption, by assumption, by assumption,
      by assumption, by assumption, by assumption, by assumption⟩

/-- The result of `read_hdrs` for a file header that passes the checks and a complete
table. -/
theorem read_hdrs_of_checks {ENDIAN : Int} {h : Elf32_Ehdr} (hc : header_checks ENDIAN h)
    (t : List Elf32_Phdr) (ht : t.length = h.e_phnum) :
    read_hdrs ENDIAN (some h) (some t) = Except.ok
      { ehdr := h, phdr := t, ph_offset := h.e_phoff,
        ph_filesz := (h.e_phentsize * h.e_phnum) % 4294967296 } := by
  obtain ⟨c1, c2, c3, c4, c5, c6, c7, c8, c9⟩ := hc
  unfold read_hdrs
  simp only [c1, c2, c4, c5, c6, c8, ne_eq, not_true_eq_false, if_false, if_neg c3,
    if_neg c7, if_neg c9, if_neg (show ¬ t.length < h.e_phnum by omega),
    List.take_of_length_le (show t.length ≤ h.e_phnum by omega)]

/-- The loop of `compute_disps` gives displacement 0 to regions that lie less than a
page apart. -/
theorem compute_disps_from_tight (L : List region) : ∀ c lo : Nat, ok_from lo L → c ≤ lo →
    tight_from c L → ∀ r ∈ compute_disps_from c L, r.disp = 0 ∧ r.toffset = r.offset := by
  induction L with
  | nil => intro _ _ _ _ _ r hr; exact absurd hr (List.not_mem_nil r)
  | cons p rest ih =>
    intro c lo hok hc ht r hr
    obtain ⟨h1, h2, h3, h4⟩ := hok
    obtain ⟨t1, t2⟩ := ht
    simp only [PAGESIZE] at t1
    have hd : sub32 p.offset c / PAGESIZE * PAGESIZE % 4294967296 = 0 := by
      simp only [sub32, PAGESIZE]; omega
    have hto : sub32 p.offset 0 = p.offset := by simp only [sub32]; omega
    have hcur : add32 p.offset p.filesz = p.offset + p.filesz := by
      simp only [add32]; omega
    simp only [compute_disps_from, hd, hto, hcur, List.mem_cons] at hr
    rcases hr with rfl | hr
    · exact ⟨rfl, rfl⟩
    · exact ih _ _ h4 (by omega) t2 r hr

/-- A list whose regions each start less than a page after `c` or after a covered byte
is tight. -/
theorem tight_of_gaps (L : List region) : ∀ lo c : Nat, ok_from lo L → c ≤ lo →
    (∀ b ∈ L, b.offset < c + PAGESIZE ∨
      ∃ z, in_regions L z ∧ z < b.offset ∧ b.offset < z + 1 + PAGESIZE) →
    tight_from c L := by
  induction L with
  | nil => intro _ _ _ _ _; trivial
  | cons b rest ih =>
    intro lo c hok hc hg
    obtain ⟨h1, h2, h3, h4⟩ := hok
    have hall := ok_from_all h4
    refine ⟨?_, ih (b.offset + b.filesz + 1) (b.offset + b.filesz) h4 (by omega) ?_⟩
    · rcases hg b (List.mem_cons_self _ _) with h | ⟨z, ⟨r, hr, hz1, hz2⟩, hz3, _⟩
      · exact h
      · rcases List.mem_cons.mp hr with rfl | hr
        · omega
        · have := (hall r hr).1
          omega
    · intro b' hb'
      rcases hg b' (List.mem_cons_of_mem _ hb') with h | ⟨z, ⟨r, hr, hz1, hz2⟩, hz3, hz4⟩
      · left; omega
      · rcases List.mem_cons.mp hr with rfl | hr
        · left; omega
        · exact Or.inr ⟨z, ⟨r, hr, hz1, hz2⟩, hz3, hz4⟩

theorem placed_from_ge : ∀ (L : List region) (c : Nat), placed_from c L →
    ∀ r ∈ L, c ≤ r.toffset
  | [], _, _ => by simp
  | a :: rest, c, ⟨h1, _, _, h4⟩ => by
    intro r hr
    rcases List.mem_cons.mp hr with rfl | hr
    · exact h1
    · have := placed_from_ge rest _ h4 r hr
      omega

theorem placed_from_pairwise : ∀ (L : List region) (c : Nat), placed_from c L →
    L.Pairwise (fun a b => a.toffset + a.filesz ≤ b.toffset)
  | [], _, _ => List.Pairwise.nil
  | _ :: rest, _, ⟨_, _, _, h4⟩ =>
    List.Pairwise.cons (fun b hb => placed_from_ge rest _ h4 b hb)
      (placed_from_pairwise rest _ h4)

theorem placed_from_pred : ∀ (L : List region) (c : Nat), placed_from c L →
    ∀ r ∈ L, r.toffset < c + PAGESIZE ∨
      ∃ r0 ∈ L, r0.toffset + r0.filesz ≤ r.toffset ∧
        r.toffset < r0.toffset + r0.filesz + PAGESIZE
  | [], _, _ => by simp
  | a :: rest, c, ⟨_, h2, _, h4⟩ => by
    intro r hr
    rcases List.mem_cons.mp hr with rfl | hr
    · exact Or.inl h2
    · rcases placed_from_pred rest _ h4 r hr with h | ⟨r0, hr0, h5, h6⟩
      · exact Or.inr ⟨a, List.mem_cons_self _ _, placed_from_ge rest _ h4 r hr, h⟩
      · exact Or.inr ⟨r0, List.mem_cons_of_mem _ hr0, h5, h6⟩

theorem patched_phdr_found {R : List region} {ph : Elf32_Phdr} {r : region}
    (h1 : ph.p_type ≠ PT_NULL) (h2 : ph.p_filesz ≠ 0)
    (hf : find_region R ph.p_offset ph.p_filesz = some r) (hd : r.disp ≤ ph.p_offset)
    (hlt : ph.p_offset < 4294967296) :
    patched_phdr R ph = { ph with p_offset := ph.p_offset - r.disp } := by
  simp only [patched_phdr, h1, h2, or_self, if_false, hf]
  rw [sub32_of_le hd hlt]

/-- Every retained range of the input, moved down by the displacement of its region, is
a retained range of the stripped file. -/
theorem shift_fwd {ENDIAN : Int} {rd_ehdr : Option Elf32_Ehdr}
    {rd_phdr : Option (List Elf32_Phdr)} {g : hdrs}
    (hacc : read_hdrs ENDIAN rd_ehdr rd_phdr = .ok g) (hok : hdrs_ok g)
    (hnw : ∀ s ∈ retained_ranges g, s.1 + s.2 < 4294967296)
    {s : Nat × Nat} (hs : s ∈ retained_ranges g) :
    ∃ r, find_region (compute_disps (compute_regions g)) s.1 s.2 = some r ∧
      r ∈ compute_disps (compute_regions g) ∧ contains_range r s ∧
      r.disp ≤ r.offset ∧ r.toffset = r.offset - r.disp ∧
      (s.1 - r.disp, s.2) ∈
        retained_ranges (reread (patched_hdrs (compute_disps (compute_regions g)) g)) := by
  obtain ⟨f1, f2, f3, f4, f5, f6⟩ := read_hdrs_ok_facts hacc
  have hn : g.ehdr.e_phnum < 65536 := hok.1.2.2.2.2.2.2.2.2.2.2.2.1
  have hz : g.ph_filesz = g.ehdr.e_phentsize * g.ehdr.e_phnum := by
    rw [f6, f2, Nat.mod_eq_of_lt (by simp only [SIZEOF_PHDR]; omega)]
  obtain ⟨r, r1, r2, r3, r4, r5, r6⟩ := retained_found hacc hok hnw hs
  refine ⟨r, r1, r2, r3, r5, r6, ?_⟩
  have hr3 := r3.1
  unfold retained_ranges at hs
  rcases List.mem_cons.mp hs with rfl | hs
  · simp only [] at hr3
    have : r.disp = 0 := by omega
    simp only [this, Nat.sub_zero]
    exact List.mem_cons_self _ _
  rcases List.mem_cons.mp hs with rfl | hs
  · simp only [] at hr3 r1 ⊢
    have hlt : g.ehdr.e_phoff < 4294967296 := hok.1.2.2.2.2.2.2.1
    have he : (patched_hdrs (compute_disps (compute_regions g)) g).ehdr.e_phoff =
        g.ehdr.e_phoff - r.disp := by
      simp only [patched_hdrs, f5, hz, r1]
      exact sub32_of_le (by omega) hlt
    refine List.mem_cons_of_mem _ ?_
    simp only [reread]
    rw [he]
    exact List.mem_cons_self _ _
  · obtain ⟨ph, hph, rfl⟩ := List.mem_map.mp hs
    obtain ⟨hmem, hcond⟩ := List.mem_filter.mp hph
    simp only [decide_eq_true_eq] at hcond
    simp only [] at hr3 r1 ⊢
    have hlt : ph.p_offset < 4294967296 := (hok.2 ph hmem).2.1
    have hp := patched_phdr_found hcond.1 hcond.2 r1 (by omega) hlt
    refine List.mem_cons_of_mem _ (List.mem_cons_of_mem _ ?_)
    refine List.mem_map.mpr ⟨patched_phdr (compute_disps (compute_regions g)) ph, ?_, ?_⟩
    · refine List.mem_filter.mpr ⟨?_, ?_⟩
      · simp only [reread, patched_hdrs]
        exact List.mem_map.mpr ⟨ph, hmem, rfl⟩
      · rw [hp]; simp [hcond.1, hcond.2]
    · rw [hp]

/-- Every retained range of the stripped file is a retained range of the input, moved
down by the displacement of its region. -/
theorem shift_bwd {ENDIAN : Int} {rd_ehdr : Option Elf32_Ehdr}
    {rd_phdr : Option (List Elf32_Phdr)} {g : hdrs}
    (hacc : read_hdrs ENDIAN rd_ehdr rd_phdr = .ok g) (hok : hdrs_ok g)
    (hnw : ∀ s ∈ retained_ranges g, s.1 + s.2 < 4294967296)
    {s' : Nat × Nat}
    (hs' : s' ∈ retained_ranges
      (reread (patched_hdrs (compute_disps (compute_regions g)) g))) :
    ∃ s ∈ retained_ranges g, ∃ r,
      find_region (compute_disps (compute_regions g)) s.1 s.2 = some r ∧
      r ∈ compute_disps (compute_regions g) ∧ contains_range r s ∧
      r.disp ≤ r.offset ∧ r.toffset = r.offset - r.disp ∧
      s' = (s.1 - r.disp, s.2) := by
  obtain ⟨f1, f2, f3, f4, f5, f6⟩ := read_hdrs_ok_facts hacc
  have hn : g.ehdr.e_phnum < 65536 := hok.1.2.2.2.2.2.2.2.2.2.2.2.1
  have hz : g.ph_filesz = g.ehdr.e_phentsize * g.ehdr.e_phnum := by
    rw [f6, f2, Nat.mod_eq_of_lt (by simp only [SIZEOF_PHDR]; omega)]
  unfold retained_ranges at hs'
  rcases List.mem_cons.mp hs' with rfl | hs'
  · have hs : ((0, SIZEOF_EHDR) : Nat × Nat) ∈ retained_ranges g := List.mem_cons_self _ _
    obtain ⟨r, r1, r2, r3, r4, r5, r6⟩ := retained_found hacc hok hnw hs
    have hr3 := r3.1
    simp only [] at hr3
    have : r.disp = 0 := by omega
    exact ⟨_, hs, r, r1, r2, r3, r5, r6, by simp only [this, Nat.sub_zero]⟩
  rcases List.mem_cons.mp hs' with rfl | hs'
  · have hs : (g.ehdr.e_phoff, g.ehdr.e_phentsize * g.ehdr.e_phnum) ∈ retained_ranges g :=
      List.mem_cons_of_mem _ (List.mem_cons_self _ _)
    obtain ⟨r, r1, r2, r3, r4, r5, r6⟩ := retained_found hacc hok hnw hs
    have hr3 := r3.1
    simp only [] at hr3 r1
    have hlt : g.ehdr.e_phoff < 4294967296 := hok.1.2.2.2.2.2.2.1
    have he : (patched_hdrs (compute_disps (compute_regions g)) g).ehdr.e_phoff =
        g.ehdr.e_phoff - r.disp := by
      simp only [patched_hdrs, f5, hz, r1]
      exact sub32_of_le (by omega) hlt
    refine ⟨_, hs, r, r1, r2, r3, r5, r6, ?_⟩
    simp only [reread]
    rw [he]
    rfl
  · obtain ⟨ph', hph', rfl⟩ := List.mem_map.mp hs'
    obtain ⟨hmem', hcond'⟩ := List.mem_filter.mp hph'
    simp only [reread, patched_hdrs] at hmem'
    obtain ⟨ph, hmem, rfl⟩ := List.mem_map.mp hmem'
    have hfr := patched_phdr_frame (compute_disps (compute_regions g)) ph
    simp only [decide_eq_true_eq] at hcond'
    rw [hfr.1] at hcond'
    simp only [] at hcond'
    have hs : (ph.p_offset, ph.p_filesz) ∈ retained_ranges g :=
      List.mem_cons_of_mem _ (List.mem_cons_of_mem _ (List.mem_map.mpr ⟨ph,
        List.mem_filter.mpr ⟨hmem, by simp [hcond'.1, hcond'.2]⟩, rfl⟩))
    obtain ⟨r, r1, r2, r3, r4, r5, r6⟩ := retained_found hacc hok hnw hs
    have hr3 := r3.1
    simp only [] at hr3 r1
    have hlt : ph.p_offset < 4294967296 := (hok.2 ph hmem).2.1
    have hp := patched_phdr_found hcond'.1 hcond'.2 r1 (by omega) hlt
    refine ⟨_, hs, r, r1, r2, r3, r5, r6, ?_⟩
    rw [hp]

theorem images_apart {c : Nat} {R : List region} (hR : placed_from c R)
    {r r' : region} (hr : r ∈ R) (hr' : r' ∈ R) :
    r = r' ∨ r.toffset + r.filesz ≤ r'.toffset ∨ r'.toffset + r'.filesz ≤ r.toffset := by
  have := List.Pairwise.forall_of_forall
    (R := fun a b : region => a = b ∨ a.toffset + a.filesz ≤ b.toffset ∨
      b.toffset + b.filesz ≤ a.toffset)
    (fun a b h => by rcases h with h | h | h
                     · exact Or.inl h.symm
                     · exact Or.inr (Or.inr h)
                     · exact Or.inr (Or.inl h))
    (fun x _ => Or.inl rfl)
    ((placed_from_pairwise R c hR).imp (fun {a b} h => Or.inr (Or.inl h)))
  exact this hr hr'

theorem sub32_lt (x d : Nat) : sub32 x d < 4294967296 := by
  simp only [sub32]; omega

/-- The patched header and table keep the field widths. -/
theorem patched_hdrs_ok (R : List region) (g : hdrs) (hok : hdrs_ok g) :
    hdrs_ok (reread (patched_hdrs R g)) := by
  obtain ⟨⟨e1, e2, e3, e4, e5, e6, e7, e8, e9, e10, e11, e12, e13, e14, e15⟩, hp⟩ := hok
  have z32 : (0 : Nat) < 4294967296 := by decide
  have z16 : (0 : Nat) < 65536 := by decide
  refine ⟨⟨e1, e2, e3, e4, e5, e6, ?_, z32, e9, e10, e11, e12, z16, z16, z16⟩,
    fun ph' hph' => ?_⟩
  · simp only [reread, patched_hdrs]
    cases find_region R g.ph_offset g.ph_filesz with
    | none => exact e7
    | some p => exact sub32_lt _ _
  · simp only [reread, patched_hdrs] at hph'
    obtain ⟨ph, hmem, rfl⟩ := List.mem_map.mp hph'
    obtain ⟨q1, q2, q3, q4, q5, q6, q7, q8⟩ := hp ph hmem
    have hfr := (patched_phdr_frame R ph).1
    rw [hfr]
    refine ⟨q1, ?_, q3, q4, q5, q6, q7, q8⟩
    simp only [patched_phdr]
    split_ifs
    · exact q2
    · cases find_region R ph.p_offset ph.p_filesz with
      | none => exact q2
      | some p => exact sub32_lt _ _

/-- Without wrap, the patched `e_phoff` is not 0. -/
theorem patched_phoff_ne_zero {ENDIAN : Int} {rd_ehdr : Option Elf32_Ehdr}
    {rd_phdr : Option (List Elf32_Phdr)} {g : hdrs}
    (hacc : read_hdrs ENDIAN rd_ehdr rd_phdr = .ok g) (hok : hdrs_ok g)
    (hnw : ∀ s ∈ retained_ranges g, s.1 + s.2 < 4294967296) :
    (patched_hdrs (compute_disps (compute_regions g)) g).ehdr.e_phoff ≠ 0 := by
  obtain ⟨f1, f2, f3, f4, f5, f6⟩ := read_hdrs_ok_facts hacc
  have hn : g.ehdr.e_phnum < 65536 := hok.1.2.2.2.2.2.2.2.2.2.2.2.1
  have hz : g.ph_filesz = g.ehdr.e_phentsize * g.ehdr.e_phnum := by
    rw [f6, f2, Nat.mod_eq_of_lt (by simp only [SIZEOF_PHDR]; omega)]
  have hL := (foldl_iter_ok hacc hok hnw (long_range (-2) g.ehdr.e_phnum) [] trivial).1
  have hR : ok_from 0 (compute_disps (compute_regions g)) := compute_disps_from_ok _ 0 0 hL
  have hpl : placed_from 0 (compute_disps (compute_regions g)) :=
    (compute_disps_from_placed _ 0 0 (ok_from_sep_from _ 0 hL) (le_refl _)).2
  obtain ⟨rh, _, h2, h3, _, h5, h6⟩ := retained_found hacc hok hnw
    (s := (0, SIZEOF_EHDR)) (List.mem_cons_self _ _)
  obtain ⟨rt, t1, t2, t3, _, t5, t6⟩ := retained_found hacc hok hnw
    (s := (g.ehdr.e_phoff, g.ehdr.e_phentsize * g.ehdr.e_phnum))
    (List.mem_cons_of_mem _ (List.mem_cons_self _ _))
  have hlt : g.ehdr.e_phoff < 4294967296 := hok.1.2.2.2.2.2.2.1
  obtain ⟨h31, h32⟩ := h3
  obtain ⟨t31, t32⟩ := t3
  simp only [SIZEOF_EHDR] at h31 h32
  simp only [] at t31 t32 t1
  have he : (patched_hdrs (compute_disps (compute_regions g)) g).ehdr.e_phoff =
      g.ehdr.e_phoff - rt.disp := by
    simp only [patched_hdrs, f5, hz, t1]
    exact sub32_of_le (by omega) hlt
  rw [he]
  intro h0
  have htf := (ok_from_all hR rt t2).2.1
  rcases images_apart hpl h2 t2 with h | h | h
  · subst h; omega
  · omega
  · omega

/-- The important bytes of the stripped file are the bytes of the regions at their
output offsets. -/
theorem important_reread {ENDIAN : Int} {rd_ehdr : Option Elf32_Ehdr}
    {rd_phdr : Option (List Elf32_Phdr)} {g : hdrs}
    (hacc : read_hdrs ENDIAN rd_ehdr rd_phdr = .ok g) (hok : hdrs_ok g)
    (hnw : ∀ s ∈ retained_ranges g, s.1 + s.2 < 4294967296) (y : Nat) :
    important (reread (patched_hdrs (compute_disps (compute_regions g)) g)) y ↔
      ∃ r ∈ compute_disps (compute_regions g),
        r.toffset ≤ y ∧ y < r.toffset + r.filesz := by
  have hL := (foldl_iter_ok hacc hok hnw (long_range (-2) g.ehdr.e_phnum) [] trivial).1
  have hR : ok_from 0 (compute_disps (compute_regions g)) := compute_disps_from_ok _ 0 0 hL
  constructor
  · rintro ⟨s', hs', y1, y2⟩
    obtain ⟨s, _, r, _, r2, ⟨c1, c2⟩, r5, r6, rfl⟩ := shift_bwd hacc hok hnw hs'
    simp only [] at y1 y2
    exact ⟨r, r2, by omega, by omega⟩
  · rintro ⟨r, hr, y1, y2⟩
    obtain ⟨_, d2, d3, _⟩ := compute_disps_members hL r hr
    have hx : in_regions (compute_disps (compute_regions g)) (y + r.disp) :=
      ⟨r, hr, by omega, by omega⟩
    obtain ⟨s, hs, x1, x2⟩ := (compute_regions_important hacc hok hnw _).mp
      ((compute_disps_from_in_regions _ _ 0).mp hx)
    obtain ⟨r', _, q2, ⟨c1, c2⟩, q5, q6, q7⟩ := shift_fwd hacc hok hnw hs
    have : r = r' := by
      rcases regions_apart hR hr q2 with h | h | h
      · exact h
      · omega
      · omega
    subst this
    exact ⟨_, q7, by simp only []; omega, by simp only []; omega⟩

/-- With displacement 0 everywhere and the section fields already 0, `modify_hdrs`
changes nothing. -/
theorem patched_hdrs_of_disp_zero (R : List region) (g : hdrs) (hok : hdrs_ok g)
    (hz : ∀ r ∈ R, r.disp = 0)
    (hs : g.ehdr.e_shoff = 0 ∧ g.ehdr.e_shentsize = 0 ∧ g.ehdr.e_shnum = 0 ∧
      g.ehdr.e_shstrndx = 0) :
    patched_hdrs R g = g := by
  have hlt : g.ehdr.e_phoff < 4294967296 := hok.1.2.2.2.2.2.2.1
  have h1 : (patched_hdrs R g).ehdr.e_phoff = g.ehdr.e_phoff := by
    simp only [patched_hdrs]
    cases hf : find_region R g.ph_offset g.ph_filesz with
    | none => rfl
    | some p =>
      simp only [hz p (find_region_some hf).1]
      exact sub32_of_le (Nat.zero_le _) hlt
  have h2 : g.phdr.map (patched_phdr R) = g.phdr := by
    conv_rhs => rw [← List.map_id g.phdr]
    refine List.map_congr_left (fun ph hph => ?_)
    have hl : ph.p_offset < 4294967296 := (hok.2 ph hph).2.1
    simp only [patched_phdr, id]
    split_ifs
    · rfl
    · cases hf : find_region R ph.p_offset ph.p_filesz with
      | none => rfl
      | some p =>
        simp only [hz p (find_region_some hf).1]
        rw [sub32_of_le (Nat.zero_le _) hl]
        rfl
  obtain ⟨s1, s2, s3, s4⟩ := hs
  obtain ⟨ehdr, phdr, po, pf⟩ := g
  obtain ⟨i1, i2, i3, i4, i5, i6, i7, i8, i9, i10, i11, i12, i13, i14⟩ := ehdr
  simp only [patched_hdrs] at h1 h2 s1 s2 s3 s4 ⊢
  subst s1 s2 s3 s4
  rw [h1, h2]

/-- The second run: `read_hdrs` accepts the patched header and table, no range wraps,
every displacement is 0 and `modify_hdrs` changes nothing. -/
theorem rerun_facts {ENDIAN : Int} {rd_ehdr : Option Elf32_Ehdr}
    {rd_phdr : Option (List Elf32_Phdr)} {g : hdrs}
    (hacc : read_hdrs ENDIAN rd_ehdr rd_phdr = .ok g) (hok : hdrs_ok g)
    (hnw : ∀ s ∈ retained_ranges g, s.1 + s.2 < 4294967296) :
    read_hdrs ENDIAN (some (patched_hdrs (compute_disps (compute_regions g)) g).ehdr)
      (some (patched_hdrs (compute_disps (compute_regions g)) g).phdr) =
      Except.ok (reread (patched_hdrs (compute_disps (compute_regions g)) g)) ∧
    hdrs_ok (reread (patched_hdrs (compute_disps (compute_regions g)) g)) ∧
    (∀ s ∈ retained_ranges (reread (patched_hdrs (compute_disps (compute_regions g)) g)),
      s.1 + s.2 < 4294967296) ∧
    (∀ r ∈ compute_disps (compute_regions
        (reread (patched_hdrs (compute_disps (compute_regions g)) g))),
      r.disp = 0 ∧ r.toffset = r.offset) ∧
    patched_hdrs (compute_disps (compute_regions
        (reread (patched_hdrs (compute_disps (compute_regions g)) g))))
      (reread (patched_hdrs (compute_disps (compute_regions g)) g)) =
      reread (patched_hdrs (compute_disps (compute_regions g)) g) := by
  obtain ⟨f1, f2, f3, f4, f5, f6⟩ := read_hdrs_ok_facts hacc
  obtain ⟨k1, k2, k3, k4, k5, k6, k7, k8, k9⟩ := read_hdrs_checks hacc
  have hL := (foldl_iter_ok hacc hok hnw (long_range (-2) g.ehdr.e_phnum) [] trivial).1
  have hR : ok_from 0 (compute_disps (compute_regions g)) := compute_disps_from_ok _ 0 0 hL
  have hpl : placed_from 0 (compute_disps (compute_regions g)) :=
    (compute_disps_from_placed _ 0 0 (ok_from_sep_from _ 0 hL) (le_refl _)).2
  -- the second run reads the patched header and table
  have hchk : header_checks ENDIAN
      (patched_hdrs (compute_disps (compute_regions g)) g).ehdr :=
    ⟨k1, k2, k3, k4, k5, k6, patched_phoff_ne_zero hacc hok hnw, k8, k9⟩
  have hacc2 : read_hdrs ENDIAN
      (some (patched_hdrs (compute_disps (compute_regions g)) g).ehdr)
      (some (patched_hdrs (compute_disps (compute_regions g)) g).phdr) =
      Except.ok (reread (patched_hdrs (compute_disps (compute_regions g)) g)) :=
    read_hdrs_of_checks hchk
      (patched_hdrs (compute_disps (compute_regions g)) g).phdr
      (by simp only [patched_hdrs, List.length_map]; exact f4)
  have hok2 := patched_hdrs_ok (compute_disps (compute_regions g)) g hok
  have hnw2 : ∀ s ∈ retained_ranges
      (reread (patched_hdrs (compute_disps (compute_regions g)) g)),
      s.1 + s.2 < 4294967296 := by
    intro s' hs'
    obtain ⟨s, hs, r, _, _, _, _, _, rfl⟩ := shift_bwd hacc hok hnw hs'
    have := hnw s hs
    simp only []
    omega
  have hL2 : ok_from 0 (compute_regions
      (reread (patched_hdrs (compute_disps (compute_regions g)) g))) :=
    (foldl_iter_ok hacc2 hok2 hnw2 _ [] trivial).1
  have hcov2 := compute_regions_important hacc2 hok2 hnw2
  -- every region of the second run starts less than a page after covered bytes
  have hgap : ∀ b ∈ compute_regions
      (reread (patched_hdrs (compute_disps (compute_regions g)) g)),
      b.offset < 0 + PAGESIZE ∨
      ∃ z, in_regions (compute_regions
          (reread (patched_hdrs (compute_disps (compute_regions g)) g))) z ∧
        z < b.offset ∧ b.offset < z + 1 + PAGESIZE := by
    intro b hb
    obtain ⟨hab, hin, _, ha⟩ := (maximal_run_iff_region hL2 hcov2 b.offset
      (b.offset + b.filesz)).mpr ⟨b, hb, rfl, rfl⟩
    obtain ⟨r, hr, y1, y2⟩ := (important_reread hacc hok hnw b.offset).mp
      (hin b.offset (le_refl _) hab)
    have hstart : r.toffset = b.offset := by
      by_contra hne
      rcases ha with ha | ha
      · omega
      · exact ha ((important_reread hacc hok hnw (b.offset - 1)).mpr
          ⟨r, hr, by omega, by omega⟩)
    rcases placed_from_pred _ 0 hpl r hr with h | ⟨r0, hr0, h5, h6⟩
    · left; omega
    · right
      have hpos := (ok_from_all hR r0 hr0).2.1
      refine ⟨r0.toffset + r0.filesz - 1, ?_, by omega, by omega⟩
      exact (hcov2 _).mpr ((important_reread hacc hok hnw _).mpr
        ⟨r0, hr0, by omega, by omega⟩)
  have hzero := compute_disps_from_tight _ 0 0 hL2 (le_refl _)
    (tight_of_gaps _ 0 0 hL2 (le_refl _) hgap)
  exact ⟨hacc2, hok2, hnw2, hzero, patched_hdrs_of_disp_zero
    (compute_disps (compute_regions
      (reread (patched_hdrs (compute_disps (compute_regions g)) g)))) _ hok2
    (fun r hr => (hzero r hr).1) ⟨rfl, rfl, rfl, rfl⟩⟩

theorem spliced_byte_ne_none (input : Nat → Option Nat) (ehdr_mem phdr_mem : List Nat)
    (ph_offset ph_filesz x : Nat) (he : ehdr_mem.length = SIZEOF_EHDR)
    (hp : phdr_mem.length = ph_filesz) (hx : input x ≠ none) :
    spliced_byte input ehdr_mem phdr_mem ph_offset ph_filesz x ≠ none := by
  unfold spliced_byte
  split_ifs with h1 h2
  · rw [List.getElem?_eq_getElem (by omega)]; simp
  · rw [List.getElem?_eq_getElem (by omega)]; simp
  · exact hx

/-- Without wrap, `process_file` returns; the output holds the expected byte at the
output offset of every byte of every region, and no byte elsewhere. -/
theorem process_file_spec {ENDIAN : Int} {rd_ehdr : Option Elf32_Ehdr}
    {rd_phdr : Option (List Elf32_Phdr)} {g : hdrs}
    (hacc : read_hdrs ENDIAN rd_ehdr rd_phdr = .ok g) (hok : hdrs_ok g)
    (hnw : ∀ s ∈ retained_ranges g, s.1 + s.2 < 4294967296)
    (M : Nat) (hM : 4294967296 ≤ M)
    (input : Nat → Option Nat) (hin : ∀ x, important g x → input x ≠ none) :
    ∃ out, process_file M ENDIAN (compute_disps (compute_regions g))
        (patched_hdrs (compute_disps (compute_regions g)) g) input = some (Except.ok out) ∧
      (∀ r ∈ compute_disps (compute_regions g), ∀ x, in_region x r →
        out (x - r.disp) ≠ none ∧
        out (x - r.disp) = spliced_byte input
          (ehdr_image ENDIAN (patched_hdrs (compute_disps (compute_regions g)) g).ehdr)
          (phdr_image ENDIAN (patched_hdrs (compute_disps (compute_regions g)) g).phdr)
          g.ph_offset g.ph_filesz x) ∧
      ∀ y, (∀ r ∈ compute_disps (compute_regions g),
          ¬ (r.toffset ≤ y ∧ y < r.toffset + r.filesz)) → out y = none := by
  obtain ⟨f1, f2, f3, f4, f5, f6⟩ := read_hdrs_ok_facts hacc
  have hn : g.ehdr.e_phnum < 65536 := hok.1.2.2.2.2.2.2.2.2.2.2.2.1
  have hz : g.ph_filesz = g.ehdr.e_phentsize * g.ehdr.e_phnum := by
    rw [f6, f2, Nat.mod_eq_of_lt (by simp only [SIZEOF_PHDR]; omega)]
  have hL := (foldl_iter_ok hacc hok hnw (long_range (-2) g.ehdr.e_phnum) [] trivial).1
  have hR : ok_from 0 (compute_disps (compute_regions g)) := compute_disps_from_ok _ 0 0 hL
  have hpl : placed_from 0 (compute_disps (compute_regions g)) :=
    (compute_disps_from_placed _ 0 0 (ok_from_sep_from _ 0 hL) (le_refl _)).2
  have himp : ∀ x, in_regions (compute_disps (compute_regions g)) x → input x ≠ none :=
    fun x hx => hin x ((compute_regions_important hacc hok hnw x).mp
      ((compute_disps_from_in_regions _ x 0).mp hx))
  have hph : g.ph_offset + g.ph_filesz < 4294967296 := by
    have := hnw (g.ehdr.e_phoff, g.ehdr.e_phentsize * g.ehdr.e_phnum)
      (List.mem_cons_of_mem _ (List.mem_cons_self _ _))
    rw [f5, hz]; exact this
  have hpl2 : (phdr_image ENDIAN
      (patched_hdrs (compute_disps (compute_regions g)) g).phdr).length = g.ph_filesz := by
    rw [phdr_image_length]
    simp only [patched_hdrs, List.length_map, f4, hz, f2, SIZEOF_PHDR]
  have hel := ehdr_image_length ENDIAN
    (patched_hdrs (compute_disps (compute_regions g)) g).ehdr hok.1.1
  obtain ⟨out, ho, _, hout, hout2⟩ := copy_regions_spec M hM input
    (ehdr_image ENDIAN (patched_hdrs (compute_disps (compute_regions g)) g).ehdr)
    (phdr_image ENDIAN (patched_hdrs (compute_disps (compute_regions g)) g).phdr)
    g.ph_offset g.ph_filesz hel hpl2 hph
    (compute_disps (compute_regions g)) 0 (fun _ => none) hpl
    (fun r hr => (ok_from_all hR r hr).2.2) himp
  refine ⟨out, ho, fun r hr x hx => ?_, fun y hy => hout2 y hy⟩
  obtain ⟨_, d2, d3, _⟩ := compute_disps_members hL r hr
  have hx1 := hx.1
  have he : x - r.disp = r.toffset + (x - r.offset) := by omega
  rw [he, hout r hr x hx]
  exact ⟨spliced_byte_ne_none _ _ _ _ _ _ hel hpl2 (himp x ⟨r, hr, hx⟩), rfl⟩

theorem field_value_bytes2 (ENDIAN : Int) (v : Nat) (h : v < 65536) :
    field_value ENDIAN (field_bytes ENDIAN 2 v) = v := by
  unfold field_value field_bytes
  by_cases hE : ENDIAN = 0
  · simp only [hE, if_true]
    simp [List.range_succ]
    omega
  · simp only [hE, if_false]
    simp [List.range_succ]
    omega

theorem field_value_bytes4 (ENDIAN : Int) (v : Nat) (h : v < 4294967296) :
    field_value ENDIAN (field_bytes ENDIAN 4 v) = v := by
  unfold field_value field_bytes
  by_cases hE : ENDIAN = 0
  · simp only [hE, if_true]
    simp [List.range_succ]
    omega
  · simp only [hE, if_false]
    simp [List.range_succ]
    omega

theorem bytes_at_skip (l r : List Nat) (off len : Nat) (h : l.length ≤ off) :
    bytes_at (l ++ r) off len = bytes_at r (off - l.length) len := by
  unfold bytes_at
  rw [List.drop_append_eq_append_drop, List.drop_eq_nil_of_le h, List.nil_append]

theorem bytes_at_here (l r : List Nat) (len : Nat) (h : l.length = len) :
    bytes_at (l ++ r) 0 len = l := by
  unfold bytes_at
  rw [List.drop_zero, List.take_left' h]

theorem bytes_at_last (l : List Nat) (len : Nat) (h : l.length = len) :
    bytes_at l 0 len = l := by
  unfold bytes_at
  rw [List.drop_zero, List.take_of_length_le (by omega)]

theorem ehdr_of_bytes_image (ENDIAN : Int) (h : Elf32_Ehdr) (hok : ehdr_ok h) :
    ehdr_of_bytes ENDIAN (ehdr_image ENDIAN h) = h := by
  obtain ⟨k0, _, k1, k2, k3, k4, k5, k6, k7, k8, k9, k10, k11, k12, k13⟩ := hok
  unfold ehdr_of_bytes ehdr_image
  simp only [List.append_assoc]
  simp only [bytes_at_skip, bytes_at_here, bytes_at_last, k0, field_bytes_length,
    Nat.le_refl, Nat.sub_self, Nat.reduceSub, Nat.reduceLeDiff, field_value_bytes2,
    field_value_bytes4, k1, k2, k3, k4, k5, k6, k7, k8, k9, k10, k11, k12, k13]

theorem phdr_entry_image_length (ENDIAN : Int) (p : Elf32_Phdr) :
    (phdr_entry_image ENDIAN p).length = SIZEOF_PHDR := by
  simp [phdr_entry_image, field_bytes_length, SIZEOF_PHDR]

theorem phdr_of_bytes_image (ENDIAN : Int) (p : Elf32_Phdr) (hok : phdr_ok p) :
    phdr_of_bytes ENDIAN (phdr_entry_image ENDIAN p) = p := by
  obtain ⟨k0, k1, k2, k3, k4, k5, k6, k7⟩ := hok
  unfold phdr_of_bytes phdr_entry_image
  simp only [List.append_assoc]
  simp only [bytes_at_skip, bytes_at_here, bytes_at_last, field_bytes_length,
    Nat.le_refl, Nat.sub_self, Nat.reduceSub, Nat.reduceLeDiff,
    field_value_bytes4, k0, k1, k2, k3, k4, k5, k6, k7]

theorem phdr_table_of_bytes_image (ENDIAN : Int) :
    ∀ t : List Elf32_Phdr, (∀ p ∈ t, phdr_ok p) →
      phdr_table_of_bytes ENDIAN t.length (phdr_image ENDIAN t) = t
  | [], _ => rfl
  | p :: rest, h => by
    simp only [List.length_cons, phdr_table_of_bytes, phdr_image]
    rw [List.take_left' (phdr_entry_image_length ENDIAN p),
      List.drop_left' (phdr_entry_image_length ENDIAN p),
      phdr_of_bytes_image ENDIAN p (h p (List.mem_cons_self _ _)),
      phdr_table_of_bytes_image ENDIAN rest (fun q hq => h q (List.mem_cons_of_mem _ hq))]

/-- A read of `n` bytes at `pos` from a file that holds the list `l` there returns `l`. -/
theorem allread_eq (input : Nat → Option Nat) (pos : Nat) (l : List Nat)
    (h : ∀ k, k < l.length → input (pos + k) = l[k]?) :
    allread input pos l.length = some l := by
  unfold allread
  have hall : (List.range l.length).all (fun k => (input (pos + k)).isSome) = true := by
    rw [List.all_eq_true]
    intro k hk
    rw [h k (List.mem_range.mp hk), List.getElem?_eq_getElem (List.mem_range.mp hk)]
    rfl
  rw [if_pos hall]
  congr 1
  apply List.ext_getElem?
  intro k
  by_cases hk : k < l.length
  · rw [List.getElem?_map, List.getElem?_range hk, Option.map_some', h k hk,
      List.getElem?_eq_getElem hk]
    rfl
  · rw [List.getElem?_eq_none (by simp only [List.length_map, List.length_range]; omega),
      List.getElem?_eq_none (by omega)]

/-- Without wrap and with the table at or after the end of the file header, the output
of `process_file` holds the image of the patched file header at offset 0 and the image
of the patched table at the patched `e_phoff`, so `read_hdrs` reads them back. -/
theorem read_back {ENDIAN : Int} {rd_ehdr : Option Elf32_Ehdr}
    {rd_phdr : Option (List Elf32_Phdr)} {g : hdrs}
    (hacc : read_hdrs ENDIAN rd_ehdr rd_phdr = .ok g) (hok : hdrs_ok g)
    (hnw : ∀ s ∈ retained_ranges g, s.1 + s.2 < 4294967296)
    (htab : SIZEOF_EHDR ≤ g.ehdr.e_phoff)
    (input out : Nat → Option Nat)
    (hout : ∀ r ∈ compute_disps (compute_regions g), ∀ x, in_region x r →
        out (x - r.disp) ≠ none ∧
        out (x - r.disp) = spliced_byte input
          (ehdr_image ENDIAN (patched_hdrs (compute_disps (compute_regions g)) g).ehdr)
          (phdr_image ENDIAN (patched_hdrs (compute_disps (compute_regions g)) g).phdr)
          g.ph_offset g.ph_filesz x) :
    read_ehdr ENDIAN out = some (patched_hdrs (compute_disps (compute_regions g)) g).ehdr ∧
    read_phdr ENDIAN out (patched_hdrs (compute_disps (compute_regions g)) g).ehdr.e_phoff
      (patched_hdrs (compute_disps (compute_regions g)) g).ehdr.e_phnum =
      some (patched_hdrs (compute_disps (compute_regions g)) g).phdr := by
  obtain ⟨f1, f2, f3, f4, f5, f6⟩ := read_hdrs_ok_facts hacc
  have hn : g.ehdr.e_phnum < 65536 := hok.1.2.2.2.2.2.2.2.2.2.2.2.1
  have hz : g.ph_filesz = g.ehdr.e_phentsize * g.ehdr.e_phnum := by
    rw [f6, f2, Nat.mod_eq_of_lt (by simp only [SIZEOF_PHDR]; omega)]
  have hok2 := patched_hdrs_ok (compute_disps (compute_regions g)) g hok
  obtain ⟨rh, _, rh2, ⟨rh31, rh32⟩, _, rh5, rh6⟩ := retained_found hacc hok hnw
    (s := (0, SIZEOF_EHDR)) (List.mem_cons_self _ _)
  obtain ⟨rt, rt1, rt2, ⟨rt31, rt32⟩, _, rt5, rt6⟩ := retained_found hacc hok hnw
    (s := (g.ehdr.e_phoff, g.ehdr.e_phentsize * g.ehdr.e_phnum))
    (List.mem_cons_of_mem _ (List.mem_cons_self _ _))
  have hlt : g.ehdr.e_phoff < 4294967296 := hok.1.2.2.2.2.2.2.1
  simp only [SIZEOF_EHDR] at rh31 rh32 htab
  simp only [] at rt31 rt32 rt1
  have he : (patched_hdrs (compute_disps (compute_regions g)) g).ehdr.e_phoff =
      g.ehdr.e_phoff - rt.disp := by
    simp only [patched_hdrs, f5, hz, rt1]
    exact sub32_of_le (by omega) hlt
  have hnum : (patched_hdrs (compute_disps (compute_regions g)) g).ehdr.e_phnum =
      g.ehdr.e_phnum := rfl
  have hel := ehdr_image_length ENDIAN
    (patched_hdrs (compute_disps (compute_regions g)) g).ehdr hok.1.1
  have hpl2 : (phdr_image ENDIAN
      (patched_hdrs (compute_disps (compute_regions g)) g).phdr).length =
      g.ehdr.e_phnum * SIZEOF_PHDR := by
    rw [phdr_image_length]
    simp only [patched_hdrs, List.length_map, f4, SIZEOF_PHDR]
    omega
  have hplen : (patched_hdrs (compute_disps (compute_regions g)) g).phdr.length =
      g.ehdr.e_phnum := by
    simp only [patched_hdrs, List.length_map]; exact f4
  have e1 : allread out 0 SIZEOF_EHDR =
      some (ehdr_image ENDIAN (patched_hdrs (compute_disps (compute_regions g)) g).ehdr) := by
    rw [← hel]
    refine allread_eq out 0 _ (fun k hk => ?_)
    rw [hel] at hk
    simp only [SIZEOF_EHDR] at hk
    have h1 := (hout rh rh2 k ⟨by omega, by omega⟩).2
    have hd0 : rh.disp = 0 := by omega
    rw [hd0, Nat.sub_zero] at h1
    rw [Nat.zero_add, h1]
    unfold spliced_byte
    rw [if_neg (by rw [f5]; omega), if_pos (by simp only [SIZEOF_EHDR]; omega)]
  have e2 : allread out (g.ehdr.e_phoff - rt.disp) (g.ehdr.e_phnum * SIZEOF_PHDR) =
      some (phdr_image ENDIAN (patched_hdrs (compute_disps (compute_regions g)) g).phdr) := by
    rw [← hpl2]
    refine allread_eq out _ _ (fun k hk => ?_)
    rw [hpl2] at hk
    simp only [SIZEOF_PHDR] at hk
    rw [f2] at rt32 hz
    simp only [SIZEOF_PHDR] at rt32 hz
    have h1 := (hout rt rt2 (g.ehdr.e_phoff + k) ⟨by omega, by omega⟩).2
    have hk2 : g.ehdr.e_phoff - rt.disp + k = g.ehdr.e_phoff + k - rt.disp := by omega
    rw [hk2, h1]
    unfold spliced_byte
    rw [if_pos (by rw [f5, hz]; omega), f5, Nat.add_sub_cancel_left]
  constructor
  · unfold read_ehdr
    rw [e1]
    exact congrArg some (ehdr_of_bytes_image ENDIAN _ hok2.1)
  · unfold read_phdr
    rw [hnum, he, e2]
    have e3 := phdr_table_of_bytes_image ENDIAN
      (patched_hdrs (compute_disps (compute_regions g)) g).phdr hok2.2
    rw [hplen] at e3
    exact congrArg some e3

/-- The file `overlap_file` holds every important byte. -/
theorem overlap_file_complete : ∀ x, important overlap_hdrs x → overlap_file x ≠ none := by
  intro x hx
  obtain ⟨s, hs, h1, h2⟩ := hx
  have hb : ∀ s ∈ retained_ranges overlap_hdrs, s.1 + s.2 ≤ 0x20003C := by decide
  have hlt : x < 0x20003C := by
    have := hb s hs
    omega
  unfold overlap_file
  split_ifs with c1 c2
  · rw [List.getElem?_eq_getElem (by rw [ehdr_image_length 0 overlap_ehdr rfl]; exact c1)]
    exact Option.some_ne_none _
  · rw [List.getElem?_eq_getElem (by simp only [List.length_cons, List.length_nil]; omega)]
    exact Option.some_ne_none _
  · exact Option.some_ne_none _

/-- C10 (amended): for every accepted input in which every retained range has
offset + size < 2^32 and every important byte is present, `main` exits with status 0; let
`g'` hold the file header and table after `modify_hdrs` and `out` be the file it leaves.
`read_hdrs` accepts that header and table again; `compute_regions` and `compute_disps`
then give every region displacement 0 (`toffset = offset`), `modify_hdrs` leaves header
and table unchanged, and `process_file` run on `out` writes an output that is equal to
`out` at every offset.  When the table does not start inside the file header
(`e_phoff >= sizeof(Elf32_Ehdr)`), that header and table are what `read_hdrs` reads from
`out`, so `main` run on `out` exits with status 0 and leaves a file equal to `out`. -/
theorem strip_idempotent (ENDIAN : Int) (rd_ehdr : Option Elf32_Ehdr)
    (rd_phdr : Option (List Elf32_Phdr)) (g : hdrs)
    (hacc : read_hdrs ENDIAN rd_ehdr rd_phdr = .ok g) (hok : hdrs_ok g)
    (hnw : ∀ s ∈ retained_ranges g, s.1 + s.2 < 4294967296)
    (SIZE_MOD : Nat) (hM : 4294967296 ≤ SIZE_MOD)
    (input : Nat → Option Nat) (hin : ∀ x, important g x → input x ≠ none) :
    ∃ g' out g2 out2,
      modify_hdrs (compute_disps (compute_regions g)) g = Except.ok g' ∧
      process_file SIZE_MOD ENDIAN (compute_disps (compute_regions g)) g' input
        = some (Except.ok out) ∧
      main SIZE_MOD ENDIAN 2 rd_ehdr rd_phdr input =
        some { status := 0, first_region := compute_disps (compute_regions g),
               created := true, file := out } ∧
      read_hdrs ENDIAN (some g'.ehdr) (some g'.phdr) = Except.ok g2 ∧
      g2.ehdr = g'.ehdr ∧ g2.phdr = g'.phdr ∧
      (∀ r ∈ compute_disps (compute_regions g2), r.disp = 0 ∧ r.toffset = r.offset) ∧
      modify_hdrs (compute_disps (compute_regions g2)) g2 = Except.ok g2 ∧
      process_file SIZE_MOD ENDIAN (compute_disps (compute_regions g2)) g2 out
        = some (Except.ok out2) ∧
      (∀ y, out2 y = out y) ∧
      (SIZEOF_EHDR ≤ g.ehdr.e_phoff →
        read_ehdr ENDIAN out = some g'.ehdr ∧
        read_phdr ENDIAN out g'.ehdr.e_phoff g'.ehdr.e_phnum = some g'.phdr ∧
        read_hdrs_file ENDIAN out = Except.ok g2 ∧
        main_file SIZE_MOD ENDIAN 2 out =
          some { status := 0, first_region := compute_disps (compute_regions g2),
                 created := true, file := out2 }) := by
  obtain ⟨f1, f2, f3, f4, f5, f6⟩ := read_hdrs_ok_facts hacc
  have hn : g.ehdr.e_phnum < 65536 := hok.1.2.2.2.2.2.2.2.2.2.2.2.1
  have hz : g.ph_filesz = g.ehdr.e_phentsize * g.ehdr.e_phnum := by
    rw [f6, f2, Nat.mod_eq_of_lt (by simp only [SIZEOF_PHDR]; omega)]
  have hL := (foldl_iter_ok hacc hok hnw (long_range (-2) g.ehdr.e_phnum) [] trivial).1
  have hR : ok_from 0 (compute_disps (compute_regions g)) := compute_disps_from_ok _ 0 0 hL
  have hpl : placed_from 0 (compute_disps (compute_regions g)) :=
    (compute_disps_from_placed _ 0 0 (ok_from_sep_from _ 0 hL) (le_refl _)).2
  obtain ⟨c1, c2⟩ := compute_regions_held hacc hok
  have hmod := modify_hdrs_eq _ g f4 c1 c2
  obtain ⟨hacc2, hok2, hnw2, hzero, hfix⟩ := rerun_facts hacc hok hnw
  have hL2 : ok_from 0 (compute_regions
      (reread (patched_hdrs (compute_disps (compute_regions g)) g))) :=
    (foldl_iter_ok hacc2 hok2 hnw2 _ [] trivial).1
  have hcov2 := compute_regions_important hacc2 hok2 hnw2
  obtain ⟨d1, d2⟩ := compute_regions_held hacc2 hok2
  have hmod2 := modify_hdrs_eq _
    (reread (patched_hdrs (compute_disps (compute_regions g)) g))
    (by simp only [reread, patched_hdrs, List.length_map]; exact f4) d1 d2
  rw [hfix] at hmod2
  -- the first copy
  obtain ⟨out, ho, hout, hnone⟩ := process_file_spec hacc hok hnw SIZE_MOD hM input hin
  -- the second copy reads the output of the first
  have hin2 : ∀ y, important (reread (patched_hdrs (compute_disps (compute_regions g)) g)) y →
      out y ≠ none := by
    intro y hy
    obtain ⟨r, hr, y1, y2⟩ := (important_reread hacc hok hnw y).mp hy
    obtain ⟨_, e2, e3, _⟩ := compute_disps_members hL r hr
    have := (hout r hr (y + r.disp) ⟨by omega, by omega⟩).1
    rwa [Nat.add_sub_cancel] at this
  obtain ⟨out2, ho2, hout2, hnone2⟩ := process_file_spec hacc2 hok2 hnw2 SIZE_MOD hM out hin2
  rw [hfix] at ho2 hout2
  have hmain : main SIZE_MOD ENDIAN 2 rd_ehdr rd_phdr input =
      some { status := 0, first_region := compute_disps (compute_regions g),
             created := true, file := out } := by
    simp only [main, show ¬ (2 < 2) by decide, if_false, hacc, hmod, ho]
  refine ⟨_, out, _, out2, hmod, ho, hmain, hacc2, rfl, rfl, hzero, hmod2, ho2,
    fun y => ?_, fun htab => ?_⟩
  · -- the regions that hold the file header and the table in the first run
    obtain ⟨rh, _, rh2, ⟨rh31, rh32⟩, _, rh5, rh6⟩ := retained_found hacc hok hnw
      (s := (0, SIZEOF_EHDR)) (List.mem_cons_self _ _)
    obtain ⟨rt, rt1, rt2, ⟨rt31, rt32⟩, _, rt5, rt6⟩ := retained_found hacc hok hnw
      (s := (g.ehdr.e_phoff, g.ehdr.e_phentsize * g.ehdr.e_phnum))
      (List.mem_cons_of_mem _ (List.mem_cons_self _ _))
    have hlt : g.ehdr.e_phoff < 4294967296 := hok.1.2.2.2.2.2.2.1
    simp only [SIZEOF_EHDR] at rh31 rh32
    simp only [] at rt31 rt32 rt1
    have he : (patched_hdrs (compute_disps (compute_regions g)) g).ehdr.e_phoff =
        g.ehdr.e_phoff - rt.disp := by
      simp only [patched_hdrs, f5, hz, rt1]
      exact sub32_of_le (by omega) hlt
    have hpo2 : (reread (patched_hdrs (compute_disps (compute_regions g)) g)).ph_offset =
        g.ehdr.e_phoff - rt.disp := he
    have hpf2 : (reread (patched_hdrs (compute_disps (compute_regions g)) g)).ph_filesz =
        g.ehdr.e_phentsize * g.ehdr.e_phnum := by
      simp only [reread, patched_hdrs, f2]
      exact Nat.mod_eq_of_lt (by simp only [SIZEOF_PHDR]; omega)
    by_cases hy : in_regions (compute_disps (compute_regions
        (reread (patched_hdrs (compute_disps (compute_regions g)) g)))) y
    · obtain ⟨b, hb, hyb⟩ := hy
      obtain ⟨r, hr, y1, y2⟩ := (important_reread hacc hok hnw y).mp
        ((hcov2 y).mp ((compute_disps_from_in_regions _ y 0).mp ⟨b, hb, hyb⟩))
      obtain ⟨_, e2, e3, _⟩ := compute_disps_members hL r hr
      have h1 := (hout r hr (y + r.disp) ⟨by omega, by omega⟩).2
      rw [Nat.add_sub_cancel] at h1
      have h2 := (hout2 b hb y hyb).2
      rw [(hzero b hb).1, Nat.sub_zero] at h2
      rw [h1, h2, hpo2, hpf2, f5, hz]
      unfold spliced_byte
      by_cases hA : g.ehdr.e_phoff - rt.disp ≤ y ∧
          y < g.ehdr.e_phoff - rt.disp + g.ehdr.e_phentsize * g.ehdr.e_phnum
      · have hrt : r = rt := by
          rcases images_apart hpl hr rt2 with h | h | h
          · exact h
          · omega
          · omega
        subst hrt
        rw [if_pos hA, if_pos (by omega)]
        congr 1
        omega
      · rw [if_neg hA]
        have hB : ¬ (g.ehdr.e_phoff ≤ y + r.disp ∧
            y + r.disp < g.ehdr.e_phoff + g.ehdr.e_phentsize * g.ehdr.e_phnum) := by
          intro hB
          have hrt : r = rt := by
            rcases regions_apart hR hr rt2 with h | h | h
            · exact h
            · omega
            · omega
          subst hrt
          omega
        rw [if_neg hB]
        by_cases hC : y < SIZEOF_EHDR
        · have hC2 := hC
          simp only [SIZEOF_EHDR] at hC
          have hrh : r = rh := by
            rcases images_apart hpl hr rh2 with h | h | h
            · exact h
            · omega
            · omega
          subst hrh
          have hd0 : r.disp = 0 := by omega
          simp only [hd0, Nat.add_zero]
          rw [if_pos hC2, if_pos hC2]
          rfl
        · rw [if_neg hC]
          have hD : ¬ y + r.disp < SIZEOF_EHDR := by omega
          rw [if_neg hD, h1, hz, f5]
          unfold spliced_byte
          rw [if_neg hB, if_neg hD]
    · have ha : out2 y = none := by
        refine hnone2 y (fun b hb hyb => hy ⟨b, hb, ?_⟩)
        rw [(hzero b hb).2] at hyb
        exact hyb
      have hb : out y = none := by
        refine hnone y (fun r hr hyr => hy ?_)
        exact (compute_disps_from_in_regions _ y 0).mpr ((hcov2 y).mpr
          ((important_reread hacc hok hnw y).mpr ⟨r, hr, hyr.1, hyr.2⟩))
      rw [ha, hb]
  · obtain ⟨b1, b2⟩ := read_back hacc hok hnw htab input out hout
    have b3 : read_hdrs_file ENDIAN out =
        Except.ok (reread (patched_hdrs (compute_disps (compute_regions g)) g)) := by
      unfold read_hdrs_file
      rw [b1]
      simp only [Option.bind, b2]
      exact hacc2
    refine ⟨b1, b2, b3, ?_⟩
    unfold main_file
    rw [b1]
    simp only [Option.bind, b2, main, show ¬ (2 < 2) by decide, if_false, hacc2, hmod2, ho2]

/-- C10, witness: two segments a megabyte apart, on a 64-bit host, in a file that starts
with the header and the table and holds a byte at every offset. -/
theorem strip_idempotent_witness :
    read_hdrs_file 0 two_segment_file = .ok two_segment_hdrs ∧
    hdrs_ok two_segment_hdrs ∧
    (∀ s ∈ retained_ranges two_segment_hdrs, s.1 + s.2 < 4294967296) ∧
    (4294967296 ≤ 18446744073709551616) ∧
    (∀ x, important two_segment_hdrs x → two_segment_file x ≠ none) ∧
    SIZEOF_EHDR ≤ two_segment_hdrs.ehdr.e_phoff ∧
    ∃ g' out g2 out2,
      modify_hdrs (compute_disps (compute_regions two_segment_hdrs)) two_segment_hdrs
        = Except.ok g' ∧
      process_file 18446744073709551616 0
        (compute_disps (compute_regions two_segment_hdrs)) g' two_segment_file
        = some (Except.ok out) ∧
      main_file 18446744073709551616 0 2 two_segment_file =
        some { status := 0,
               first_region := compute_disps (compute_regions two_segment_hdrs),
               created := true, file := out } ∧
      read_hdrs 0 (some g'.ehdr) (some g'.phdr) = Except.ok g2 ∧
      g2.ehdr = g'.ehdr ∧ g2.phdr = g'.phdr ∧
      (∀ r ∈ compute_disps (compute_regions g2), r.disp = 0 ∧ r.toffset = r.offset) ∧
      modify_hdrs (compute_disps (compute_regions g2)) g2 = Except.ok g2 ∧
      process_file 18446744073709551616 0 (compute_disps (compute_regions g2)) g2 out
        = some (Except.ok out2) ∧
      (∀ y, out2 y = out y) ∧
      read_ehdr 0 out = some g'.ehdr ∧
      read_phdr 0 out g'.ehdr.e_phoff g'.ehdr.e_phnum = some g'.phdr ∧
      read_hdrs_file 0 out = Except.ok g2 ∧
      main_file 18446744073709551616 0 2 out =
        some { status := 0, first_region := compute_disps (compute_regions g2),
               created := true, file := out2 } := by
  obtain ⟨g', out, g2, out2, h1, h2, h3, h4, h5, h6, h7, h8, h9, h10, h11⟩ :=
    strip_idempotent 0 (read_ehdr 0 two_segment_file)
      ((read_ehdr 0 two_segment_file).bind
        (fun h => read_phdr 0 two_segment_file h.e_phoff h.e_phnum))
      two_segment_hdrs rfl (by decide) (by decide) 18446744073709551616 (by decide)
      two_segment_file (fun _ _ => Option.some_ne_none _)
  exact ⟨rfl, by decide, by decide, by decide, fun _ _ => Option.some_ne_none _, by decide,
    g', out, g2, out2, h1, h2, h3, h4, h5, h6, h7, h8, h9, h10, h11 (by decide)⟩

/-- C10, counterexample, in two parts.  First: every retained range has
offset + size <= 2^32 and the table ends exactly at `2^32`; `modify_hdrs` changes only
the section fields, `read_hdrs` accepts the result, and the second run again gives the
region of the table the displacement 0xFFFFF000, not 0.  Second: no retained range
reaches `2^32`, the file holds every important byte, and the table starts at offset 4,
inside the file header; `main` exits with status 0, the file it leaves has at the
offsets of `e_phentsize` bytes of the table that give the value 0, and `main` run on
that file exits with status 100. -/
theorem strip_idempotent_boundary_counterexample :
    (read_hdrs 0 (some (example_ehdr 0xFFFFFFE0 1)) (some [example_phdr 1 0 52])
      = .ok table_at_end ∧
    hdrs_ok table_at_end ∧
    (∀ s ∈ retained_ranges table_at_end, s.1 + s.2 ≤ 4294967296) ∧
    modify_hdrs (compute_disps (compute_regions table_at_end)) table_at_end
      = Except.ok table_at_end_stripped ∧
    read_hdrs 0 (some table_at_end_stripped.ehdr) (some table_at_end_stripped.phdr)
      = Except.ok table_at_end_stripped ∧
    ∃ r ∈ compute_disps (compute_regions table_at_end_stripped),
      r.offset = 0xFFFFFFE0 ∧ r.disp = 0xFFFFF000) ∧
    (read_hdrs_file 0 overlap_file = .ok overlap_hdrs ∧
    hdrs_ok overlap_hdrs ∧
    (∀ s ∈ retained_ranges overlap_hdrs, s.1 + s.2 < 4294967296) ∧
    (∀ x, important overlap_hdrs x → overlap_file x ≠ none) ∧
    overlap_hdrs.ehdr.e_phoff = 4 ∧
    (main_file 18446744073709551616 0 2 overlap_file).map (fun s => s.status) = some 0 ∧
    ((main_file 18446744073709551616 0 2 overlap_file).bind
      (fun s => read_ehdr 0 s.file)).map (fun h => h.e_phentsize) = some 0 ∧
    ((main_file 18446744073709551616 0 2 overlap_file).bind
      (fun s => main_file 18446744073709551616 0 2 s.file)).map (fun s => s.status)
      = some 100) := by
  refine ⟨⟨rfl, by decide, by decide, rfl, rfl, by decide⟩,
    rfl, by decide, by decide, overlap_file_complete, rfl, by decide!, by decide!,
    by decide!⟩

/-! ## C11: the output is not larger than the input -/

/-- In a placed list the last region ends last. -/
theorem placed_from_last : ∀ (L : List region) (c : Nat), placed_from c L →
    ∀ l, L.getLast? = some l → ∀ r ∈ L, r.toffset + r.filesz ≤ l.toffset + l.filesz
  | [], _, _ => by simp
  | [a], _, _ => by
    intro l hl r hr
    simp only [List.getLast?_singleton, Option.some.injEq] at hl
    simp only [List.mem_singleton] at hr
    subst hl; subst hr; exact le_refl _
  | a :: b :: rest, c, ⟨_, _, _, h4⟩ => by
    intro l hl r hr
    rw [List.getLast?_cons_cons] at hl
    rcases List.mem_cons.mp hr with rfl | hr
    · have := placed_from_ge (b :: rest) _ h4 l (List.mem_of_mem_getLast? hl)
      omega
    · exact placed_from_last (b :: rest) _ h4 l hl r hr

/-- Without wrap, every region ends at or before the end of some retained range. -/
theorem region_end_le {ENDIAN : Int} {rd_ehdr : Option Elf32_Ehdr}
    {rd_phdr : Option (List Elf32_Phdr)} {g : hdrs}
    (hacc : read_hdrs ENDIAN rd_ehdr rd_phdr = .ok g) (hok : hdrs_ok g)
    (hnw : ∀ s ∈ retained_ranges g, s.1 + s.2 < 4294967296)
    {N : Nat} (hN : ∀ s ∈ retained_ranges g, s.1 + s.2 ≤ N) :
    ∀ r ∈ compute_disps (compute_regions g), r.offset + r.filesz ≤ N := by
  intro r hr
  have hL := (foldl_iter_ok hacc hok hnw (long_range (-2) g.ehdr.e_phnum) [] trivial).1
  have hpos := (ok_from_all (compute_disps_from_ok _ 0 0 hL) r hr).2.1
  have hx : in_regions (compute_disps (compute_regions g)) (r.offset + r.filesz - 1) :=
    ⟨r, hr, by unfold in_region; omega⟩
  obtain ⟨s, hs, h1, h2⟩ := (compute_regions_important hacc hok hnw _).mp
    ((compute_disps_from_in_regions _ _ 0).mp hx)
  have := hN s hs
  omega

/-- C11 (amended): for every accepted input in which every retained range has
offset + size < 2^32 and lies inside the input file (of `N` bytes), every region has
`toffset <= offset`, and the output file size, which is the last region's
`toffset + filesz`, is at most `N`: the run returns, the last byte it writes is at offset
`toffset + filesz - 1` of the last region, and it writes no byte at or after
`toffset + filesz`. -/
theorem output_not_larger (ENDIAN : Int) (rd_ehdr : Option Elf32_Ehdr)
    (rd_phdr : Option (List Elf32_Phdr)) (g : hdrs)
    (hacc : read_hdrs ENDIAN rd_ehdr rd_phdr = .ok g) (hok : hdrs_ok g)
    (hnw : ∀ s ∈ retained_ranges g, s.1 + s.2 < 4294967296)
    (SIZE_MOD : Nat) (hM : 4294967296 ≤ SIZE_MOD)
    (input : Nat → Option Nat) (N : Nat) (hin : ∀ x, input x ≠ none ↔ x < N)
    (hN : ∀ s ∈ retained_ranges g, s.1 + s.2 ≤ N) :
    (∀ r ∈ compute_disps (compute_regions g), r.toffset ≤ r.offset) ∧
    ∃ l, (compute_disps (compute_regions g)).getLast? = some l ∧
      l.toffset + l.filesz ≤ N ∧
      ∃ out, strip_file SIZE_MOD ENDIAN g input = some (Except.ok out) ∧
        out (l.toffset + l.filesz - 1) ≠ none ∧
        ∀ y, out y ≠ none → y < l.toffset + l.filesz := by
  obtain ⟨f1, f2, f3, f4, f5, f6⟩ := read_hdrs_ok_facts hacc
  obtain ⟨c1, c2⟩ := compute_regions_held hacc hok
  have hL := (foldl_iter_ok hacc hok hnw (long_range (-2) g.ehdr.e_phnum) [] trivial).1
  have hmem := compute_disps_members hL
  have hend := region_end_le hacc hok hnw hN
  have hpl := (compute_disps_from_placed (compute_regions g) 0 0
    (ok_from_sep_from _ 0 hL) (le_refl _)).2
  have himp : ∀ x, important g x → input x ≠ none := by
    rintro x ⟨s, hs, h1, h2⟩
    have := hN s hs
    exact (hin x).mpr (by omega)
  obtain ⟨out, o1, o2, o3⟩ := process_file_spec hacc hok hnw SIZE_MOD hM input himp
  have hne : compute_disps (compute_regions g) ≠ [] := by
    intro h0
    have hs : (0, SIZEOF_EHDR) ∈ retained_ranges g := List.mem_cons_self _ _
    obtain ⟨r, _, r2, _⟩ := retained_found hacc hok hnw hs
    rw [h0] at r2
    exact absurd r2 (List.not_mem_nil _)
  refine ⟨fun r hr => ?_, ?_⟩
  · have := hmem r hr
    omega
  · refine ⟨_, List.getLast?_eq_getLast _ hne, ?_, out, ?_, ?_, ?_⟩
    · have hl := List.getLast_mem hne
      have := hmem _ hl
      have := hend _ hl
      omega
    · simp only [strip_file, modify_hdrs_eq _ g f4 c1 c2]
      exact o1
    · have hl := List.getLast_mem hne
      obtain ⟨d1, d2, d3, d4⟩ := hmem _ hl
      have hpos := (ok_from_all (compute_disps_from_ok _ 0 0 hL) _ hl).2.1
      have := (o2 _ hl (((compute_disps (compute_regions g)).getLast hne).offset +
        ((compute_disps (compute_regions g)).getLast hne).filesz - 1)
        (by unfold in_region; omega)).1
      have he : ((compute_disps (compute_regions g)).getLast hne).toffset +
          ((compute_disps (compute_regions g)).getLast hne).filesz - 1 =
          ((compute_disps (compute_regions g)).getLast hne).offset +
          ((compute_disps (compute_regions g)).getLast hne).filesz - 1 -
          ((compute_disps (compute_regions g)).getLast hne).disp := by omega
      rw [he]; exact this
    · intro y hy
      by_contra hlt
      apply hy
      apply o3
      intro r hr hc
      have := placed_from_last _ 0 hpl _ (List.getLast?_eq_getLast _ hne) r hr
      omega

/-- C11, witness: two segments a megabyte apart in a file of 0x100400 bytes. -/
theorem output_not_larger_witness :
    read_hdrs 0 (some (example_ehdr 52 2)) (some two_segments) = .ok two_segment_hdrs ∧
    hdrs_ok two_segment_hdrs ∧
    (∀ s ∈ retained_ranges two_segment_hdrs, s.1 + s.2 < 4294967296) ∧
    (∀ x, (fun y => if y < 0x100400 then some (y % 251) else none) x ≠ none ↔
      x < 0x100400) ∧
    (∀ s ∈ retained_ranges two_segment_hdrs, s.1 + s.2 ≤ 0x100400) ∧
    (∀ r ∈ compute_disps (compute_regions two_segment_hdrs), r.toffset ≤ r.offset) ∧
    ∃ l, (compute_disps (compute_regions two_segment_hdrs)).getLast? = some l ∧
      l.toffset + l.filesz ≤ 0x100400 ∧
      ∃ out, strip_file 4294967296 0 two_segment_hdrs
          (fun y => if y < 0x100400 then some (y % 251) else none) = some (Except.ok out) ∧
        out (l.toffset + l.filesz - 1) ≠ none ∧
        ∀ y, out y ≠ none → y < l.toffset + l.filesz :=
  ⟨rfl, by decide, by decide, fun x => by simp, by decide,
   output_not_larger 0 (some (example_ehdr 52 2)) (some two_segments) two_segment_hdrs rfl
     (by decide) (by decide) 4294967296 (le_refl _) _ 0x100400 (fun x => by simp)
     (by decide)⟩

/-- C11, counterexample: every retained range has offset + size <= 2^32 and lies inside
a file of `2^32` bytes; the first segment ends exactly at `2^32`, so its 32-bit end is 0
and the second segment, which lies inside it, gets a region of its own.  That region
has offset 0x80000100 and is placed at `toffset` 0x80001100, after its input offset. -/
theorem output_boundary_counterexample :
    read_hdrs 0 (some (example_ehdr 52 2)) (some overlapped_segments) = .ok overlapped_hdrs ∧
    hdrs_ok overlapped_hdrs ∧
    (∀ s ∈ retained_ranges overlapped_hdrs, s.1 + s.2 ≤ 4294967296) ∧
    (∃ r ∈ compute_disps (compute_regions overlapped_hdrs),
      r.offset = 0x80000100 ∧ r.toffset = 0x80001100) ∧
    ¬ (∀ r ∈ compute_disps (compute_regions overlapped_hdrs), r.toffset ≤ r.offset) := by
  refine ⟨rfl, by decide, by decide, by decide, by decide⟩

/-! ## C12: what read_hdrs accepts -/

/-- For the three values of the macro `ENDIAN`, the conditions of the specification are
the checks of `read_hdrs`. -/
theorem acceptable_iff_checks {ENDIAN : Int} (hE : ENDIAN = 0 ∨ ENDIAN = 1 ∨ ENDIAN = -1)
    (h : Elf32_Ehdr) : acceptable ENDIAN h ↔ header_checks ENDIAN h := by
  unfold acceptable header_checks host_encoding elfdata2
  rcases hE with rfl | rfl | rfl
  · simp [SELFMAG, ELFMAG]
  · simp [SELFMAG, ELFMAG]
  · simp [SELFMAG, ELFMAG]

/-- A file header that fails one of the checks is a format error, whatever the second
read would return. -/
theorem read_hdrs_reject {ENDIAN : Int} {h : Elf32_Ehdr} (hc : ¬ header_checks ENDIAN h)
    (rd_phdr : Option (List Elf32_Phdr)) :
    read_hdrs ENDIAN (some h) rd_phdr = .error 100 := by
  unfold header_checks at hc
  unfold read_hdrs
  simp only []
  by_cases c1 : h.e_ident.take SELFMAG = ELFMAG
  · by_cases c2 : h.e_ident.getD EI_CLASS 0 = ELFCLASS32
    · by_cases c3 : ENDIAN < 0
      · simp only [ne_eq, c1, c2, c3, not_true_eq_false, not_false_eq_true, if_true, if_false]
      · by_cases c4 : h.e_ident.getD EI_DATA 0 = elfdata2 ENDIAN
        · by_cases c5 : h.e_ident.getD EI_VERSION 0 = EV_CURRENT
          · by_cases c6 : h.e_version = EV_CURRENT
            · by_cases c7 : h.e_phoff = 0
              · simp only [ne_eq, c1, c2, c3, c4, c5, c6, c7, not_true_eq_false,
                  not_false_eq_true, if_true, if_false]
              · by_cases c8 : h.e_phentsize = SIZEOF_PHDR
                · by_cases c9 : h.e_phnum = 0
                  · simp only [ne_eq, c1, c2, c3, c4, c5, c6, c7, c8, c9, not_true_eq_false,
                      not_false_eq_true, if_true, if_false]
                  · exact absurd ⟨c1, c2, c3, c4, c5, c6, c7, c8, c9⟩ hc
                · simp only [ne_eq, c1, c2, c3, c4, c5, c6, c7, c8, not_true_eq_false,
                    not_false_eq_true, if_true, if_false]
            · simp only [ne_eq, c1, c2, c3, c4, c5, c6, not_true_eq_false,
                not_false_eq_true, if_true, if_false]
          · simp only [ne_eq, c1, c2, c3, c4, c5, not_true_eq_false,
              not_false_eq_true, if_true, if_false]
        · simp only [ne_eq, c1, c2, c3, c4, not_true_eq_false, not_false_eq_true, if_true, if_false]
    · simp only [ne_eq, c1, c2, not_true_eq_false, not_false_eq_true, if_true, if_false]
  · simp only [ne_eq, c1, not_true_eq_false, not_false_eq_true, if_true, if_false]

/-- The result of `read_hdrs` after a complete first read, in closed form. -/
theorem read_hdrs_closed (ENDIAN : Int) (h : Elf32_Ehdr) (rd_phdr : Option (List Elf32_Phdr)) :
    read_hdrs ENDIAN (some h) rd_phdr =
      if header_checks ENDIAN h then
        match rd_phdr with
        | none => Except.error 111
        | some t =>
          if t.length < h.e_phnum then Except.error 111
          else Except.ok { ehdr := h, phdr := t.take h.e_phnum, ph_offset := h.e_phoff,
                           ph_filesz := (h.e_phentsize * h.e_phnum) % 4294967296 }
      else Except.error 100 := by
  by_cases hc : header_checks ENDIAN h
  · rw [if_pos hc]
    obtain ⟨c1, c2, c3, c4, c5, c6, c7, c8, c9⟩ := hc
    unfold read_hdrs
    simp only [ne_eq, c1, c2, c3, c4, c5, c6, c7, c8, c9, not_true_eq_false,
      not_false_eq_true, if_true, if_false]
  · rw [if_neg hc]
    exact read_hdrs_reject hc rd_phdr

/-- The warnings of `read_hdrs` for a file header that passes the checks. -/
theorem read_hdrs_warnings_of_checks {ENDIAN : Int} {h : Elf32_Ehdr}
    (hc : header_checks ENDIAN h) :
    read_hdrs_warnings ENDIAN (some h) =
      if h.e_type ≠ ET_EXEC then [warning.not_an_executable] else [] := by
  obtain ⟨c1, c2, c3, c4, c5, c6, c7, c8, c9⟩ := hc
  unfold read_hdrs_warnings
  simp only [ne_eq, c1, c2, c3, c4, c5, not_true_eq_false, not_false_eq_true, if_true,
    if_false]

/-- A loop whose step commutes with a change `A` of the state commutes with it. -/
theorem foldlM_commute {σ ι : Type} (A : σ → σ) (step : σ → ι → Except Nat σ)
    (hstep : ∀ st i, step (A st) i = (step st i).map A) :
    ∀ (is : List ι) (st : σ), is.foldlM step (A st) = (is.foldlM step st).map A := by
  intro is
  induction is with
  | nil => intro st; rfl
  | cons i rest ih =>
    intro st
    simp only [List.foldlM_cons, hstep]
    cases step st i with
    | error e => rfl
    | ok st' => exact ih st'

/-- The type tag is not read by `modify_hdrs`. -/
theorem modify_hdrs_with_type (ty : Nat) (R : List region) (g : hdrs) :
    modify_hdrs R (with_type ty g) = (modify_hdrs R g).map (with_type ty) := by
  have hstep : ∀ st i, modify_hdrs_iter R (with_type ty st) i =
      (modify_hdrs_iter R st i).map (with_type ty) := by
    intro st i
    unfold modify_hdrs_iter
    by_cases hi : i = -1
    · simp only [hi, if_true]
      show (match find_region R st.ph_offset st.ph_filesz with
        | none => Except.error 101
        | some p => Except.ok _) = _
      cases find_region R st.ph_offset st.ph_filesz <;> rfl
    · simp only [hi, if_false]
      show (match st.phdr[i.toNat]? with
        | none => Except.ok (with_type ty st)
        | some ph => _) = _
      cases st.phdr[i.toNat]? with
      | none => rfl
      | some ph =>
        simp only []
        by_cases hc : ph.p_type = PT_NULL ∨ ph.p_filesz = 0
        · simp only [hc, if_true]; rfl
        · simp only [hc, if_false]
          cases find_region R ph.p_offset ph.p_filesz <;> rfl
  exact foldlM_commute (with_type ty) (modify_hdrs_iter R) hstep
    (long_range (-1) g.ehdr.e_phnum)
    { g with ehdr := { g.ehdr with e_shoff := 0, e_shentsize := 0, e_shnum := 0,
                                   e_shstrndx := 0 } }

/-- Whether a run of the copier returns, and with which status, does not depend on the
memory images of the headers nor on the output written before. -/
theorem copy_blocks_status (M : Nat) (input : Nat → Option Nat) (e1 p1 e2 p2 : List Nat)
    (o f : Nat) (fuel : Nat) :
    ∀ (thisoff toread inpos outpos : Nat) (out1 out2 : Nat → Option Nat),
    (copy_blocks M input e1 p1 o f fuel thisoff toread inpos outpos out1).map
        (Except.map (fun _ => ())) =
      (copy_blocks M input e2 p2 o f fuel thisoff toread inpos outpos out2).map
        (Except.map (fun _ => ())) := by
  induction fuel with
  | zero =>
    intro thisoff toread inpos outpos out1 out2
    by_cases h0 : toread > 0
    · simp [copy_blocks, h0]
    · simp [copy_blocks, h0]; rfl
  | succ fuel ih =>
    intro thisoff toread inpos outpos out1 out2
    by_cases h0 : toread > 0
    · rw [copy_blocks, copy_blocks]
      simp only [if_pos h0]
      cases allread input inpos (if toread > BUFSIZE then BUFSIZE else toread) with
      | none => rfl
      | some buf => exact ih _ _ _ _ _ _
    · simp [copy_blocks, h0]; rfl

/-- The same for the outer loop of `process_file`. -/
theorem copy_regions_status (M : Nat) (input : Nat → Option Nat) (e1 p1 e2 p2 : List Nat)
    (o f : Nat) (R : List region) :
    ∀ (out1 out2 : Nat → Option Nat),
    (copy_regions M input e1 p1 o f R out1).map (Except.map (fun _ => ())) =
      (copy_regions M input e2 p2 o f R out2).map (Except.map (fun _ => ())) := by
  induction R with
  | nil => intro out1 out2; rfl
  | cons p rest ih =>
    intro out1 out2
    have hb := copy_blocks_status M input e1 p1 e2 p2 o f p.filesz p.offset p.filesz
      p.offset p.toffset out1 out2
    simp only [copy_regions]
    cases h1 : copy_blocks M input e1 p1 o f p.filesz p.offset p.filesz p.offset
        p.toffset out1 with
    | none =>
      cases h2 : copy_blocks M input e2 p2 o f p.filesz p.offset p.filesz p.offset
          p.toffset out2 with
      | none => rfl
      | some b => rw [h1, h2] at hb; exact absurd hb (by simp)
    | some a =>
      cases h2 : copy_blocks M input e2 p2 o f p.filesz p.offset p.filesz p.offset
          p.toffset out2 with
      | none => rw [h1, h2] at hb; exact absurd hb (by simp)
      | some b =>
        rw [h1, h2] at hb
        cases a with
        | error ea =>
          cases b with
          | error eb => exact hb
          | ok ob => simp [Except.map] at hb
        | ok oa =>
          cases b with
          | error eb => simp [Except.map] at hb
          | ok ob => exact ih oa ob

/-- The type tag is not read by `read_hdrs` beyond the warning. -/
theorem read_hdrs_with_type (ENDIAN : Int) (ty : Nat) (h : Elf32_Ehdr)
    (rd_phdr : Option (List Elf32_Phdr)) :
    read_hdrs ENDIAN (some { h with e_type := ty }) rd_phdr =
      (read_hdrs ENDIAN (some h) rd_phdr).map (with_type ty) := by
  rw [read_hdrs_closed, read_hdrs_closed]
  by_cases hc : header_checks ENDIAN h
  · rw [if_pos hc, if_pos (show header_checks ENDIAN { h with e_type := ty } from hc)]
    cases rd_phdr with
    | none => rfl
    | some t =>
      simp only []
      by_cases hl : t.length < h.e_phnum
      · rw [if_pos hl, if_pos hl]; rfl
      · rw [if_neg hl, if_neg hl]; rfl
  · rw [if_neg hc, if_neg (show ¬ header_checks ENDIAN { h with e_type := ty } from hc)]
    rfl

/-- The exit status of `main`, the region list and whether the temporary file was created
do not depend on the type tag. -/
theorem main_with_type (M : Nat) (ENDIAN : Int) (argc ty : Nat) (h : Elf32_Ehdr)
    (rd_phdr : Option (List Elf32_Phdr)) (input : Nat → Option Nat) :
    (main M ENDIAN argc (some { h with e_type := ty }) rd_phdr input).map
        (fun s => (s.status, s.first_region, s.created)) =
      (main M ENDIAN argc (some h) rd_phdr input).map
        (fun s => (s.status, s.first_region, s.created)) := by
  unfold main
  by_cases ha : argc < 2
  · rw [if_pos ha, if_pos ha]
  · rw [if_neg ha, if_neg ha, read_hdrs_with_type]
    cases read_hdrs ENDIAN (some h) rd_phdr with
    | error e => rfl
    | ok g =>
      simp only [Except.map]
      have hr : compute_regions (with_type ty g) = compute_regions g := rfl
      rw [hr, modify_hdrs_with_type]
      cases modify_hdrs (compute_disps (compute_regions g)) g with
      | error e => rfl
      | ok g' =>
        simp only [Except.map]
        have hs := copy_regions_status M input (ehdr_image ENDIAN (with_type ty g').ehdr)
          (phdr_image ENDIAN (with_type ty g').phdr) (ehdr_image ENDIAN g'.ehdr)
          (phdr_image ENDIAN g'.phdr) g'.ph_offset g'.ph_filesz
          (compute_disps (compute_regions g)) (fun _ => none) (fun _ => none)
        have e1 : process_file M ENDIAN (compute_disps (compute_regions g))
            (with_type ty g') input =
          copy_regions M input (ehdr_image ENDIAN (with_type ty g').ehdr)
          (phdr_image ENDIAN (with_type ty g').phdr) g'.ph_offset g'.ph_filesz
          (compute_disps (compute_regions g)) (fun _ => none) := rfl
        have e2 : process_file M ENDIAN (compute_disps (compute_regions g)) g' input =
          copy_regions M input (ehdr_image ENDIAN g'.ehdr)
          (phdr_image ENDIAN g'.phdr) g'.ph_offset g'.ph_filesz
          (compute_disps (compute_regions g)) (fun _ => none) := rfl
        rw [← e1, ← e2] at hs
        cases h1 : process_file M ENDIAN (compute_disps (compute_regions g))
            (with_type ty g') input with
        | none =>
          cases h2 : process_file M ENDIAN (compute_disps (compute_regions g)) g' input with
          | none => rfl
          | some b => rw [h1, h2] at hs; exact absurd hs (by simp)
        | some a =>
          cases h2 : process_file M ENDIAN (compute_disps (compute_regions g)) g' input with
          | none => rw [h1, h2] at hs; exact absurd hs (by simp)
          | some b =>
            rw [h1, h2] at hs
            cases a with
            | error ea =>
              cases b with
              | error eb =>
                simp only [Option.map_some', Except.map, Option.some.injEq,
                  Except.error.injEq] at hs
                subst hs; rfl
              | ok ob => simp [Except.map] at hs
            | ok oa =>
              cases b with
              | error eb => simp [Except.map] at hs
              | ok ob => rfl

/-- C12: for the three values of the macro `ENDIAN` and a complete first read,
`read_hdrs` accepts the file header (given a complete second read) if and only if the
magic, class, data encoding, identification version, `e_version`, `e_phoff`,
`e_phentsize` and `e_phnum` are as the specification lists them; a header that violates
one of them ends `read_hdrs` with exit status 100, and `main` exits with that status with
no region computed and no temporary file created; an accepted header prints the warning
of line 149 exactly when `e_type` is not `ET_EXEC`; and another `e_type` changes neither
the result of `read_hdrs` (apart from the field itself), nor the exit status of `main`,
the region list with its displacements and the creation of the output, nor the result of
`compute_regions` and `modify_hdrs`. -/
theorem read_hdrs_accepts_iff (ENDIAN : Int) (hE : ENDIAN = 0 ∨ ENDIAN = 1 ∨ ENDIAN = -1)
    (h : Elf32_Ehdr) :
    (∀ t : List Elf32_Phdr, h.e_phnum ≤ t.length →
      ((∃ g, read_hdrs ENDIAN (some h) (some t) = Except.ok g) ↔ acceptable ENDIAN h)) ∧
    (¬ acceptable ENDIAN h → ∀ rd_phdr : Option (List Elf32_Phdr),
      read_hdrs ENDIAN (some h) rd_phdr = Except.error 100 ∧
      ∀ (SIZE_MOD argc : Nat) (input : Nat → Option Nat), 2 ≤ argc →
        main SIZE_MOD ENDIAN argc (some h) rd_phdr input =
          some { status := 100, first_region := [], created := false, file := input }) ∧
    (acceptable ENDIAN h →
      read_hdrs_warnings ENDIAN (some h) =
        if h.e_type ≠ ET_EXEC then [warning.not_an_executable] else []) ∧
    (∀ (ty : Nat) (rd_phdr : Option (List Elf32_Phdr)),
      read_hdrs ENDIAN (some { h with e_type := ty }) rd_phdr =
        (read_hdrs ENDIAN (some h) rd_phdr).map (with_type ty) ∧
      ∀ (SIZE_MOD argc : Nat) (input : Nat → Option Nat),
        (main SIZE_MOD ENDIAN argc (some { h with e_type := ty }) rd_phdr input).map
            (fun s => (s.status, s.first_region, s.created)) =
          (main SIZE_MOD ENDIAN argc (some h) rd_phdr input).map
            (fun s => (s.status, s.first_region, s.created))) ∧
    (∀ (ty : Nat) (g : hdrs), compute_regions (with_type ty g) = compute_regions g ∧
      ∀ R : List region,
        modify_hdrs R (with_type ty g) = (modify_hdrs R g).map (with_type ty)) := by
  have hiff := acceptable_iff_checks hE h
  refine ⟨fun t ht => ?_, fun hna rd_phdr => ?_, fun ha => ?_, fun ty rd_phdr => ?_,
    fun ty g => ⟨rfl, fun R => modify_hdrs_with_type ty R g⟩⟩
  · rw [read_hdrs_closed]
    constructor
    · rintro ⟨g, hg⟩
      by_cases hc : header_checks ENDIAN h
      · exact hiff.mpr hc
      · rw [if_neg hc] at hg; exact absurd hg (by simp)
    · intro ha
      rw [if_pos (hiff.mp ha)]
      simp only [if_neg (not_lt.mpr ht)]
      exact ⟨_, rfl⟩
  · have hr := read_hdrs_reject (fun hc => hna (hiff.mpr hc)) rd_phdr
    refine ⟨hr, fun M argc input ha => ?_⟩
    unfold main
    rw [if_neg (by omega), hr]
  · exact read_hdrs_warnings_of_checks (hiff.mp ha)
  · exact ⟨read_hdrs_with_type ENDIAN ty h rd_phdr,
      fun M argc input => main_with_type M ENDIAN argc ty h rd_phdr input⟩

/-- C12, witness: a little-endian host and the file header of the two-segment example. -/
theorem read_hdrs_accepts_iff_witness :
    ((0 : Int) = 0 ∨ (0 : Int) = 1 ∨ (0 : Int) = -1) ∧
    (∀ t : List Elf32_Phdr, (example_ehdr 52 2).e_phnum ≤ t.length →
      ((∃ g, read_hdrs 0 (some (example_ehdr 52 2)) (some t) = Except.ok g) ↔
        acceptable 0 (example_ehdr 52 2))) ∧
    (¬ acceptable 0 (example_ehdr 52 2) → ∀ rd_phdr : Option (List Elf32_Phdr),
      read_hdrs 0 (some (example_ehdr 52 2)) rd_phdr = Except.error 100 ∧
      ∀ (SIZE_MOD argc : Nat) (input : Nat → Option Nat), 2 ≤ argc →
        main SIZE_MOD 0 argc (some (example_ehdr 52 2)) rd_phdr input =
          some { status := 100, first_region := [], created := false, file := input }) ∧
    (acceptable 0 (example_ehdr 52 2) →
      read_hdrs_warnings 0 (some (example_ehdr 52 2)) =
        if (example_ehdr 52 2).e_type ≠ ET_EXEC then [warning.not_an_executable] else []) ∧
    (∀ (ty : Nat) (rd_phdr : Option (List Elf32_Phdr)),
      read_hdrs 0 (some { example_ehdr 52 2 with e_type := ty }) rd_phdr =
        (read_hdrs 0 (some (example_ehdr 52 2)) rd_phdr).map (with_type ty) ∧
      ∀ (SIZE_MOD argc : Nat) (input : Nat → Option Nat),
        (main SIZE_MOD 0 argc (some { example_ehdr 52 2 with e_type := ty }) rd_phdr
            input).map (fun s => (s.status, s.first_region, s.created)) =
          (main SIZE_MOD 0 argc (some (example_ehdr 52 2)) rd_phdr input).map
            (fun s => (s.status, s.first_region, s.created))) ∧
    (∀ (ty : Nat) (g : hdrs), compute_regions (with_type ty g) = compute_regions g ∧
      ∀ R : List region,
        modify_hdrs R (with_type ty g) = (modify_hdrs R g).map (with_type ty)) :=
  ⟨Or.inl rfl, read_hdrs_accepts_iff 0 (Or.inl rfl) (example_ehdr 52 2)⟩

/-! ## C13: the header splices of a block -/

/-- The copy from the file header (lines 440-449) stays in bounds and replaces exactly
the overlap of the block with the file header range. -/
theorem ehdr_splice_exact (thisoff thisread : Nat) :
    splice_in_bounds SIZEOF_EHDR thisread (ehdr_splice thisoff thisread) ∧
    exact_overlap 0 SIZEOF_EHDR thisoff thisread (ehdr_splice thisoff thisread) := by
  unfold ehdr_splice
  by_cases h : thisoff < SIZEOF_EHDR
  · rw [if_pos h]
    simp only [splice_in_bounds, exact_overlap]
    constructor
    · split_ifs <;> omega
    · intro k hk
      split_ifs <;> constructor <;> omega
  · rw [if_neg h]
    simp only [splice_in_bounds, exact_overlap, true_and]
    intro k hk
    omega

/-- The copy from the descriptor table (lines 475-492) stays in bounds, also when the
32-bit sum `ph_offset + ph_filesz` wraps. -/
theorem phdr_splice_bounds (M ph_offset ph_filesz thisoff thisread : Nat)
    (ho : ph_offset < 4294967296) (hf : ph_filesz < 4294967296) :
    splice_in_bounds ph_filesz thisread
      (phdr_splice ph_offset ph_filesz thisoff thisread ((thisoff + thisread) % M)) := by
  unfold phdr_splice
  have hm : (thisoff + thisread) % M ≤ thisoff + thisread := Nat.mod_le _ _
  by_cases h : thisoff < add32 ph_offset ph_filesz ∧ ph_offset < (thisoff + thisread) % M
  · rw [if_pos h]
    obtain ⟨h1, h2⟩ := h
    simp only [add32] at h1
    simp only [splice_in_bounds]
    by_cases h3 : thisoff < ph_offset
    · simp only [if_pos h3]
      split_ifs <;> omega
    · simp only [if_neg h3]
      split_ifs <;> omega
  · rw [if_neg h]
    trivial

/-- Without wrap, the copy from the descriptor table replaces exactly the overlap of the
block with the table range. -/
theorem phdr_splice_exact (M ph_offset ph_filesz thisoff thisread : Nat)
    (hph : ph_offset + ph_filesz < 4294967296) (hb : thisoff + thisread < M) :
    exact_overlap ph_offset ph_filesz thisoff thisread
      (phdr_splice ph_offset ph_filesz thisoff thisread ((thisoff + thisread) % M)) := by
  unfold phdr_splice
  rw [Nat.mod_eq_of_lt hb]
  have ha : add32 ph_offset ph_filesz = ph_offset + ph_filesz := by
    unfold add32; exact Nat.mod_eq_of_lt hph
  rw [ha]
  by_cases h : thisoff < ph_offset + ph_filesz ∧ ph_offset < thisoff + thisread
  · rw [if_pos h]
    obtain ⟨h1, h2⟩ := h
    simp only [exact_overlap]
    intro k hk
    by_cases h3 : thisoff < ph_offset
    · simp only [if_pos h3]
      split_ifs <;> constructor <;> omega
    · simp only [if_neg h3]
      split_ifs <;> constructor <;> omega
  · rw [if_neg h]
    simp only [exact_overlap]
    intro k hk
    omega

/-- The bytes of the buffer after a copy that replaces exactly the overlap. -/
theorem apply_splice_exact {lo size thisoff thisread : Nat} {sp : Option (Nat × Nat × Nat)}
    (h : exact_overlap lo size thisoff thisread sp) (buf src : List Nat)
    (hbuf : buf.length = thisread) :
    (apply_splice buf src sp).length = thisread ∧
    ∀ k, k < thisread → (apply_splice buf src sp).getD k 0 =
      if lo ≤ thisoff + k ∧ thisoff + k < lo + size then src.getD (thisoff + k - lo) 0
      else buf.getD k 0 := by
  cases sp with
  | none =>
    simp only [apply_splice]
    refine ⟨hbuf, fun k hk => ?_⟩
    rw [if_neg (h k hk)]
  | some t =>
    obtain ⟨posa, posb, len⟩ := t
    simp only [apply_splice]
    refine ⟨by rw [byte_copy_length, hbuf], fun k hk => ?_⟩
    obtain ⟨h1, h2⟩ := h k hk
    unfold byte_copy
    rw [List.getD_eq_getElem?_getD, List.getElem?_map,
      List.getElem?_range (by rw [hbuf]; exact hk)]
    simp only [Option.map_some', Option.getD_some]
    by_cases hc : posb ≤ k ∧ k < posb + len
    · rw [if_pos hc, if_pos (h1.mp hc), h2 hc]
    · rw [if_neg hc, if_neg (fun hh => hc (h1.mpr hh))]

/-- C13 (amended): for every block `[thisoff, thisoff + thisread)` of `process_file` and
32-bit `ph_offset`, `ph_filesz`: the copy from the file header and the copy from the
descriptor table stay in bounds (`posb + len <= thisread`, `posa + len <=` size of that
header); the copy from the file header overwrites exactly the buffer positions whose
input offset lies in the intersection of the block with the file header range, each
with the header byte at the matching position; and so does the copy from the table for
the table range, when the table ends below `2^32` and `thisoff + thisread` does not wrap
`size_t`.  The last two conjuncts give the bytes of the buffer after each copy. -/
theorem splice_exact_overlap (SIZE_MOD ph_offset ph_filesz thisoff thisread : Nat)
    (ho : ph_offset < 4294967296) (hf : ph_filesz < 4294967296) :
    splice_in_bounds SIZEOF_EHDR thisread (ehdr_splice thisoff thisread) ∧
    exact_overlap 0 SIZEOF_EHDR thisoff thisread (ehdr_splice thisoff thisread) ∧
    splice_in_bounds ph_filesz thisread
      (phdr_splice ph_offset ph_filesz thisoff thisread
        ((thisoff + thisread) % SIZE_MOD)) ∧
    (ph_offset + ph_filesz < 4294967296 → thisoff + thisread < SIZE_MOD →
      exact_overlap ph_offset ph_filesz thisoff thisread
        (phdr_splice ph_offset ph_filesz thisoff thisread
          ((thisoff + thisread) % SIZE_MOD))) ∧
    (∀ buf src : List Nat, buf.length = thisread → ∀ k, k < thisread →
      (apply_splice buf src (ehdr_splice thisoff thisread)).getD k 0 =
        if 0 ≤ thisoff + k ∧ thisoff + k < 0 + SIZEOF_EHDR
        then src.getD (thisoff + k - 0) 0 else buf.getD k 0) ∧
    (ph_offset + ph_filesz < 4294967296 → thisoff + thisread < SIZE_MOD →
      ∀ buf src : List Nat, buf.length = thisread → ∀ k, k < thisread →
        (apply_splice buf src (phdr_splice ph_offset ph_filesz thisoff thisread
            ((thisoff + thisread) % SIZE_MOD))).getD k 0 =
          if ph_offset ≤ thisoff + k ∧ thisoff + k < ph_offset + ph_filesz
          then src.getD (thisoff + k - ph_offset) 0 else buf.getD k 0) :=
  ⟨(ehdr_splice_exact thisoff thisread).1, (ehdr_splice_exact thisoff thisread).2,
   phdr_splice_bounds SIZE_MOD ph_offset ph_filesz thisoff thisread ho hf,
   fun hph hb => phdr_splice_exact SIZE_MOD ph_offset ph_filesz thisoff thisread hph hb,
   fun buf src hbuf =>
     (apply_splice_exact (ehdr_splice_exact thisoff thisread).2 buf src hbuf).2,
   fun hph hb buf src hbuf =>
     (apply_splice_exact
       (phdr_splice_exact SIZE_MOD ph_offset ph_filesz thisoff thisread hph hb)
       buf src hbuf).2⟩

/-- C13, witness: a table of 300 entries (9600 bytes, more than `BUFSIZE`) that starts
at offset 8000, inside the first block of 8192 bytes. -/
theorem splice_exact_overlap_witness :
    (8000 < 4294967296 ∧ 9600 < 4294967296) ∧
    splice_in_bounds SIZEOF_EHDR 8192 (ehdr_splice 0 8192) ∧
    exact_overlap 0 SIZEOF_EHDR 0 8192 (ehdr_splice 0 8192) ∧
    splice_in_bounds 9600 8192
      (phdr_splice 8000 9600 0 8192 ((0 + 8192) % 4294967296)) ∧
    (8000 + 9600 < 4294967296 → 0 + 8192 < 4294967296 →
      exact_overlap 8000 9600 0 8192
        (phdr_splice 8000 9600 0 8192 ((0 + 8192) % 4294967296))) ∧
    (∀ buf src : List Nat, buf.length = 8192 → ∀ k, k < 8192 →
      (apply_splice buf src (ehdr_splice 0 8192)).getD k 0 =
        if 0 ≤ 0 + k ∧ 0 + k < 0 + SIZEOF_EHDR
        then src.getD (0 + k - 0) 0 else buf.getD k 0) ∧
    (8000 + 9600 < 4294967296 → 0 + 8192 < 4294967296 →
      ∀ buf src : List Nat, buf.length = 8192 → ∀ k, k < 8192 →
        (apply_splice buf src (phdr_splice 8000 9600 0 8192
            ((0 + 8192) % 4294967296))).getD k 0 =
          if 8000 ≤ 0 + k ∧ 0 + k < 8000 + 9600
          then src.getD (0 + k - 8000) 0 else buf.getD k 0) :=
  ⟨⟨by decide, by decide⟩,
   splice_exact_overlap 4294967296 8000 9600 0 8192 (by decide) (by decide)⟩

/-- C13, counterexample: the table of `table_at_end` ends exactly at `2^32`, and its
region is copied in one block of 32 bytes that starts at offset 0xFFFFFFE0.  The 32-bit
sum `ph_offset + ph_filesz` is 0, so the test of line 475 fails and no byte of the block
is replaced, although every byte of the block lies in the table range (here with a
64-bit `size_t`). -/
theorem splice_boundary_counterexample :
    read_hdrs 0 (some (example_ehdr 0xFFFFFFE0 1)) (some [example_phdr 1 0 52])
      = .ok table_at_end ∧
    hdrs_ok table_at_end ∧
    (∃ r ∈ compute_disps (compute_regions table_at_end),
      r.offset = 0xFFFFFFE0 ∧ r.filesz = 32) ∧
    (1 ≤ 32 ∧ 32 ≤ BUFSIZE) ∧
    phdr_splice table_at_end.ph_offset table_at_end.ph_filesz 0xFFFFFFE0 32
      ((0xFFFFFFE0 + 32) % 18446744073709551616) = none ∧
    ¬ exact_overlap table_at_end.ph_offset table_at_end.ph_filesz 0xFFFFFFE0 32
      (phdr_splice table_at_end.ph_offset table_at_end.ph_filesz 0xFFFFFFE0 32
        ((0xFFFFFFE0 + 32) % 18446744073709551616)) := by
  refine ⟨rfl, by decide, by decide, by decide, by decide, ?_⟩
  have h : phdr_splice table_at_end.ph_offset table_at_end.ph_filesz 0xFFFFFFE0 32
      ((0xFFFFFFE0 + 32) % 18446744073709551616) = none := by decide
  rw [h]
  intro hx
  exact hx 0 (by decide) (by decide)

/-! ## C14: ranges that overlap or touch move together -/

/-- Every region after `compute_disps` is a region of the list before it, with its
offset and size. -/
theorem compute_disps_origin {L : List region} {r : region} (hr : r ∈ compute_disps L) :
    ∃ r0 ∈ L, r0.offset = r.offset ∧ r0.filesz = r.filesz := by
  have h1 : (r.offset, r.filesz) ∈ (compute_disps L).map (fun r => (r.offset, r.filesz)) :=
    List.mem_map.mpr ⟨r, hr, rfl⟩
  rw [compute_disps_same_ranges] at h1
  obtain ⟨r0, h2, h3⟩ := List.mem_map.mp h1
  simp only [Prod.mk.injEq] at h3
  exact ⟨r0, h2, h3.1, h3.2⟩

/-- Without wrap, two retained ranges that overlap or touch are found in the same
region by the search of `modify_hdrs`. -/
theorem touching_same_region {ENDIAN : Int} {rd_ehdr : Option Elf32_Ehdr}
    {rd_phdr : Option (List Elf32_Phdr)} {g : hdrs}
    (hacc : read_hdrs ENDIAN rd_ehdr rd_phdr = .ok g) (hok : hdrs_ok g)
    (hnw : ∀ s ∈ retained_ranges g, s.1 + s.2 < 4294967296)
    {s t : Nat × Nat} (hs : s ∈ retained_ranges g) (ht : t ∈ retained_ranges g)
    (hst : touching s t) :
    ∃ r ∈ compute_disps (compute_regions g),
      find_region (compute_disps (compute_regions g)) s.1 s.2 = some r ∧
      find_region (compute_disps (compute_regions g)) t.1 t.2 = some r ∧
      contains_range r s ∧ contains_range r t ∧ r.disp ≤ s.1 ∧ r.disp ≤ t.1 := by
  have hR : ok_from 0 (compute_disps (compute_regions g)) :=
    compute_disps_from_ok _ 0 0
      (foldl_iter_ok hacc hok hnw (long_range (-2) g.ehdr.e_phnum) [] trivial).1
  obtain ⟨r, r1, r2, r3, r4, r5, r6⟩ := retained_found hacc hok hnw hs
  obtain ⟨r', q1, q2, q3, q4, q5, q6⟩ := retained_found hacc hok hnw ht
  obtain ⟨h1, h2⟩ := hst
  obtain ⟨a1, a2⟩ := r3
  obtain ⟨b1, b2⟩ := q3
  have he : r = r' := by
    rcases regions_apart hR r2 q2 with h | h | h
    · exact h
    · omega
    · omega
  subst he
  exact ⟨r, r2, r1, q1, ⟨a1, a2⟩, ⟨b1, b2⟩, by omega, by omega⟩

/-- C14 (amended): for every accepted input in which every retained range has
offset + size < 2^32: if the table's range and the range of a descriptor (not null, not
empty), or the ranges of two such descriptors, overlap or touch, then one region of
`compute_regions` contains both, `modify_hdrs` subtracts the `disp` of that region from
both offsets, and the difference between the patched offsets equals the difference
between the original offsets. -/
theorem touching_same_disp (ENDIAN : Int) (rd_ehdr : Option Elf32_Ehdr)
    (rd_phdr : Option (List Elf32_Phdr)) (g : hdrs)
    (hacc : read_hdrs ENDIAN rd_ehdr rd_phdr = .ok g) (hok : hdrs_ok g)
    (hnw : ∀ s ∈ retained_ranges g, s.1 + s.2 < 4294967296) :
    ∃ g', modify_hdrs (compute_disps (compute_regions g)) g = Except.ok g' ∧
      (∀ (i : Nat) (ph : Elf32_Phdr), g.phdr[i]? = some ph →
        ph.p_type ≠ PT_NULL → ph.p_filesz ≠ 0 →
        touching (g.ehdr.e_phoff, g.ehdr.e_phentsize * g.ehdr.e_phnum)
          (ph.p_offset, ph.p_filesz) →
        ∃ r ∈ compute_disps (compute_regions g),
          (∃ r0 ∈ compute_regions g, r0.offset = r.offset ∧ r0.filesz = r.filesz) ∧
          contains_range r (g.ehdr.e_phoff, g.ehdr.e_phentsize * g.ehdr.e_phnum) ∧
          contains_range r (ph.p_offset, ph.p_filesz) ∧
          r.disp ≤ g.ehdr.e_phoff ∧ r.disp ≤ ph.p_offset ∧
          g'.ehdr.e_phoff = g.ehdr.e_phoff - r.disp ∧
          g'.phdr[i]? = some { ph with p_offset := ph.p_offset - r.disp } ∧
          ((g.ehdr.e_phoff - r.disp : Nat) : Int) - ((ph.p_offset - r.disp : Nat) : Int) =
            (g.ehdr.e_phoff : Int) - (ph.p_offset : Int)) ∧
      ∀ (i j : Nat) (ph ph' : Elf32_Phdr), g.phdr[i]? = some ph → g.phdr[j]? = some ph' →
        ph.p_type ≠ PT_NULL → ph.p_filesz ≠ 0 → ph'.p_type ≠ PT_NULL → ph'.p_filesz ≠ 0 →
        touching (ph.p_offset, ph.p_filesz) (ph'.p_offset, ph'.p_filesz) →
        ∃ r ∈ compute_disps (compute_regions g),
          (∃ r0 ∈ compute_regions g, r0.offset = r.offset ∧ r0.filesz = r.filesz) ∧
          contains_range r (ph.p_offset, ph.p_filesz) ∧
          contains_range r (ph'.p_offset, ph'.p_filesz) ∧
          r.disp ≤ ph.p_offset ∧ r.disp ≤ ph'.p_offset ∧
          g'.phdr[i]? = some { ph with p_offset := ph.p_offset - r.disp } ∧
          g'.phdr[j]? = some { ph' with p_offset := ph'.p_offset - r.disp } ∧
          ((ph.p_offset - r.disp : Nat) : Int) - ((ph'.p_offset - r.disp : Nat) : Int) =
            (ph.p_offset : Int) - (ph'.p_offset : Int) := by
  obtain ⟨f1, f2, f3, f4, f5, f6⟩ := read_hdrs_ok_facts hacc
  have hn : g.ehdr.e_phnum < 65536 := hok.1.2.2.2.2.2.2.2.2.2.2.2.1
  have hz : g.ph_filesz = g.ehdr.e_phentsize * g.ehdr.e_phnum := by
    rw [f6, f2, Nat.mod_eq_of_lt (by simp only [SIZEOF_PHDR]; omega)]
  obtain ⟨c1, c2⟩ := compute_regions_held hacc hok
  have htab : (g.ehdr.e_phoff, g.ehdr.e_phentsize * g.ehdr.e_phnum) ∈ retained_ranges g :=
    List.mem_cons_of_mem _ (List.mem_cons_self _ _)
  have hseg : ∀ (i : Nat) (ph : Elf32_Phdr), g.phdr[i]? = some ph →
      ph.p_type ≠ PT_NULL → ph.p_filesz ≠ 0 →
      (ph.p_offset, ph.p_filesz) ∈ retained_ranges g := by
    intro i ph hi h1 h2
    exact List.mem_cons_of_mem _ (List.mem_cons_of_mem _ (List.mem_map.mpr ⟨ph,
      List.mem_filter.mpr ⟨List.getElem?_mem hi, by simp [h1, h2]⟩, rfl⟩))
  have hpatch : ∀ (i : Nat) (ph : Elf32_Phdr) (r : region), g.phdr[i]? = some ph →
      ph.p_type ≠ PT_NULL → ph.p_filesz ≠ 0 →
      find_region (compute_disps (compute_regions g)) ph.p_offset ph.p_filesz = some r →
      r.disp ≤ ph.p_offset →
      (patched_hdrs (compute_disps (compute_regions g)) g).phdr[i]? =
        some { ph with p_offset := ph.p_offset - r.disp } := by
    intro i ph r hi h1 h2 hf hd
    have hlt : ph.p_offset < 4294967296 := (hok.2 ph (List.getElem?_mem hi)).2.1
    simp only [patched_hdrs, List.getElem?_map, hi, Option.map_some']
    rw [patched_phdr_found h1 h2 hf hd hlt]
  refine ⟨_, modify_hdrs_eq _ g f4 c1 c2, ?_, ?_⟩
  · intro i ph hi h1 h2 ht
    obtain ⟨r, r1, r2, r3, r4, r5, r6, r7⟩ :=
      touching_same_region hacc hok hnw htab (hseg i ph hi h1 h2) ht
    have hlt : g.ehdr.e_phoff < 4294967296 := hok.1.2.2.2.2.2.2.1
    simp only [] at r6 r7
    refine ⟨r, r1, compute_disps_origin r1, r4, r5, r6, r7, ?_,
      hpatch i ph r hi h1 h2 r3 r7, by omega⟩
    simp only [] at r2
    simp only [patched_hdrs, f5, hz, r2]
    exact sub32_of_le r6 hlt
  · intro i j ph ph' hi hj h1 h2 h1' h2' ht
    obtain ⟨r, r1, r2, r3, r4, r5, r6, r7⟩ :=
      touching_same_region hacc hok hnw (hseg i ph hi h1 h2) (hseg j ph' hj h1' h2') ht
    simp only [] at r6 r7
    exact ⟨r, r1, compute_disps_origin r1, r4, r5, r6, r7, hpatch i ph r hi h1 h2 r2 r6,
      hpatch j ph' r hj h1' h2' r3 r7, by omega⟩

/-- C14, witness: in the two-segment example the table lies inside the first segment. -/
theorem touching_same_disp_witness :
    read_hdrs 0 (some (example_ehdr 52 2)) (some two_segments) = .ok two_segment_hdrs ∧
    hdrs_ok two_segment_hdrs ∧
    (∀ s ∈ retained_ranges two_segment_hdrs, s.1 + s.2 < 4294967296) ∧
    (∃ ph, two_segment_hdrs.phdr[0]? = some ph ∧ ph.p_type ≠ PT_NULL ∧ ph.p_filesz ≠ 0 ∧
      touching (two_segment_hdrs.ehdr.e_phoff,
        two_segment_hdrs.ehdr.e_phentsize * two_segment_hdrs.ehdr.e_phnum)
        (ph.p_offset, ph.p_filesz)) ∧
    ∃ g', modify_hdrs (compute_disps (compute_regions two_segment_hdrs)) two_segment_hdrs
        = Except.ok g' ∧
      (∀ (i : Nat) (ph : Elf32_Phdr), two_segment_hdrs.phdr[i]? = some ph →
        ph.p_type ≠ PT_NULL → ph.p_filesz ≠ 0 →
        touching (two_segment_hdrs.ehdr.e_phoff,
          two_segment_hdrs.ehdr.e_phentsize * two_segment_hdrs.ehdr.e_phnum)
          (ph.p_offset, ph.p_filesz) →
        ∃ r ∈ compute_disps (compute_regions two_segment_hdrs),
          (∃ r0 ∈ compute_regions two_segment_hdrs,
            r0.offset = r.offset ∧ r0.filesz = r.filesz) ∧
          contains_range r (two_segment_hdrs.ehdr.e_phoff,
            two_segment_hdrs.ehdr.e_phentsize * two_segment_hdrs.ehdr.e_phnum) ∧
          contains_range r (ph.p_offset, ph.p_filesz) ∧
          r.disp ≤ two_segment_hdrs.ehdr.e_phoff ∧ r.disp ≤ ph.p_offset ∧
          g'.ehdr.e_phoff = two_segment_hdrs.ehdr.e_phoff - r.disp ∧
          g'.phdr[i]? = some { ph with p_offset := ph.p_offset - r.disp } ∧
          ((two_segment_hdrs.ehdr.e_phoff - r.disp : Nat) : Int) -
              ((ph.p_offset - r.disp : Nat) : Int) =
            (two_segment_hdrs.ehdr.e_phoff : Int) - (ph.p_offset : Int)) ∧
      ∀ (i j : Nat) (ph ph' : Elf32_Phdr), two_segment_hdrs.phdr[i]? = some ph →
        two_segment_hdrs.phdr[j]? = some ph' →
        ph.p_type ≠ PT_NULL → ph.p_filesz ≠ 0 → ph'.p_type ≠ PT_NULL → ph'.p_filesz ≠ 0 →
        touching (ph.p_offset, ph.p_filesz) (ph'.p_offset, ph'.p_filesz) →
        ∃ r ∈ compute_disps (compute_regions two_segment_hdrs),
          (∃ r0 ∈ compute_regions two_segment_hdrs,
            r0.offset = r.offset ∧ r0.filesz = r.filesz) ∧
          contains_range r (ph.p_offset, ph.p_filesz) ∧
          contains_range r (ph'.p_offset, ph'.p_filesz) ∧
          r.disp ≤ ph.p_offset ∧ r.disp ≤ ph'.p_offset ∧
          g'.phdr[i]? = some { ph with p_offset := ph.p_offset - r.disp } ∧
          g'.phdr[j]? = some { ph' with p_offset := ph'.p_offset - r.disp } ∧
          ((ph.p_offset - r.disp : Nat) : Int) - ((ph'.p_offset - r.disp : Nat) : Int) =
            (ph.p_offset : Int) - (ph'.p_offset : Int) :=
  ⟨rfl, by decide, by decide, ⟨_, rfl, by decide, by decide, by decide⟩,
   touching_same_disp 0 (some (example_ehdr 52 2)) (some two_segments) two_segment_hdrs rfl
     (by decide) (by decide)⟩

/-- C14, counterexample: the two segments of `overlapped_hdrs` overlap (the second lies
inside the first, which ends exactly at `2^32`), and every retained range has
offset + size <= 2^32.  `modify_hdrs` leaves the first `p_offset` at 0x80000000 (the
32-bit end of the segment is 0, so the test of line 388 passes for the first region,
whose `disp` is 0) and sets the second to 0x80001100: the patched offsets differ by
0x1100, the original ones by 0x100. -/
theorem touching_boundary_counterexample :
    read_hdrs 0 (some (example_ehdr 52 2)) (some overlapped_segments) = .ok overlapped_hdrs ∧
    hdrs_ok overlapped_hdrs ∧
    (∀ s ∈ retained_ranges overlapped_hdrs, s.1 + s.2 ≤ 4294967296) ∧
    overlapped_hdrs.phdr.map (fun ph => (ph.p_type, ph.p_offset, ph.p_filesz)) =
      [(1, 0x80000000, 0x80000000), (1, 0x80000100, 0x10)] ∧
    touching (0x80000000, 0x80000000) (0x80000100, 0x10) ∧
    ∃ g', modify_hdrs (compute_disps (compute_regions overlapped_hdrs)) overlapped_hdrs
        = Except.ok g' ∧
      g'.phdr.map (fun ph => ph.p_offset) = [0x80000000, 0x80001100] := by
  refine ⟨rfl, by decide, by decide, by decide, by decide, _, rfl, rfl⟩

/-! ## C15: one segment that spans the file -/

/-- A list with the invariant that covers exactly the bytes below `N` is one region. -/
theorem single_region {L : List region} (hL : ok_from 0 L) {N : Nat} (hN : 0 < N)
    (hc : ∀ x, in_regions L x ↔ x < N) :
    ∃ r, L = [r] ∧ r.offset = 0 ∧ r.filesz = N := by
  cases L with
  | nil => exact absurd ((hc 0).mpr hN) (in_regions_nil 0)
  | cons a rest =>
    obtain ⟨h1, h2, h3, h4⟩ := hL
    have hrest := ok_from_all h4
    have ha0 : a.offset = 0 := by
      obtain ⟨r, hr, hx1, hx2⟩ := (hc 0).mpr hN
      rcases List.mem_cons.mp hr with rfl | hr
      · omega
      · have := (hrest r hr).1
        omega
    have hle : a.offset + a.filesz ≤ N := by
      have := (hc (a.offset + a.filesz - 1)).mp
        ⟨a, List.mem_cons_self _ _, by unfold in_region; omega⟩
      omega
    have hge : N ≤ a.offset + a.filesz := by
      by_contra hlt
      obtain ⟨r, hr, hx1, hx2⟩ := (hc (a.offset + a.filesz)).mpr (by omega)
      rcases List.mem_cons.mp hr with rfl | hr
      · omega
      · have := (hrest r hr).1
        omega
    have hnil : rest = [] := by
      cases rest with
      | nil => rfl
      | cons b rest' =>
        have hb := hrest b (List.mem_cons_self _ _)
        have := (hc b.offset).mp
          ⟨b, List.mem_cons_of_mem _ (List.mem_cons_self _ _), by unfold in_region; omega⟩
        omega
    subst hnil
    exact ⟨a, rfl, ha0, by omega⟩

/-- With displacement 0 everywhere, `modify_hdrs` changes no offset. -/
theorem patched_disp_zero (R : List region) (g : hdrs) (hok : hdrs_ok g)
    (hz : ∀ r ∈ R, r.disp = 0) :
    (patched_hdrs R g).ehdr.e_phoff = g.ehdr.e_phoff ∧ (patched_hdrs R g).phdr = g.phdr := by
  have hlt : g.ehdr.e_phoff < 4294967296 := hok.1.2.2.2.2.2.2.1
  constructor
  · simp only [patched_hdrs]
    cases hf : find_region R g.ph_offset g.ph_filesz with
    | none => rfl
    | some p =>
      simp only [hz p (find_region_some hf).1]
      exact sub32_of_le (Nat.zero_le _) hlt
  · show g.phdr.map (patched_phdr R) = g.phdr
    conv_rhs => rw [← List.map_id g.phdr]
    refine List.map_congr_left (fun ph hph => ?_)
    have hl : ph.p_offset < 4294967296 := (hok.2 ph hph).2.1
    simp only [patched_phdr, id]
    split_ifs
    · rfl
    · cases hf : find_region R ph.p_offset ph.p_filesz with
      | none => rfl
      | some p =>
        simp only [hz p (find_region_some hf).1]
        rw [sub32_of_le (Nat.zero_le _) hl]
        rfl

/-- C15: for an accepted input in which the range `[0, N)` of one non-null descriptor
contains the file header range, the table range and the range of every non-null
non-empty descriptor, `compute_regions` yields exactly one region, with offset 0 and
size `N`; `compute_disps` gives it `disp` 0 and `toffset` 0; `modify_hdrs` returns and
leaves `e_phoff` and the whole table, so every `p_offset`, unchanged; and for an input
file that holds the bytes below `N` the run returns and writes exactly the output
offsets below `N`. -/
theorem whole_file_segment (ENDIAN : Int) (rd_ehdr : Option Elf32_Ehdr)
    (rd_phdr : Option (List Elf32_Phdr)) (g : hdrs)
    (hacc : read_hdrs ENDIAN rd_ehdr rd_phdr = .ok g) (hok : hdrs_ok g)
    (N : Nat) (ph0 : Elf32_Phdr) (h0 : ph0 ∈ g.phdr) (ht : ph0.p_type ≠ PT_NULL)
    (ho : ph0.p_offset = 0) (hf : ph0.p_filesz = N)
    (hin : ∀ s ∈ retained_ranges g, s.1 + s.2 ≤ N) :
    (∃ r, compute_regions g = [r] ∧ r.offset = 0 ∧ r.filesz = N) ∧
    compute_disps (compute_regions g) =
      [{ offset := 0, filesz := N, disp := 0, toffset := 0 }] ∧
    (∃ g', modify_hdrs (compute_disps (compute_regions g)) g = Except.ok g' ∧
      g'.ehdr.e_phoff = g.ehdr.e_phoff ∧ g'.phdr = g.phdr) ∧
    ∀ (SIZE_MOD : Nat) (input : Nat → Option Nat), 4294967296 ≤ SIZE_MOD →
      (∀ x, x < N → input x ≠ none) →
      ∃ out, strip_file SIZE_MOD ENDIAN g input = some (Except.ok out) ∧
        ∀ y, out y ≠ none ↔ y < N := by
  obtain ⟨f1, f2, f3, f4, f5, f6⟩ := read_hdrs_ok_facts hacc
  obtain ⟨c1, c2⟩ := compute_regions_held hacc hok
  have hN32 : N < 4294967296 := by rw [← hf]; exact (hok.2 ph0 h0).2.2.2.2.1
  have hh := hin (0, SIZEOF_EHDR) (List.mem_cons_self _ _)
  simp only [SIZEOF_EHDR] at hh
  have hnw : ∀ s ∈ retained_ranges g, s.1 + s.2 < 4294967296 := by
    intro s hs
    have := hin s hs
    omega
  have hret : (0, N) ∈ retained_ranges g := by
    refine List.mem_cons_of_mem _ (List.mem_cons_of_mem _ (List.mem_map.mpr ⟨ph0,
      List.mem_filter.mpr ⟨h0, ?_⟩, ?_⟩))
    · simp only [decide_eq_true_eq]
      exact ⟨ht, by omega⟩
    · simp only [ho, hf]
  have himp : ∀ x, important g x ↔ x < N := by
    intro x
    constructor
    · rintro ⟨s, hs, h1, h2⟩
      have := hin s hs
      omega
    · intro hx
      exact ⟨(0, N), hret, Nat.zero_le _, by simp only []; omega⟩
  have hL := (foldl_iter_ok hacc hok hnw (long_range (-2) g.ehdr.e_phnum) [] trivial).1
  obtain ⟨r, hr, hr0, hrN⟩ := single_region hL (show 0 < N by omega)
    (fun x => (compute_regions_important hacc hok hnw x).trans (himp x))
  have hr' : compute_regions g = [r] := hr
  have hd : compute_disps (compute_regions g) =
      [{ offset := 0, filesz := N, disp := 0, toffset := 0 }] := by
    rw [hr']
    simp only [compute_disps, compute_disps_from, hr0, hrN]
    simp [sub32, PAGESIZE]
  have hz : ∀ r ∈ compute_disps (compute_regions g), r.disp = 0 := by
    rw [hd]
    intro r hr
    rw [List.mem_singleton.mp hr]
  obtain ⟨z1, z2⟩ := patched_disp_zero _ g hok hz
  have hmod := modify_hdrs_eq _ g f4 c1 c2
  refine ⟨⟨r, hr', hr0, hrN⟩, hd, ⟨_, hmod, z1, z2⟩, fun SIZE_MOD input hM hfile => ?_⟩
  obtain ⟨out, o1, o2, o3⟩ := process_file_spec hacc hok hnw SIZE_MOD hM input
    (fun x hx => hfile x ((himp x).mp hx))
  refine ⟨out, ?_, fun y => ?_⟩
  · simp only [strip_file, hmod]
    exact o1
  · rw [hd] at o2 o3
    constructor
    · intro hy
      by_contra hlt
      apply hy
      apply o3
      intro r hr
      rw [List.mem_singleton.mp hr]
      simp only []
      omega
    · intro hy
      have := (o2 _ (List.mem_singleton_self _) y (by unfold in_region; simp only []; omega)).1
      simpa using this

/-- C15, witness: a segment of 0x1000 bytes at offset 0 that contains the file header,
the table and a second segment. -/
theorem whole_file_segment_witness :
    read_hdrs 0 (some (example_ehdr 52 2)) (some whole_file_segments) = .ok whole_file_hdrs ∧
    hdrs_ok whole_file_hdrs ∧
    example_phdr 1 0 0x1000 ∈ whole_file_hdrs.phdr ∧
    (example_phdr 1 0 0x1000).p_type ≠ PT_NULL ∧
    (example_phdr 1 0 0x1000).p_offset = 0 ∧
    (example_phdr 1 0 0x1000).p_filesz = 0x1000 ∧
    (∀ s ∈ retained_ranges whole_file_hdrs, s.1 + s.2 ≤ 0x1000) ∧
    (∃ r, compute_regions whole_file_hdrs = [r] ∧ r.offset = 0 ∧ r.filesz = 0x1000) ∧
    compute_disps (compute_regions whole_file_hdrs) =
      [{ offset := 0, filesz := 0x1000, disp := 0, toffset := 0 }] ∧
    (∃ g', modify_hdrs (compute_disps (compute_regions whole_file_hdrs)) whole_file_hdrs
        = Except.ok g' ∧
      g'.ehdr.e_phoff = whole_file_hdrs.ehdr.e_phoff ∧ g'.phdr = whole_file_hdrs.phdr) ∧
    ∀ (SIZE_MOD : Nat) (input : Nat → Option Nat), 4294967296 ≤ SIZE_MOD →
      (∀ x, x < 0x1000 → input x ≠ none) →
      ∃ out, strip_file SIZE_MOD 0 whole_file_hdrs input = some (Except.ok out) ∧
        ∀ y, out y ≠ none ↔ y < 0x1000 :=
  ⟨rfl, by decide, by decide, by decide, rfl, rfl, by decide,
   whole_file_segment 0 (some (example_ehdr 52 2)) (some whole_file_segments)
     whole_file_hdrs rfl (by decide) 0x1000 (example_phdr 1 0 0x1000) (by decide)
     (by decide) rfl rfl (by decide)⟩

/-! ## C16: the alignment warning -/

/-- Iteration `i` of `compute_regions` prints the warning exactly when descriptor `i` is
not null and its alignment is neither 0 nor a divisor of the page size. -/
theorem warns_at_iff (g : hdrs) (i : Nat) (ph : Elf32_Phdr) (hi : g.phdr[i]? = some ph) :
    warns_at g (i : Int) = true ↔
      ph.p_type ≠ PT_NULL ∧ ph.p_align ≠ 0 ∧ ¬ ph.p_align ∣ PAGESIZE := by
  unfold warns_at
  have h1 : ¬ ((i : Int) = -2) := by omega
  have h2 : ¬ ((i : Int) = -1) := by omega
  rw [if_neg h1, if_neg h2, Int.toNat_ofNat, hi]
  simp only []
  by_cases hn : ph.p_type = PT_NULL
  · simp [hn]
  · simp only [hn, if_false, decide_eq_true_eq, ne_eq, not_false_eq_true, true_and,
      Nat.dvd_iff_mod_eq_zero]

/-- The warnings of `compute_regions` are those of the descriptors at which an iteration
warns. -/
theorem mem_compute_regions_warnings (g : hdrs) (w : warning) :
    w ∈ compute_regions_warnings g ↔
      ∃ i : Nat, i < g.ehdr.e_phnum ∧ warns_at g (i : Int) = true ∧
        w = warning.alignment_not_multiple i := by
  unfold compute_regions_warnings
  rw [long_range_neg_two]
  simp only [List.mem_map, List.mem_filter, List.mem_cons, List.mem_range]
  constructor
  · rintro ⟨j, ⟨hj | hj | ⟨k, hk, rfl⟩, hw⟩, rfl⟩
    · subst hj; simp [warns_at] at hw
    · subst hj; simp [warns_at] at hw
    · exact ⟨k, hk, hw, by simp⟩
  · rintro ⟨i, hi, hw, rfl⟩
    exact ⟨(i : Int), ⟨Or.inr (Or.inr ⟨i, hi, rfl⟩), hw⟩, by simp⟩

/-- The alignment fields are not read when `compute_regions` builds the list. -/
theorem compute_regions_with_align (f : Nat → Nat) (g : hdrs) :
    compute_regions (with_align f g) = compute_regions g := by
  have hseg : ∀ i, segment_of (with_align f g) i = segment_of g i := by
    intro i
    unfold segment_of
    by_cases h1 : i = -2
    · simp only [h1, if_true]
    · by_cases h2 : i = -1
      · simp only [h2, if_true]; rfl
      · simp only [h1, h2, if_false]
        show (match (g.phdr.map (realign f))[i.toNat]? with
          | none => none
          | some ph => _) = _
        rw [List.getElem?_map]
        cases g.phdr[i.toNat]? with
        | none => rfl
        | some ph => rfl
  have hiter : compute_regions_iter (with_align f g) = compute_regions_iter g := by
    funext L i
    unfold compute_regions_iter
    rw [hseg]
  unfold compute_regions compute_regions_upto
  rw [hiter]
  rfl

/-- The alignment fields are not read by `modify_hdrs`. -/
theorem modify_hdrs_with_align (f : Nat → Nat) (R : List region) (g : hdrs) :
    modify_hdrs R (with_align f g) = (modify_hdrs R g).map (with_align f) := by
  have hstep : ∀ st i, modify_hdrs_iter R (with_align f st) i =
      (modify_hdrs_iter R st i).map (with_align f) := by
    intro st i
    unfold modify_hdrs_iter
    by_cases hi : i = -1
    · simp only [hi, if_true]
      show (match find_region R st.ph_offset st.ph_filesz with
        | none => Except.error 101
        | some p => Except.ok _) = _
      cases find_region R st.ph_offset st.ph_filesz <;> rfl
    · simp only [hi, if_false]
      show (match (st.phdr.map (realign f))[i.toNat]? with
        | none => Except.ok (with_align f st)
        | some ph => _) = _
      rw [List.getElem?_map]
      cases st.phdr[i.toNat]? with
      | none => rfl
      | some ph =>
        simp only [Option.map_some']
        by_cases hc : ph.p_type = PT_NULL ∨ ph.p_filesz = 0
        · have hc' : (realign f ph).p_type = PT_NULL ∨ (realign f ph).p_filesz = 0 := hc
          simp only [hc, hc', if_true]; rfl
        · have hc' : ¬ ((realign f ph).p_type = PT_NULL ∨ (realign f ph).p_filesz = 0) := hc
          simp only [hc, hc', if_false]
          show (match find_region R ph.p_offset ph.p_filesz with
            | none => Except.error 101
            | some p => Except.ok _) = _
          cases find_region R ph.p_offset ph.p_filesz with
          | none => rfl
          | some p =>
            simp only [Except.map, with_align, List.map_set]
            rfl
  exact foldlM_commute (with_align f) (modify_hdrs_iter R) hstep
    (long_range (-1) g.ehdr.e_phnum)
    { g with ehdr := { g.ehdr with e_shoff := 0, e_shentsize := 0, e_shnum := 0,
                                   e_shstrndx := 0 } }

/-- The alignment fields are not read by `read_hdrs`. -/
theorem read_hdrs_with_align (ENDIAN : Int) (f : Nat → Nat) (rd_ehdr : Option Elf32_Ehdr)
    (rd_phdr : Option (List Elf32_Phdr)) :
    read_hdrs ENDIAN rd_ehdr (rd_phdr.map (List.map (realign f))) =
      (read_hdrs ENDIAN rd_ehdr rd_phdr).map (with_align f) := by
  cases rd_ehdr with
  | none => rfl
  | some h =>
    rw [read_hdrs_closed, read_hdrs_closed]
    by_cases hc : header_checks ENDIAN h
    · rw [if_pos hc, if_pos hc]
      cases rd_phdr with
      | none => rfl
      | some t =>
        simp only [Option.map_some', List.length_map]
        by_cases hl : t.length < h.e_phnum
        · rw [if_pos hl, if_pos hl]; rfl
        · rw [if_neg hl, if_neg hl]
          simp only [Except.map, with_align, List.map_take]
    · rw [if_neg hc, if_neg hc]
      rfl

/-- The exit status of `main`, the region list and whether the temporary file was created
are the same for two inputs whose globals after `read_hdrs` differ by a change `A` that
the later stages do not read. -/
theorem main_commute (A : hdrs → hdrs)
    (hreg : ∀ g, compute_regions (A g) = compute_regions g)
    (hmod : ∀ R g, modify_hdrs R (A g) = (modify_hdrs R g).map A)
    (hpo : ∀ g, (A g).ph_offset = g.ph_offset) (hpf : ∀ g, (A g).ph_filesz = g.ph_filesz)
    (M : Nat) (ENDIAN : Int) (argc : Nat) (rd_ehdr rd_ehdr2 : Option Elf32_Ehdr)
    (rd_phdr rd_phdr2 : Option (List Elf32_Phdr)) (input : Nat → Option Nat)
    (hread : read_hdrs ENDIAN rd_ehdr2 rd_phdr2 = (read_hdrs ENDIAN rd_ehdr rd_phdr).map A) :
    (main M ENDIAN argc rd_ehdr2 rd_phdr2 input).map
        (fun s => (s.status, s.first_region, s.created)) =
      (main M ENDIAN argc rd_ehdr rd_phdr input).map
        (fun s => (s.status, s.first_region, s.created)) := by
  unfold main
  by_cases ha : argc < 2
  · rw [if_pos ha, if_pos ha]
  · rw [if_neg ha, if_neg ha, hread]
    cases read_hdrs ENDIAN rd_ehdr rd_phdr with
    | error e => rfl
    | ok g =>
      simp only [Except.map]
      rw [hreg, hmod]
      cases modify_hdrs (compute_disps (compute_regions g)) g with
      | error e => rfl
      | ok g' =>
        simp only [Except.map]
        have hs := copy_regions_status M input (ehdr_image ENDIAN (A g').ehdr)
          (phdr_image ENDIAN (A g').phdr) (ehdr_image ENDIAN g'.ehdr)
          (phdr_image ENDIAN g'.phdr) g'.ph_offset g'.ph_filesz
          (compute_disps (compute_regions g)) (fun _ => none) (fun _ => none)
        have e1 : process_file M ENDIAN (compute_disps (compute_regions g)) (A g') input =
          copy_regions M input (ehdr_image ENDIAN (A g').ehdr)
          (phdr_image ENDIAN (A g').phdr) g'.ph_offset g'.ph_filesz
          (compute_disps (compute_regions g)) (fun _ => none) := by
          unfold process_file
          rw [hpo, hpf]
        have e2 : process_file M ENDIAN (compute_disps (compute_regions g)) g' input =
          copy_regions M input (ehdr_image ENDIAN g'.ehdr)
          (phdr_image ENDIAN g'.phdr) g'.ph_offset g'.ph_filesz
          (compute_disps (compute_regions g)) (fun _ => none) := rfl
        rw [← e1, ← e2] at hs
        cases h1 : process_file M ENDIAN (compute_disps (compute_regions g)) (A g') input with
        | none =>
          cases h2 : process_file M ENDIAN (compute_disps (compute_regions g)) g' input with
          | none => rfl
          | some b => rw [h1, h2] at hs; exact absurd hs (by simp)
        | some a =>
          cases h2 : process_file M ENDIAN (compute_disps (compute_regions g)) g' input with
          | none => rw [h1, h2] at hs; exact absurd hs (by simp)
          | some b =>
            rw [h1, h2] at hs
            cases a with
            | error ea =>
              cases b with
              | error eb =>
                simp only [Option.map_some', Except.map, Option.some.injEq,
                  Except.error.injEq] at hs
                subst hs; rfl
              | ok ob => simp [Except.map] at hs
            | ok oa =>
              cases b with
              | error eb => simp [Except.map] at hs
              | ok ob => rfl

/-- C16 (amended): for every accepted input, `compute_regions` prints the alignment
warning for a descriptor exactly when that descriptor is not of the null type and its
alignment is neither 0 nor a divisor of `PAGESIZE`, whatever its file size; and for
every change `f` of the alignment fields the region list, the displacements and the
result of `modify_hdrs` (apart from the alignment fields themselves) are the same, no
warning is printed when `f` only yields divisors of `PAGESIZE`, and `main` exits with the
same status, the same region list and the same creation of the output. -/
theorem alignment_warning (ENDIAN : Int) (rd_ehdr : Option Elf32_Ehdr)
    (rd_phdr : Option (List Elf32_Phdr)) (g : hdrs)
    (hacc : read_hdrs ENDIAN rd_ehdr rd_phdr = .ok g) :
    (∀ w, w ∈ compute_regions_warnings g ↔
      ∃ (i : Nat) (ph : Elf32_Phdr), g.phdr[i]? = some ph ∧
        w = warning.alignment_not_multiple i ∧
        ph.p_type ≠ PT_NULL ∧ ph.p_align ≠ 0 ∧ ¬ ph.p_align ∣ PAGESIZE) ∧
    ∀ f : Nat → Nat,
      compute_regions (with_align f g) = compute_regions g ∧
      compute_disps (compute_regions (with_align f g)) = compute_disps (compute_regions g) ∧
      (∀ R : List region,
        modify_hdrs R (with_align f g) = (modify_hdrs R g).map (with_align f)) ∧
      ((∀ a, f a ∣ PAGESIZE) → compute_regions_warnings (with_align f g) = []) ∧
      ∀ (SIZE_MOD argc : Nat) (input : Nat → Option Nat),
        (main SIZE_MOD ENDIAN argc rd_ehdr (rd_phdr.map (List.map (realign f))) input).map
            (fun s => (s.status, s.first_region, s.created)) =
          (main SIZE_MOD ENDIAN argc rd_ehdr rd_phdr input).map
            (fun s => (s.status, s.first_region, s.created)) := by
  obtain ⟨f1, f2, f3, f4, f5, f6⟩ := read_hdrs_ok_facts hacc
  refine ⟨fun w => ?_, fun f => ⟨compute_regions_with_align f g, ?_,
    fun R => modify_hdrs_with_align f R g, fun hf => ?_, fun M argc input => ?_⟩⟩
  · rw [mem_compute_regions_warnings]
    constructor
    · rintro ⟨i, hi, hw, rfl⟩
      have hlt : i < g.phdr.length := by omega
      have hget : g.phdr[i]? = some g.phdr[i] := List.getElem?_eq_getElem hlt
      exact ⟨i, _, hget, rfl, (warns_at_iff g i _ hget).mp hw⟩
    · rintro ⟨i, ph, hi, rfl, hc⟩
      have hlt : i < g.phdr.length := (List.getElem?_eq_some.mp hi).1
      exact ⟨i, by omega, (warns_at_iff g i ph hi).mpr hc, rfl⟩
  · rw [compute_regions_with_align]
  · apply List.eq_nil_iff_forall_not_mem.mpr
    intro w hw
    obtain ⟨i, _, hw1, _⟩ := (mem_compute_regions_warnings _ w).mp hw
    cases hi : (with_align f g).phdr[i]? with
    | none =>
      simp only [warns_at, hi, Int.toNat_ofNat] at hw1
      split_ifs at hw1
    | some ph' =>
      have hc := (warns_at_iff _ i ph' hi).mp hw1
      simp only [with_align, List.getElem?_map] at hi
      cases hg : g.phdr[i]? with
      | none => rw [hg] at hi; exact absurd hi (by simp)
      | some ph =>
        rw [hg] at hi
        simp only [Option.map_some', Option.some.injEq] at hi
        subst hi
        exact hc.2.2 (hf _)
  · exact main_commute (with_align f) (compute_regions_with_align f)
      (modify_hdrs_with_align f) (fun _ => rfl) (fun _ => rfl) M ENDIAN argc rd_ehdr rd_ehdr
      rd_phdr _ input (read_hdrs_with_align ENDIAN f rd_ehdr rd_phdr)

/-- C16, witness: the table `misaligned_segments`. -/
theorem alignment_warning_witness :
    read_hdrs 0 (some (example_ehdr 52 2)) (some misaligned_segments) = .ok misaligned_hdrs ∧
    (∀ w, w ∈ compute_regions_warnings misaligned_hdrs ↔
      ∃ (i : Nat) (ph : Elf32_Phdr), misaligned_hdrs.phdr[i]? = some ph ∧
        w = warning.alignment_not_multiple i ∧
        ph.p_type ≠ PT_NULL ∧ ph.p_align ≠ 0 ∧ ¬ ph.p_align ∣ PAGESIZE) ∧
    ∀ f : Nat → Nat,
      compute_regions (with_align f misaligned_hdrs) = compute_regions misaligned_hdrs ∧
      compute_disps (compute_regions (with_align f misaligned_hdrs)) =
        compute_disps (compute_regions misaligned_hdrs) ∧
      (∀ R : List region,
        modify_hdrs R (with_align f misaligned_hdrs) =
          (modify_hdrs R misaligned_hdrs).map (with_align f)) ∧
      ((∀ a, f a ∣ PAGESIZE) → compute_regions_warnings (with_align f misaligned_hdrs) = []) ∧
      ∀ (SIZE_MOD argc : Nat) (input : Nat → Option Nat),
        (main SIZE_MOD 0 argc (some (example_ehdr 52 2))
            ((some misaligned_segments).map (List.map (realign f))) input).map
            (fun s => (s.status, s.first_region, s.created)) =
          (main SIZE_MOD 0 argc (some (example_ehdr 52 2)) (some misaligned_segments)
            input).map (fun s => (s.status, s.first_region, s.created)) :=
  ⟨rfl, alignment_warning 0 (some (example_ehdr 52 2)) (some misaligned_segments)
    misaligned_hdrs rfl⟩

/-- C16, counterexample: in the accepted table `misaligned_segments` the only warning is
the one of descriptor 1, which has the file size 0 (and the alignment 1000); and
descriptor 0, which is not null, has a non-zero file size and the alignment 0, not a
divisor of `PAGESIZE`, gets no warning. -/
theorem alignment_warning_counterexample :
    read_hdrs 0 (some (example_ehdr 52 2)) (some misaligned_segments) = .ok misaligned_hdrs ∧
    compute_regions_warnings misaligned_hdrs = [warning.alignment_not_multiple 1] ∧
    (∃ ph, misaligned_hdrs.phdr[1]? = some ph ∧ ph.p_filesz = 0) ∧
    (∃ ph, misaligned_hdrs.phdr[0]? = some ph ∧ ph.p_type ≠ PT_NULL ∧ ph.p_filesz ≠ 0 ∧
      ¬ ph.p_align ∣ PAGESIZE) ∧
    ¬ (∀ (i : Nat) (ph : Elf32_Phdr), misaligned_hdrs.phdr[i]? = some ph →
        (warning.alignment_not_multiple i ∈ compute_regions_warnings misaligned_hdrs ↔
          ph.p_type ≠ PT_NULL ∧ ph.p_filesz ≠ 0 ∧ ¬ ph.p_align ∣ PAGESIZE)) := by
  refine ⟨rfl, by decide, ⟨_, rfl, rfl⟩, ⟨_, rfl, by decide, by decide, by decide⟩, ?_⟩
  intro h
  have h1 := (h 1 _ rfl).mp (by decide)
  exact h1.2.1 rfl

/-! ## C17: the first region starts the file -/

/-- The loop of lines 299-307 from a region at offset 0 keeps the offset and does not
shrink the region, also with 32-bit wrap. -/
theorem merge_next_head (q : List region) : ∀ p : region, p.offset = 0 →
    p.filesz < 4294967296 →
    ∃ p' rest', merge_next p q = p' :: rest' ∧ p'.offset = 0 ∧ p.filesz ≤ p'.filesz ∧
      p'.filesz < 4294967296 := by
  induction q with
  | nil => intro p h1 h2; exact ⟨p, [], rfl, h1, le_refl _, h2⟩
  | cons q rest ih =>
    intro p h1 h2
    unfold merge_next
    by_cases c1 : q.offset ≤ add32 p.offset p.filesz
    · rw [if_pos c1]
      by_cases c2 : add32 q.offset q.filesz > add32 p.offset p.filesz
      · rw [if_pos c2]
        obtain ⟨p', rest', e1, e2, e3, e4⟩ := ih
          { p with filesz := add32 (sub32 q.offset p.offset) q.filesz } h1
          (by simp only [add32]; omega)
        simp only [add32, sub32, h1] at c2 e3
        exact ⟨p', rest', e1, e2, by omega, e4⟩
      · rw [if_neg c2]
        exact ih p h1 h2
    · rw [if_neg c1]
      exact ⟨p, q :: rest, rfl, h1, le_refl _, h2⟩

/-- One insertion keeps the first region at offset 0, also with 32-bit wrap. -/
theorem insert_region_head (s_offset s_filesz : Nat) (hs : s_offset < 4294967296)
    (hs2 : s_filesz < 4294967296) (L : List region) (hL : starts_at_zero L) :
    starts_at_zero (insert_region s_offset s_filesz L) := by
  cases L with
  | nil => exact absurd hL id
  | cons r rest =>
    obtain ⟨h1, h2, h3⟩ := hL
    unfold insert_region insert_scan
    by_cases c0 : r.offset < s_offset
    · rw [if_pos c0]
      simp only [Option.toList, List.nil_append]
      have hmerge : ∀ q : List region,
          starts_at_zero (merge_at s_offset s_filesz (some r) q) := by
        intro q
        unfold merge_at
        simp only []
        by_cases c1 : add32 r.offset r.filesz ≥ s_offset
        · rw [if_pos c1]
          by_cases c2 : add32 s_offset s_filesz > add32 r.offset r.filesz
          · rw [if_pos c2]
            obtain ⟨p', rest', e1, e2, e3, e4⟩ := merge_next_head q
              { r with filesz := add32 (sub32 s_offset r.offset) s_filesz } h1
              (by simp only [add32]; omega)
            rw [e1]
            simp only [add32, sub32, h1] at c2 e3
            exact ⟨e2, by omega, e4⟩
          · rw [if_neg c2]
            obtain ⟨p', rest', e1, e2, e3, e4⟩ := merge_next_head q r h1 h3
            rw [e1]
            exact ⟨e2, by omega, e4⟩
        · rw [if_neg c1]
          exact ⟨h1, h2, h3⟩
      cases rest with
      | nil => unfold insert_scan; exact hmerge []
      | cons q rest' =>
        unfold insert_scan
        by_cases c3 : q.offset < s_offset
        · rw [if_pos c3]
          exact ⟨h1, h2, h3⟩
        · rw [if_neg c3]
          exact hmerge _
    · rw [if_neg c0]
      have hz : s_offset = 0 := by omega
      subst hz
      unfold merge_at
      simp only []
      unfold merge_next
      have c1 : r.offset ≤ add32 0 s_filesz := by omega
      rw [if_pos c1]
      by_cases c2 : add32 r.offset r.filesz > add32 0 s_filesz
      · rw [if_pos c2]
        obtain ⟨p', rest', e1, e2, e3, e4⟩ := merge_next_head rest
          { offset := 0, filesz := add32 (sub32 r.offset 0) r.filesz, disp := 0,
            toffset := 0 } rfl (by simp only [add32]; omega)
        rw [e1]
        simp only [add32, sub32, h1] at c2 e3
        exact ⟨e2, by omega, e4⟩
      · rw [if_neg c2]
        simp only [add32, h1] at c2
        obtain ⟨p', rest', e1, e2, e3, e4⟩ := merge_next_head rest
          { offset := 0, filesz := s_filesz, disp := 0, toffset := 0 } rfl hs2
        rw [e1]
        simp only [] at e3
        exact ⟨e2, by omega, e4⟩

/-- The loop of `compute_regions` keeps the first region at offset 0. -/
theorem foldl_iter_head {ENDIAN : Int} {rd_ehdr : Option Elf32_Ehdr}
    {rd_phdr : Option (List Elf32_Phdr)} {g : hdrs}
    (hacc : read_hdrs ENDIAN rd_ehdr rd_phdr = .ok g) (hok : hdrs_ok g) (is : List Int) :
    ∀ L0 : List region, starts_at_zero L0 →
      starts_at_zero (is.foldl (compute_regions_iter g) L0) := by
  induction is with
  | nil => intro L0 h0; exact h0
  | cons i rest ih =>
    intro L0 h0
    simp only [List.foldl_cons]
    apply ih
    unfold compute_regions_iter
    cases hs : segment_of g i with
    | none => exact h0
    | some s =>
      obtain ⟨s1, _, s3⟩ := segment_of_lt hacc hok hs
      exact insert_region_head s.1 s.2 s1 s3 L0 h0

/-- The inner loop of `process_file` returns normally when the input holds the bytes
that it reads, whatever the offsets. -/
theorem copy_blocks_returns (M : Nat) (input : Nat → Option Nat)
    (ehdr_mem phdr_mem : List Nat) (ph_offset ph_filesz : Nat) (fuel : Nat) :
    ∀ (thisoff toread inpos outpos : Nat) (out : Nat → Option Nat), toread ≤ fuel →
    (∀ k, k < toread → input (inpos + k) ≠ none) →
    ∃ out', copy_blocks M input ehdr_mem phdr_mem ph_offset ph_filesz fuel thisoff toread
        inpos outpos out = some (Except.ok out') := by
  induction fuel with
  | zero =>
    intro thisoff toread inpos outpos out hf _
    have h0 : toread = 0 := by omega
    subst h0
    exact ⟨out, by simp [copy_blocks]⟩
  | succ fuel ih =>
    intro thisoff toread inpos outpos out hf hin
    by_cases h0 : toread = 0
    · subst h0
      exact ⟨out, by simp [copy_blocks]⟩
    · have hpos : toread > 0 := Nat.pos_of_ne_zero h0
      rw [copy_blocks]
      simp only [if_pos hpos]
      generalize htr : (if toread > BUFSIZE then BUFSIZE else toread) = thisread
      have hr1 : 0 < thisread := by
        rw [← htr]; simp only [BUFSIZE]; split_ifs <;> omega
      have hr2 : thisread ≤ toread := by
        rw [← htr]; simp only [BUFSIZE]; split_ifs <;> omega
      obtain ⟨buf, hbuf⟩ := allread_of_defined input inpos thisread
        (fun k hk => hin k (by omega))
      rw [hbuf]
      simp only []
      exact ih _ (toread - thisread) (inpos + thisread) _ _ (by omega)
        (fun k hk => by
          have := hin (thisread + k) (by omega)
          rwa [← Nat.add_assoc] at this)

/-- The region that `process_file` copies last is in the output, whatever the regions
before it. -/
theorem copy_regions_last (M : Nat) (hM : 4294967296 ≤ M) (input : Nat → Option Nat)
    (ehdr_mem phdr_mem : List Nat) (ph_offset ph_filesz : Nat)
    (he : ehdr_mem.length = SIZEOF_EHDR) (hp : phdr_mem.length = ph_filesz)
    (hph : ph_offset + ph_filesz < 4294967296) (b : region)
    (hb : b.offset + b.filesz < 4294967296)
    (hbin : ∀ x, in_region x b → input x ≠ none) :
    ∀ (R : List region) (out : Nat → Option Nat),
    (∀ r ∈ R, ∀ k, k < r.filesz → input (r.offset + k) ≠ none) →
    ∃ out', copy_regions M input ehdr_mem phdr_mem ph_offset ph_filesz (R ++ [b]) out
        = some (Except.ok out') ∧
      ∀ x, in_region x b → out' (b.toffset + (x - b.offset)) =
        spliced_byte input ehdr_mem phdr_mem ph_offset ph_filesz x := by
  intro R
  induction R with
  | nil =>
    intro out _
    obtain ⟨out1, h1, g1⟩ := copy_blocks_spec M hM input ehdr_mem phdr_mem ph_offset
      ph_filesz he hp hph b.filesz b.offset b.filesz b.toffset out (le_refl _) hb
      (fun x hx1 hx2 => hbin x ⟨hx1, hx2⟩)
    refine ⟨out1, by simp only [List.nil_append, copy_regions, h1], fun x hx => ?_⟩
    obtain ⟨hx1, hx2⟩ := hx
    rw [g1, if_pos (by omega)]
    congr 1
    omega
  | cons p rest ih =>
    intro out hin
    obtain ⟨out1, h1⟩ := copy_blocks_returns M input ehdr_mem phdr_mem ph_offset ph_filesz
      p.filesz p.offset p.filesz p.offset p.toffset out (le_refl _)
      (hin p (List.mem_cons_self _ _))
    obtain ⟨out', h2, g2⟩ := ih out1 (fun r hr => hin r (List.mem_cons_of_mem _ hr))
    exact ⟨out', by simp only [List.cons_append, copy_regions, h1]; exact h2, g2⟩


/-- C17 (amended): for every accepted input, also one with ranges that wrap, the region
list is not empty and its first region has offset 0, covers the file header range, and
gets `disp` 0 and `toffset` 0 from `compute_disps`; so every byte `x` of the first
region, the file header among them, has the output offset `toffset + (x - offset) = x`,
and in the first block of that region, which `process_file` reads at input offset 0 and
writes at output offset 0, the copy from the patched file header is the whole header at
buffer position 0.  When in addition no retained range reaches `2^32` and the input
holds every important byte, `process_file` returns and its output holds, at every offset
`x` of the first region, the byte expected for input offset `x`: at `y < 52` the byte
`y` of the patched file header, except inside the range of the table, where it is the
byte of the patched table; so the whole patched file header is at output offset 0 when
the table does not start inside the file header. -/
theorem first_region_at_zero (ENDIAN : Int) (rd_ehdr : Option Elf32_Ehdr)
    (rd_phdr : Option (List Elf32_Phdr)) (g : hdrs)
    (hacc : read_hdrs ENDIAN rd_ehdr rd_phdr = .ok g) (hok : hdrs_ok g) :
    ∃ r rest, compute_disps (compute_regions g) = r :: rest ∧
      (∃ r0 rest0, compute_regions g = r0 :: rest0 ∧ r0.offset = 0 ∧
        r0.filesz = r.filesz) ∧
      r.offset = 0 ∧ r.disp = 0 ∧ r.toffset = 0 ∧ SIZEOF_EHDR ≤ r.filesz ∧
      (∀ x, x < SIZEOF_EHDR → in_region x r) ∧
      (∀ x, in_region x r → r.toffset + (x - r.offset) = x ∧ sub32 x r.disp = x) ∧
      ehdr_splice r.offset (if r.filesz > BUFSIZE then BUFSIZE else r.filesz) =
        some (0, 0, SIZEOF_EHDR) ∧
      ∀ (SIZE_MOD : Nat) (input : Nat → Option Nat), 4294967296 ≤ SIZE_MOD →
        (∀ s ∈ retained_ranges g, s.1 + s.2 < 4294967296) →
        (∀ x, important g x → input x ≠ none) →
        ∃ g' out, modify_hdrs (compute_disps (compute_regions g)) g = Except.ok g' ∧
          process_file SIZE_MOD ENDIAN (compute_disps (compute_regions g)) g' input
            = some (Except.ok out) ∧
          (∀ x, in_region x r → out x = spliced_byte input (ehdr_image ENDIAN g'.ehdr)
            (phdr_image ENDIAN g'.phdr) g.ph_offset g.ph_filesz x) ∧
          (∀ y, y < SIZEOF_EHDR → out y =
            if g.ehdr.e_phoff ≤ y ∧ y < g.ehdr.e_phoff + g.ehdr.e_phentsize * g.ehdr.e_phnum
            then (phdr_image ENDIAN g'.phdr)[y - g.ehdr.e_phoff]?
            else (ehdr_image ENDIAN g'.ehdr)[y]?) ∧
          (SIZEOF_EHDR ≤ g.ehdr.e_phoff →
            ∀ y, y < SIZEOF_EHDR → out y = (ehdr_image ENDIAN g'.ehdr)[y]?) := by
  have h0 : starts_at_zero (compute_regions_iter g [] (-2)) := by
    show starts_at_zero [{ offset := 0, filesz := 52, disp := 0, toffset := 0 }]
    exact ⟨rfl, le_refl _, by decide⟩
  have h1 : starts_at_zero (compute_regions g) := by
    unfold compute_regions compute_regions_upto
    rw [long_range_neg_two]
    simp only [List.foldl_cons]
    exact foldl_iter_head hacc hok _ _ (foldl_iter_head hacc hok [-1] _ h0)
  obtain ⟨r0, rest0, hR⟩ : ∃ r0 rest0, compute_regions g = r0 :: rest0 := by
    cases hc : compute_regions g with
    | nil => rw [hc] at h1; exact absurd h1 id
    | cons r0 rest0 => exact ⟨r0, rest0, rfl⟩
  rw [hR] at h1
  obtain ⟨a1, a2, a3⟩ := h1
  have hd : 0 / PAGESIZE * PAGESIZE % 4294967296 = 0 := by decide
  have ht : sub32 r0.offset 0 = 0 := by rw [a1]; decide
  have hD : compute_disps (compute_regions g) =
      { r0 with disp := 0, toffset := 0 } :: compute_disps_from (add32 0 r0.filesz) rest0 := by
    rw [hR]
    simp only [compute_disps, compute_disps_from, ht, hd]
  have hin0 : ∀ x, x < SIZEOF_EHDR → in_region x { r0 with disp := 0, toffset := 0 } := by
    intro x hx
    unfold in_region
    simp only [a1]
    omega
  refine ⟨{ r0 with disp := 0, toffset := 0 }, compute_disps_from (add32 0 r0.filesz) rest0,
    hD, ⟨r0, rest0, hR, a1, rfl⟩, a1, rfl, rfl, a2, hin0, fun x hx => ?_, ?_,
    fun M input hM hnw hin => ?_⟩
  · obtain ⟨x1, x2⟩ := hx
    simp only [a1] at x1 x2
    simp only [a1, sub32]
    omega
  · simp only [a1, ehdr_splice, SIZEOF_EHDR, BUFSIZE] at a2 ⊢
    split_ifs <;> first | rfl | omega
  · obtain ⟨f1, f2, f3, f4, f5, f6⟩ := read_hdrs_ok_facts hacc
    have hn : g.ehdr.e_phnum < 65536 := hok.1.2.2.2.2.2.2.2.2.2.2.2.1
    have hz : g.ph_filesz = g.ehdr.e_phentsize * g.ehdr.e_phnum := by
      rw [f6, f2, Nat.mod_eq_of_lt (by simp only [SIZEOF_PHDR]; omega)]
    obtain ⟨c1, c2⟩ := compute_regions_held hacc hok
    have hmod := modify_hdrs_eq _ g f4 c1 c2
    obtain ⟨out, ho, hout, _⟩ := process_file_spec hacc hok hnw M hM input hin
    have hmem : ({ r0 with disp := 0, toffset := 0 } : region) ∈
        compute_disps (compute_regions g) := by
      rw [hD]; exact List.mem_cons_self _ _
    have hfirst : ∀ x, in_region x { r0 with disp := 0, toffset := 0 } →
        out x = spliced_byte input
          (ehdr_image ENDIAN (patched_hdrs (compute_disps (compute_regions g)) g).ehdr)
          (phdr_image ENDIAN (patched_hdrs (compute_disps (compute_regions g)) g).phdr)
          g.ph_offset g.ph_filesz x := fun x hx => (hout _ hmem x hx).2
    have hhdr : ∀ y, y < SIZEOF_EHDR → out y =
        if g.ehdr.e_phoff ≤ y ∧ y < g.ehdr.e_phoff + g.ehdr.e_phentsize * g.ehdr.e_phnum
        then (phdr_image ENDIAN
          (patched_hdrs (compute_disps (compute_regions g)) g).phdr)[y - g.ehdr.e_phoff]?
        else (ehdr_image ENDIAN
          (patched_hdrs (compute_disps (compute_regions g)) g).ehdr)[y]? := by
      intro y hy
      rw [hfirst y (hin0 y hy)]
      unfold spliced_byte
      rw [f5, hz, if_pos hy]
    refine ⟨_, out, hmod, ho, hfirst, hhdr, fun htab y hy => ?_⟩
    rw [hhdr y hy, if_neg (by omega)]


/-- C17, witness: two segments a megabyte apart, on a 64-bit host, in a file that starts
with the header and the table and holds a byte at every offset. -/
theorem first_region_at_zero_witness :
    read_hdrs_file 0 two_segment_file = .ok two_segment_hdrs ∧
    hdrs_ok two_segment_hdrs ∧
    (4294967296 ≤ 18446744073709551616) ∧
    (∀ s ∈ retained_ranges two_segment_hdrs, s.1 + s.2 < 4294967296) ∧
    (∀ x, important two_segment_hdrs x → two_segment_file x ≠ none) ∧
    SIZEOF_EHDR ≤ two_segment_hdrs.ehdr.e_phoff ∧
    ∃ r rest, compute_disps (compute_regions two_segment_hdrs) = r :: rest ∧
      (∃ r0 rest0, compute_regions two_segment_hdrs = r0 :: rest0 ∧ r0.offset = 0 ∧
        r0.filesz = r.filesz) ∧
      r.offset = 0 ∧ r.disp = 0 ∧ r.toffset = 0 ∧ SIZEOF_EHDR ≤ r.filesz ∧
      (∀ x, x < SIZEOF_EHDR → in_region x r) ∧
      (∀ x, in_region x r → r.toffset + (x - r.offset) = x ∧ sub32 x r.disp = x) ∧
      ehdr_splice r.offset (if r.filesz > BUFSIZE then BUFSIZE else r.filesz) =
        some (0, 0, SIZEOF_EHDR) ∧
      ∃ g' out,
        modify_hdrs (compute_disps (compute_regions two_segment_hdrs)) two_segment_hdrs
          = Except.ok g' ∧
        process_file 18446744073709551616 0
          (compute_disps (compute_regions two_segment_hdrs)) g' two_segment_file
          = some (Except.ok out) ∧
        (∀ x, in_region x r → out x = spliced_byte two_segment_file (ehdr_image 0 g'.ehdr)
          (phdr_image 0 g'.phdr) two_segment_hdrs.ph_offset two_segment_hdrs.ph_filesz x) ∧
        (∀ y, y < SIZEOF_EHDR → out y =
          if two_segment_hdrs.ehdr.e_phoff ≤ y ∧ y < two_segment_hdrs.ehdr.e_phoff +
            two_segment_hdrs.ehdr.e_phentsize * two_segment_hdrs.ehdr.e_phnum
          then (phdr_image 0 g'.phdr)[y - two_segment_hdrs.ehdr.e_phoff]?
          else (ehdr_image 0 g'.ehdr)[y]?) ∧
        ∀ y, y < SIZEOF_EHDR → out y = (ehdr_image 0 g'.ehdr)[y]? := by
  obtain ⟨r, rest, h1, h2, h3, h4, h5, h6, h7, h8, h9, h10⟩ :=
    first_region_at_zero 0 (read_ehdr 0 two_segment_file)
      ((read_ehdr 0 two_segment_file).bind
        (fun h => read_phdr 0 two_segment_file h.e_phoff h.e_phnum))
      two_segment_hdrs rfl (by decide)
  obtain ⟨g', out, k1, k2, k3, k4, k5⟩ := h10 18446744073709551616 two_segment_file
    (by decide) (by decide) (fun _ _ => Option.some_ne_none _)
  exact ⟨rfl, by decide, by decide, by decide, fun _ _ => Option.some_ne_none _, by decide,
    r, rest, h1, h2, h3, h4, h5, h6, h7, h8, h9, g', out, k1, k2, k3, k4, k5 (by decide)⟩

/-- C17, counterexample, in three parts.  First: no retained range reaches `2^32`, the
file holds every important byte, and the table starts at offset 4, inside the file
header; `process_file` returns, and the output has at offset 33 the byte 32 of the
patched table, where the patched file header has 0.  Second: the table follows the file
header, every retained range has offset + size <= 2^32 and one segment ends exactly at
`2^32`; the segment at 0x1010 is a region of its own that gets `toffset` 0x10, it is
copied last, and the output has at offset 16 the input byte of offset 0x1010, 96, where
the patched file header has 2.  Third: the file ends after the table, so it lacks bytes
of the first segment; `read_hdrs` accepts it, the first read of `process_file` is short
and `main` exits with status 111, leaving the file as it was. -/
theorem first_region_output_counterexample :
    (read_hdrs_file 0 overlap_file = .ok overlap_hdrs ∧
    hdrs_ok overlap_hdrs ∧
    (∀ s ∈ retained_ranges overlap_hdrs, s.1 + s.2 < 4294967296) ∧
    (∀ x, important overlap_hdrs x → overlap_file x ≠ none) ∧
    overlap_hdrs.ehdr.e_phoff = 4 ∧
    ∃ g', modify_hdrs (compute_disps (compute_regions overlap_hdrs)) overlap_hdrs
        = Except.ok g' ∧
      (ehdr_image 0 g'.ehdr)[33]? = some 0 ∧
      (phdr_image 0 g'.phdr)[33 - 4]? = some 32 ∧
      output_byte (process_file 18446744073709551616 0
        (compute_disps (compute_regions overlap_hdrs)) g' overlap_file) 33
        = some (some 32)) ∧
    (read_hdrs_file 0 overwriting_file = .ok overwriting_hdrs ∧
    hdrs_ok overwriting_hdrs ∧
    (∀ s ∈ retained_ranges overwriting_hdrs, s.1 + s.2 ≤ 4294967296) ∧
    (∀ x, important overwriting_hdrs x → overwriting_file x ≠ none) ∧
    SIZEOF_EHDR ≤ overwriting_hdrs.ehdr.e_phoff ∧
    compute_disps (compute_regions overwriting_hdrs) =
      [{ offset := 0, filesz := 116, disp := 0, toffset := 0 },
       { offset := 0x100, filesz := 0xFFFFFF00, disp := 0, toffset := 0x100 },
       { offset := 0x1010, filesz := 0x10, disp := 0x1000, toffset := 0x10 }] ∧
    overwriting_file 0x1010 = some 96 ∧
    ∃ g' out, modify_hdrs (compute_disps (compute_regions overwriting_hdrs))
        overwriting_hdrs = Except.ok g' ∧
      process_file 18446744073709551616 0
        (compute_disps (compute_regions overwriting_hdrs)) g' overwriting_file
        = some (Except.ok out) ∧
      (ehdr_image 0 g'.ehdr)[16]? = some 2 ∧
      out 16 = some 96) ∧
    (read_hdrs_file 0 short_file = .ok two_segment_hdrs ∧
    hdrs_ok two_segment_hdrs ∧
    (∀ s ∈ retained_ranges two_segment_hdrs, s.1 + s.2 < 4294967296) ∧
    SIZEOF_EHDR ≤ two_segment_hdrs.ehdr.e_phoff ∧
    important two_segment_hdrs 116 ∧ short_file 116 = none ∧
    (main_file 18446744073709551616 0 2 short_file).map (fun s => (s.status, s.created))
      = some (111, true) ∧
    (main_file 18446744073709551616 0 2 short_file).map (fun s => s.file 0)
      = some (short_file 0)) := by
  refine ⟨⟨rfl, by decide, by decide, overlap_file_complete, rfl,
    patched_hdrs (compute_disps (compute_regions overlap_hdrs)) overlap_hdrs, rfl,
    by decide, by decide, by decide!⟩,
    ⟨rfl, by decide, by decide, fun _ _ => Option.some_ne_none _, by decide, by decide,
    by decide, ?_⟩,
    rfl, by decide, by decide, by decide, by decide, rfl, by decide!, by decide!⟩
  obtain ⟨out, ho, hb⟩ := copy_regions_last 18446744073709551616 (by decide) overwriting_file
    (ehdr_image 0 (patched_hdrs (compute_disps (compute_regions overwriting_hdrs))
      overwriting_hdrs).ehdr)
    (phdr_image 0 (patched_hdrs (compute_disps (compute_regions overwriting_hdrs))
      overwriting_hdrs).phdr)
    (patched_hdrs (compute_disps (compute_regions overwriting_hdrs))
      overwriting_hdrs).ph_offset
    (patched_hdrs (compute_disps (compute_regions overwriting_hdrs))
      overwriting_hdrs).ph_filesz
    (by decide) (by decide) (by decide)
    { offset := 0x1010, filesz := 0x10, disp := 0x1000, toffset := 0x10 } (by decide)
    (fun _ _ => Option.some_ne_none _)
    [{ offset := 0, filesz := 116, disp := 0, toffset := 0 },
     { offset := 0x100, filesz := 0xFFFFFF00, disp := 0, toffset := 0x100 }]
    (fun _ => none) (fun _ _ _ _ => Option.some_ne_none _)
  refine ⟨patched_hdrs (compute_disps (compute_regions overwriting_hdrs)) overwriting_hdrs,
    out, rfl, ho, by decide, ?_⟩
  have h := hb 0x1010 (by decide)
  exact h.trans (by decide)

/-! ## C18: the patched file header is accepted again -/

/-- C18 (amended): for every accepted input in which every retained range has
offset + size < 2^32, `modify_hdrs` returns and `read_hdrs` accepts the patched file
header (with the patched table): the patched `e_phoff` is the old one minus the `disp`
of the region that contains the table, it is not 0, it is at least
`sizeof(Elf32_Ehdr)` when that `disp` is not 0 and unchanged when it is 0, and the
identification bytes, `e_version`, `e_phentsize` and `e_phnum` are unchanged. -/
theorem patched_header_accepted (ENDIAN : Int) (rd_ehdr : Option Elf32_Ehdr)
    (rd_phdr : Option (List Elf32_Phdr)) (g : hdrs)
    (hacc : read_hdrs ENDIAN rd_ehdr rd_phdr = .ok g) (hok : hdrs_ok g)
    (hnw : ∀ s ∈ retained_ranges g, s.1 + s.2 < 4294967296) :
    ∃ g', modify_hdrs (compute_disps (compute_regions g)) g = Except.ok g' ∧
      read_hdrs ENDIAN (some g'.ehdr) (some g'.phdr) = Except.ok (reread g') ∧
      header_checks ENDIAN g'.ehdr ∧
      g'.ehdr.e_phoff ≠ 0 ∧
      (∃ rt ∈ compute_disps (compute_regions g),
        contains_range rt (g.ehdr.e_phoff, g.ehdr.e_phentsize * g.ehdr.e_phnum) ∧
        g'.ehdr.e_phoff = g.ehdr.e_phoff - rt.disp ∧
        (rt.disp ≠ 0 → SIZEOF_EHDR ≤ g'.ehdr.e_phoff) ∧
        (rt.disp = 0 → g'.ehdr.e_phoff = g.ehdr.e_phoff)) ∧
      g'.ehdr.e_ident = g.ehdr.e_ident ∧ g'.ehdr.e_version = g.ehdr.e_version ∧
      g'.ehdr.e_phentsize = g.ehdr.e_phentsize ∧ g'.ehdr.e_phnum = g.ehdr.e_phnum := by
  obtain ⟨f1, f2, f3, f4, f5, f6⟩ := read_hdrs_ok_facts hacc
  obtain ⟨k1, k2, k3, k4, k5, k6, k7, k8, k9⟩ := read_hdrs_checks hacc
  obtain ⟨c1, c2⟩ := compute_regions_held hacc hok
  have hn : g.ehdr.e_phnum < 65536 := hok.1.2.2.2.2.2.2.2.2.2.2.2.1
  have hz : g.ph_filesz = g.ehdr.e_phentsize * g.ehdr.e_phnum := by
    rw [f6, f2, Nat.mod_eq_of_lt (by simp only [SIZEOF_PHDR]; omega)]
  have hL := (foldl_iter_ok hacc hok hnw (long_range (-2) g.ehdr.e_phnum) [] trivial).1
  have hR : ok_from 0 (compute_disps (compute_regions g)) := compute_disps_from_ok _ 0 0 hL
  have hpl : placed_from 0 (compute_disps (compute_regions g)) :=
    (compute_disps_from_placed _ 0 0 (ok_from_sep_from _ 0 hL) (le_refl _)).2
  obtain ⟨rh, _, h2, h3, _, h5, h6⟩ := retained_found hacc hok hnw
    (s := (0, SIZEOF_EHDR)) (List.mem_cons_self _ _)
  obtain ⟨rt, t1, t2, t3, _, t5, t6⟩ := retained_found hacc hok hnw
    (s := (g.ehdr.e_phoff, g.ehdr.e_phentsize * g.ehdr.e_phnum))
    (List.mem_cons_of_mem _ (List.mem_cons_self _ _))
  have hlt : g.ehdr.e_phoff < 4294967296 := hok.1.2.2.2.2.2.2.1
  have ht3 := t3
  obtain ⟨h31, h32⟩ := h3
  obtain ⟨t31, t32⟩ := t3
  simp only [SIZEOF_EHDR] at h31 h32
  simp only [] at t31 t32 t1
  have he : (patched_hdrs (compute_disps (compute_regions g)) g).ehdr.e_phoff =
      g.ehdr.e_phoff - rt.disp := by
    simp only [patched_hdrs, f5, hz, t1]
    exact sub32_of_le (by omega) hlt
  have htf := (ok_from_all hR rt t2).2.1
  have hge : rt.disp ≠ 0 → SIZEOF_EHDR ≤ g.ehdr.e_phoff - rt.disp := by
    intro hd
    simp only [SIZEOF_EHDR]
    rcases images_apart hpl h2 t2 with h | h | h
    · subst h; omega
    · omega
    · omega
  have hne : (patched_hdrs (compute_disps (compute_regions g)) g).ehdr.e_phoff ≠ 0 := by
    rw [he]
    by_cases hd : rt.disp = 0
    · rw [hd]; exact f1
    · have := hge hd
      simp only [SIZEOF_EHDR] at this
      omega
  have hchk : header_checks ENDIAN
      (patched_hdrs (compute_disps (compute_regions g)) g).ehdr :=
    ⟨k1, k2, k3, k4, k5, k6, hne, k8, k9⟩
  refine ⟨_, modify_hdrs_eq _ g f4 c1 c2, ?_, hchk, hne,
    ⟨rt, t2, ht3, he, fun hd => ?_, fun hd => ?_⟩, rfl, rfl, rfl, rfl⟩
  · exact read_hdrs_of_checks hchk _
      (by simp only [patched_hdrs, List.length_map]; exact f4)
  · rw [he]; exact hge hd
  · rw [he, hd]; rfl

/-- C18, witness: two segments a megabyte apart. -/
theorem patched_header_accepted_witness :
    read_hdrs 0 (some (example_ehdr 52 2)) (some two_segments) = .ok two_segment_hdrs ∧
    hdrs_ok two_segment_hdrs ∧
    (∀ s ∈ retained_ranges two_segment_hdrs, s.1 + s.2 < 4294967296) ∧
    ∃ g', modify_hdrs (compute_disps (compute_regions two_segment_hdrs)) two_segment_hdrs
        = Except.ok g' ∧
      read_hdrs 0 (some g'.ehdr) (some g'.phdr) = Except.ok (reread g') ∧
      header_checks 0 g'.ehdr ∧
      g'.ehdr.e_phoff ≠ 0 ∧
      (∃ rt ∈ compute_disps (compute_regions two_segment_hdrs),
        contains_range rt (two_segment_hdrs.ehdr.e_phoff,
          two_segment_hdrs.ehdr.e_phentsize * two_segment_hdrs.ehdr.e_phnum) ∧
        g'.ehdr.e_phoff = two_segment_hdrs.ehdr.e_phoff - rt.disp ∧
        (rt.disp ≠ 0 → SIZEOF_EHDR ≤ g'.ehdr.e_phoff) ∧
        (rt.disp = 0 → g'.ehdr.e_phoff = two_segment_hdrs.ehdr.e_phoff)) ∧
      g'.ehdr.e_ident = two_segment_hdrs.ehdr.e_ident ∧
      g'.ehdr.e_version = two_segment_hdrs.ehdr.e_version ∧
      g'.ehdr.e_phentsize = two_segment_hdrs.ehdr.e_phentsize ∧
      g'.ehdr.e_phnum = two_segment_hdrs.ehdr.e_phnum :=
  ⟨rfl, by decide, by decide,
   patched_header_accepted 0 (some (example_ehdr 52 2)) (some two_segments)
     two_segment_hdrs rfl (by decide) (by decide)⟩

/-- C18, counterexample: every retained range of `table_inside_hdrs` has
offset + size <= 2^32, and the second segment ends exactly at `2^32`.  Its region has
`disp` 0, after it `curoff` is the 32-bit sum 0, and the table, which lies inside the
segment but has a region of its own at the page boundary 0xFFFFF000, gets the `disp`
0xFFFFF000: `modify_hdrs` sets `e_phoff` to 0, and `read_hdrs` rejects the patched file
header with status 100. -/
theorem patched_header_boundary_counterexample :
    read_hdrs 0 (some (example_ehdr 0xFFFFF000 2)) (some table_inside_segments)
      = .ok table_inside_hdrs ∧
    hdrs_ok table_inside_hdrs ∧
    (∀ s ∈ retained_ranges table_inside_hdrs, s.1 + s.2 ≤ 4294967296) ∧
    ∃ g', modify_hdrs (compute_disps (compute_regions table_inside_hdrs)) table_inside_hdrs
        = Except.ok g' ∧
      g'.ehdr.e_phoff = 0 ∧
      read_hdrs 0 (some g'.ehdr) (some g'.phdr) = Except.error 100 := by
  refine ⟨rfl, by decide, by decide, _, rfl, rfl, rfl⟩

/-! ## C19: the order of the insertions -/

/-- Two lists with the invariant that cover the same bytes have the same offsets and
sizes in the same order. -/
theorem cover_unique : ∀ (L1 L2 : List region) (lo : Nat), ok_from lo L1 → ok_from lo L2 →
    (∀ x, in_regions L1 x ↔ in_regions L2 x) →
    L1.map (fun r => (r.offset, r.filesz)) = L2.map (fun r => (r.offset, r.filesz))
  | [], [], _, _, _, _ => rfl
  | [], b :: r2, _, _, h2, hc => by
    have hb : in_regions (b :: r2) b.offset :=
      ⟨b, List.mem_cons_self _ _, le_refl _, by have := h2.2.1; omega⟩
    exact absurd ((hc _).mpr hb) (in_regions_nil _)
  | a :: r1, [], _, h1, _, hc => by
    have ha : in_regions (a :: r1) a.offset :=
      ⟨a, List.mem_cons_self _ _, le_refl _, by have := h1.2.1; omega⟩
    exact absurd ((hc _).mp ha) (in_regions_nil _)
  | a :: r1, b :: r2, lo, ⟨a1, a2, a3, a4⟩, ⟨b1, b2, b3, b4⟩, hc => by
    have hr1 := ok_from_all a4
    have hr2 := ok_from_all b4
    have hoff1 : b.offset ≤ a.offset := by
      obtain ⟨r, hr, x1, x2⟩ := (hc a.offset).mp
        ⟨a, List.mem_cons_self _ _, le_refl _, by omega⟩
      rcases List.mem_cons.mp hr with rfl | hr
      · exact x1
      · have := (hr2 r hr).1; omega
    have hoff2 : a.offset ≤ b.offset := by
      obtain ⟨r, hr, x1, x2⟩ := (hc b.offset).mpr
        ⟨b, List.mem_cons_self _ _, le_refl _, by omega⟩
      rcases List.mem_cons.mp hr with rfl | hr
      · exact x1
      · have := (hr1 r hr).1; omega
    have hend1 : ¬ a.offset + a.filesz < b.offset + b.filesz := by
      intro hlt
      obtain ⟨r, hr, x1, x2⟩ := (hc (a.offset + a.filesz)).mpr
        ⟨b, List.mem_cons_self _ _, by omega, hlt⟩
      rcases List.mem_cons.mp hr with rfl | hr
      · omega
      · have := (hr1 r hr).1; omega
    have hend2 : ¬ b.offset + b.filesz < a.offset + a.filesz := by
      intro hlt
      obtain ⟨r, hr, x1, x2⟩ := (hc (b.offset + b.filesz)).mp
        ⟨a, List.mem_cons_self _ _, by omega, hlt⟩
      rcases List.mem_cons.mp hr with rfl | hr
      · omega
      · have := (hr2 r hr).1; omega
    have ho : a.offset = b.offset := by omega
    have hf : a.filesz = b.filesz := by omega
    have hlo : a.offset + a.filesz + 1 = b.offset + b.filesz + 1 := by omega
    have htail : ∀ x, in_regions r1 x ↔ in_regions r2 x := by
      intro x
      constructor
      · rintro ⟨r, hr, x1, x2⟩
        obtain ⟨r', hr', y1, y2⟩ := (hc x).mp ⟨r, List.mem_cons_of_mem _ hr, x1, x2⟩
        rcases List.mem_cons.mp hr' with rfl | hr'
        · have := (hr1 r hr).1; omega
        · exact ⟨r', hr', y1, y2⟩
      · rintro ⟨r, hr, x1, x2⟩
        obtain ⟨r', hr', y1, y2⟩ := (hc x).mpr ⟨r, List.mem_cons_of_mem _ hr, x1, x2⟩
        rcases List.mem_cons.mp hr' with rfl | hr'
        · have := (hr2 r hr).1; omega
        · exact ⟨r', hr', y1, y2⟩
    have ih := cover_unique r1 r2 (a.offset + a.filesz + 1) a4 (hlo ▸ b4) htail
    simp only [List.map_cons, ho, hf, ih]

/-- A sequence of insertions of non-empty ranges that end below `2^32` keeps the
invariant and covers exactly the bytes of the list and of the ranges. -/
theorem foldl_insert_ok (ss : List (Nat × Nat))
    (hs : ∀ s ∈ ss, 0 < s.2 ∧ s.1 + s.2 < 4294967296) :
    ∀ L0 : List region, ok_from 0 L0 →
    ok_from 0 (ss.foldl (fun L s => insert_region s.1 s.2 L) L0) ∧
    ∀ x, in_regions (ss.foldl (fun L s => insert_region s.1 s.2 L) L0) x ↔
      (in_regions L0 x ∨ ∃ s ∈ ss, in_range x s) := by
  induction ss with
  | nil => intro L0 h0; exact ⟨h0, fun x => by simp⟩
  | cons s rest ih =>
    intro L0 h0
    simp only [List.foldl_cons]
    obtain ⟨s1, s2⟩ := hs s (List.mem_cons_self _ _)
    obtain ⟨i1, i2⟩ := insert_region_ok s.1 s.2 s1 s2 L0 h0
    obtain ⟨j1, j2⟩ := ih (fun t ht => hs t (List.mem_cons_of_mem _ ht)) _ i1
    refine ⟨j1, fun x => ?_⟩
    rw [j2 x, i2 x]
    constructor
    · rintro ((h | h) | ⟨t, ht, h⟩)
      · exact Or.inl h
      · exact Or.inr ⟨s, List.mem_cons_self _ _, h⟩
      · exact Or.inr ⟨t, List.mem_cons_of_mem _ ht, h⟩
    · rintro (h | ⟨t, ht, h⟩)
      · exact Or.inl (Or.inl h)
      · rcases List.mem_cons.mp ht with rfl | ht
        · exact Or.inl (Or.inr h)
        · exact Or.inr ⟨t, ht, h⟩

/-- The region list of an accepted input without wrap does not change its offsets and
sizes when the descriptors are put in another order. -/
theorem compute_regions_perm {ENDIAN : Int} {rd_ehdr : Option Elf32_Ehdr}
    {rd_phdr : Option (List Elf32_Phdr)} {g : hdrs}
    (hacc : read_hdrs ENDIAN rd_ehdr rd_phdr = .ok g) (hok : hdrs_ok g)
    (hnw : ∀ s ∈ retained_ranges g, s.1 + s.2 < 4294967296)
    (t : List Elf32_Phdr) (hp : t.Perm g.phdr) :
    read_hdrs ENDIAN (some g.ehdr) (some t) = Except.ok { g with phdr := t } ∧
    (compute_regions { g with phdr := t }).map (fun r => (r.offset, r.filesz)) =
      (compute_regions g).map (fun r => (r.offset, r.filesz)) := by
  obtain ⟨f1, f2, f3, f4, f5, f6⟩ := read_hdrs_ok_facts hacc
  have hacc2 : read_hdrs ENDIAN (some g.ehdr) (some t) = Except.ok { g with phdr := t } := by
    rw [read_hdrs_of_checks (read_hdrs_checks hacc) t (by rw [hp.length_eq]; exact f4),
      ← f5, ← f6]
  have hok2 : hdrs_ok { g with phdr := t } :=
    ⟨hok.1, fun ph hph => hok.2 ph (hp.mem_iff.mp hph)⟩
  have hperm : (retained_ranges { g with phdr := t }).Perm (retained_ranges g) := by
    unfold retained_ranges
    exact List.Perm.cons _ (List.Perm.cons _ (List.Perm.map _ (List.Perm.filter _ hp)))
  have hnw2 : ∀ s ∈ retained_ranges { g with phdr := t }, s.1 + s.2 < 4294967296 :=
    fun s hs => hnw s (hperm.mem_iff.mp hs)
  have hL := (foldl_iter_ok hacc hok hnw (long_range (-2) g.ehdr.e_phnum) [] trivial).1
  have hL2 := (foldl_iter_ok hacc2 hok2 hnw2 (long_range (-2) g.ehdr.e_phnum) []
    trivial).1
  refine ⟨hacc2, cover_unique _ _ 0 hL2 hL (fun x => ?_)⟩
  rw [compute_regions_important hacc2 hok2 hnw2, compute_regions_important hacc hok hnw]
  unfold important
  constructor
  · rintro ⟨s, hs, h⟩; exact ⟨s, hperm.mem_iff.mp hs, h⟩
  · rintro ⟨s, hs, h⟩; exact ⟨s, hperm.mem_iff.mpr hs, h⟩

/-- C19 (amended): for every finite sequence of non-empty ranges with
offset + size < 2^32 and every permutation of it, inserting the ranges one at a time
with the merge-insert step of `compute_regions` yields the same offsets and sizes in the
same order; the list is the one with the merge invariant that covers exactly the bytes
of the ranges.  In particular, for an accepted input without wrap the table with its
descriptors in another order is accepted as well and `compute_regions` yields the same
offsets and sizes in the same order. -/
theorem insert_order_independent (ss ss' : List (Nat × Nat)) (hp : ss.Perm ss')
    (hs : ∀ s ∈ ss, 0 < s.2 ∧ s.1 + s.2 < 4294967296) :
    (insert_all ss).map (fun r => (r.offset, r.filesz)) =
      (insert_all ss').map (fun r => (r.offset, r.filesz)) ∧
    merge_invariant (insert_all ss) ∧
    (∀ x, in_regions (insert_all ss) x ↔ ∃ s ∈ ss, in_range x s) ∧
    ∀ (ENDIAN : Int) (rd_ehdr : Option Elf32_Ehdr) (rd_phdr : Option (List Elf32_Phdr))
      (g : hdrs), read_hdrs ENDIAN rd_ehdr rd_phdr = .ok g → hdrs_ok g →
      (∀ s ∈ retained_ranges g, s.1 + s.2 < 4294967296) →
      ∀ t : List Elf32_Phdr, t.Perm g.phdr →
        read_hdrs ENDIAN (some g.ehdr) (some t) = Except.ok { g with phdr := t } ∧
        (compute_regions { g with phdr := t }).map (fun r => (r.offset, r.filesz)) =
          (compute_regions g).map (fun r => (r.offset, r.filesz)) := by
  have hs' : ∀ s ∈ ss', 0 < s.2 ∧ s.1 + s.2 < 4294967296 :=
    fun s h => hs s (hp.mem_iff.mpr h)
  obtain ⟨a1, a2⟩ := foldl_insert_ok ss hs [] trivial
  obtain ⟨b1, b2⟩ := foldl_insert_ok ss' hs' [] trivial
  have hcov : ∀ x, in_regions (insert_all ss) x ↔ ∃ s ∈ ss, in_range x s := by
    intro x
    have := a2 x
    simp only [in_regions_nil, false_or] at this
    exact this
  refine ⟨cover_unique _ _ 0 a1 b1 (fun x => ?_), ok_from_merge_invariant a1, hcov,
    fun ENDIAN rd_ehdr rd_phdr g hacc hok hnw t ht => compute_regions_perm hacc hok hnw t ht⟩
  have h2 := b2 x
  simp only [in_regions_nil, false_or] at h2
  show in_regions (insert_all ss) x ↔ in_regions (insert_all ss') x
  rw [hcov x]
  unfold insert_all
  rw [h2]
  constructor
  · rintro ⟨s, h1, h⟩; exact ⟨s, hp.mem_iff.mp h1, h⟩
  · rintro ⟨s, h1, h⟩; exact ⟨s, hp.mem_iff.mpr h1, h⟩

/-- C19, witness: three ranges, two of which touch, in two orders. -/
theorem insert_order_independent_witness :
    [((0x300 : Nat), (0x100 : Nat)), (0, 52), (52, 64)].Perm [(0, 52), (52, 64), (0x300, 0x100)] ∧
    (∀ s ∈ [((0x300 : Nat), (0x100 : Nat)), (0, 52), (52, 64)],
      0 < s.2 ∧ s.1 + s.2 < 4294967296) ∧
    (insert_all [(0x300, 0x100), (0, 52), (52, 64)]).map (fun r => (r.offset, r.filesz)) =
      (insert_all [(0, 52), (52, 64), (0x300, 0x100)]).map
        (fun r => (r.offset, r.filesz)) ∧
    merge_invariant (insert_all [(0x300, 0x100), (0, 52), (52, 64)]) ∧
    (∀ x, in_regions (insert_all [(0x300, 0x100), (0, 52), (52, 64)]) x ↔
      ∃ s ∈ [((0x300 : Nat), (0x100 : Nat)), (0, 52), (52, 64)], in_range x s) ∧
    ∀ (ENDIAN : Int) (rd_ehdr : Option Elf32_Ehdr) (rd_phdr : Option (List Elf32_Phdr))
      (g : hdrs), read_hdrs ENDIAN rd_ehdr rd_phdr = .ok g → hdrs_ok g →
      (∀ s ∈ retained_ranges g, s.1 + s.2 < 4294967296) →
      ∀ t : List Elf32_Phdr, t.Perm g.phdr →
        read_hdrs ENDIAN (some g.ehdr) (some t) = Except.ok { g with phdr := t } ∧
        (compute_regions { g with phdr := t }).map (fun r => (r.offset, r.filesz)) =
          (compute_regions g).map (fun r => (r.offset, r.filesz)) :=
  ⟨by decide, by decide,
   insert_order_independent [(0x300, 0x100), (0, 52), (52, 64)]
     [(0, 52), (52, 64), (0x300, 0x100)] (by decide) (by decide)⟩

/-- C19, counterexample: two non-empty ranges with offset + size <= 2^32 that start at
the same offset, the first ending exactly at `2^32`.  Inserted in this order, the second
range absorbs the first without growing (the 32-bit end of the first is 0) and one
region of 16 bytes remains; inserted in the other order, the second insertion finds no
region to merge with and two regions remain. -/
theorem insert_order_boundary_counterexample :
    [((0xFFFFFF00 : Nat), (0x100 : Nat)), (0xFFFFFF00, 0x10)].Perm
      [(0xFFFFFF00, 0x10), (0xFFFFFF00, 0x100)] ∧
    (∀ s ∈ [((0xFFFFFF00 : Nat), (0x100 : Nat)), (0xFFFFFF00, 0x10)],
      0 < s.2 ∧ s.1 + s.2 ≤ 4294967296) ∧
    (insert_all [(0xFFFFFF00, 0x100), (0xFFFFFF00, 0x10)]).map
        (fun r => (r.offset, r.filesz)) = [(0xFFFFFF00, 0x10)] ∧
    (insert_all [(0xFFFFFF00, 0x10), (0xFFFFFF00, 0x100)]).map
        (fun r => (r.offset, r.filesz)) = [(0xFFFFFF00, 0x100), (0xFFFFFF00, 0x10)] ∧
    (insert_all [(0xFFFFFF00, 0x100), (0xFFFFFF00, 0x10)]).map
        (fun r => (r.offset, r.filesz)) ≠
      (insert_all [(0xFFFFFF00, 0x10), (0xFFFFFF00, 0x100)]).map
        (fun r => (r.offset, r.filesz)) := by
  refine ⟨by decide, by decide, by decide, by decide, by decide⟩

end Superstrip
